import Mathlib

/-!
# Verification of the guile-emacs dynamic-binding and control-flow core

This development is a shallow embedding of the core interpreter runtime of the
guile-emacs repository (files `src/data.c` and `src/eval.c`): the symbol
value-binding engine (plain / aliased / buffer-local / forwarded storage), the
binding stack (specpdl), and the non-local control flow built on Guile prompts
(catch/throw, condition-case/signal, unwind-protect).

Modelling conventions:
* Lisp objects are the inductive `LObj`.  `EQ` is decidable equality on `LObj`;
  mutable cons cells (the (symbol . value) cells of buffer-local machinery and
  other heap-allocated conses) are identified by an id into a heap
  (`State.cells`), so `EQ` on them is id equality, exactly as in the C code.
* Association-list spines that the modelled code traverses but never mutates
  structurally (a buffer's `local_var_alist`, a frame's `param_alist`) are Lean
  lists of cell ids; consing onto / deleting from them is list cons / filter.
* C globals (`specpdl`, `handlerlist`, the Guile dynwind stack, buffers,
  frames, DEFVAR variables) live in one explicit `State` record.
* Guile primitives (`call-with-prompt`, `abort-to-prompt`, `scm_dynwind_*`)
  are not in `src/`; they are modelled from the spec (sections 4.4 and 9):
  aborting to a prompt eagerly unwinds the dynwind stack down to the depth at
  which the prompt was established, running each wind handler exactly once,
  popping each entry before running it.
* Collaborator code that is not under `src/` (buffer.h per-buffer slot macros,
  property lists, `xpalloc`, string formatting) is modelled from the spec and
  marked as such at each definition.
* Functions whose C originals can loop (`indirect_variable`'s chase, the
  signal/throw restart cycle) take explicit fuel; sufficiency of the fuel is
  proved where a claim depends on termination.
-/

namespace GE

/-- Lisp objects.  `sym` is an interned symbol (by id); `cell` is a cons cell
by heap id (so that `EQ` is object identity, as in C); `buffer`/`frame` are
opaque handles to the out-of-scope collaborators. -/
inductive LObj where
  | sym (s : Nat)
  | num (n : Int)
  | str (s : String)
  | cell (c : Nat)
  | buffer (b : Nat)
  | frame (f : Nat)
  deriving DecidableEq, Repr

/-- Fixed ids of the interned symbols the modelled code mentions.  `nil` and
`t` are themselves symbols (ids 0 and 1). -/
def qNil : Nat := 0
def qT : Nat := 1
def qError : Nat := 2
def qUnbound : Nat := 3
def qWrongTypeArgument : Nat := 4
def qCyclicVariableIndirection : Nat := 5
def qSettingConstant : Nat := 6
def qNoCatch : Nat := 7
def qTopLevel : Nat := 8
def qDebug : Nat := 9
def qQuit : Nat := 10
def qWrongNumberOfArguments : Nat := 11
def qInvalidFunction : Nat := 12
def qAndRest : Nat := 13
def qAndOptional : Nat := 14
def qInternalInterpreterEnv : Nat := 15
def qVoidVariable : Nat := 16
def qSymbolp : Nat := 17
def qNumberp : Nat := 18
def qArithError : Nat := 19

def Qnil : LObj := .sym qNil
def Qt : LObj := .sym qT
def Qerror : LObj := .sym qError
def Qunbound : LObj := .sym qUnbound

/-- `NILP` -/
def NILP (x : LObj) : Bool := x = Qnil

/-- `SYMBOLP`.  In Emacs Lisp `nil` and `t` are interned symbols, so every
`LObj.sym` is a symbol and nothing else is. -/
def SYMBOLP (x : LObj) : Bool :=
  match x with
  | .sym _ => true
  | _ => false

/-- Native-storage forwards (`union Lisp_Fwd`).  For `bufferObjFwd` the
`idx` slot carries `PER_BUFFER_IDX (offset)` (in C a parallel table keyed by
the fixed offset; storing it beside the offset is equivalent) and `predicate`
is the symbol naming the type predicate, if any.  For `objFwd`,
`bufDefault = some (offset, idx)` represents an `objvar` that points into
`buffer_defaults` (the DEFVAR_PER_BUFFER default slot special case in
`store_symval_forwarding`). -/
inductive Fwd where
  | intFwd (loc : Nat)
  | boolFwd (loc : Nat)
  | objFwd (loc : Nat) (bufDefault : Option (Nat × Int))
  | bufferObjFwd (offset : Nat) (idx : Int) (predicate : Option Nat)
  | kboardObjFwd (offset : Nat)
  deriving DecidableEq, Repr

/-- A symbol's value redirection (`SYMBOL_REDIRECT` plus the matching
payload: `SYMBOL_VAL`, `SYMBOL_ALIAS`, `SYMBOL_BLV`, `SYMBOL_FWD`). -/
inductive Redirect where
  | plainval (v : LObj)
  | varalias (target : Nat)
  | localized (blvId : Nat)
  | forwarded (fwd : Fwd)
  deriving DecidableEq, Repr

/-- One interned symbol.  `sconst` is the constant flag checked by
`SYMBOL_CONSTANT_P`; `isKeyword` models `Fkeywordp` (name starts with a colon
and interned in the initial obarray — names themselves are not modelled). -/
structure SymbolRec where
  redirect : Redirect
  sconst : Bool
  isKeyword : Bool
  deriving DecidableEq, Repr

/-- `struct Lisp_Buffer_Local_Value`.  `defcell` and `valcell` are heap cell
ids of the (symbol . value) cons cells. -/
structure BLV where
  fwd : Option Fwd
  whereB : LObj
  defcell : Nat
  valcell : Nat
  found : Bool
  frame_local : Bool
  local_if_set : Bool
  deriving DecidableEq, Repr

/-- A buffer, reduced to the interface the modelled core consumes (spec
section 6): liveness, the `local_var_alist` (a list of (symbol . value) cell
ids), the per-buffer slots by offset, and the per-buffer "has its own local
value" flags by idx (`PER_BUFFER_VALUE_P`). -/
structure BufferRec where
  live : Bool
  local_var_alist : List Nat
  slots : Nat → LObj
  localFlags : Int → Bool

/-- A frame: its `param_alist` (cell ids) and its kboard. -/
structure FrameRec where
  param_alist : List Nat
  kboard : Nat

/-- Binding-stack records (`union specbinding`).  `letP` is `SPECPDL_LET`,
the others carry the captured `where` context. -/
inductive SpecpdlEntry where
  | letP (sym : Nat) (old : LObj)
  | letLocal (sym : Nat) (old : LObj) (wh : LObj)
  | letDefault (sym : Nat) (old : LObj) (wh : LObj)
  deriving DecidableEq, Repr

/-- `handler->tag_or_ch` together with `handler->type`: a `CATCHER` carries
the catch tag, a `CONDITION_CASE` carries either the symbol `t`, the symbol
`error` (the two C-installed catch-alls), or a list of condition names (what
`ilcc1` installs for a Lisp clause). -/
inductive TagOrCh where
  | catchTag (tag : LObj)
  | condAll
  | condError
  | condList (conds : List LObj)
  deriving DecidableEq, Repr

/-- One `struct handler`.  `ptag` is the Guile prompt tag made by
`make_prompt_tag` (fresh per handler); `var` and `body` are not stored here
because the evaluator case that installed the handler has them. -/
structure HandlerRec where
  tagOrCh : TagOrCh
  ptag : Nat
  deriving DecidableEq, Repr

/-- A signal in flight: the arguments of `Fsignal`.  Signal data lists are
represented as Lean lists of their elements. -/
structure Sig where
  errsym : LObj
  data : List LObj
  deriving DecidableEq, Repr

/-- The cleanups registered through `record_unwind_protect_ptr_1`: each
either completes, or raises a signal (the class of cleanup behaviour the
claims quantify over).  The `id` makes each run observable in the log. -/
inductive CleanupK where
  | pureK (id : Nat)
  | signalK (id : Nat) (errsym : LObj) (data : List LObj)
  deriving DecidableEq, Repr

/-- One entry of the Guile dynwind stack.  `frameMark` is a
`scm_dynwind_begin` frame boundary; `unbindOnceE` is the `unbind_once`
handler registered at the end of `specbind`; `cleanupE` is a
`record_unwind_protect` handler (with its `SCM_F_WIND_EXPLICITLY` flag);
`setHandlersE`/`restoreHandlerE` are the two handlers `icc_thunk` registers
(restoring `handlerlist`, resp. the flag-0 input-unblocking handler). -/
inductive DynEntry where
  | frameMark
  | unbindOnceE
  | cleanupE (c : CleanupK) (explicitly : Bool)
  | setHandlersE (saved : List HandlerRec)
  | restoreHandlerE
  deriving DecidableEq, Repr

/-- Observable events, recorded as instrumentation so that the ordering
claims (unwind order, cleanup runs, warnings) can be stated.  Log appends
mark the execution of the corresponding source line and change nothing else. -/
inductive Ev where
  | restored (sym : Nat) (v : LObj)
  | restoredDefault (sym : Nat) (v : LObj)
  | restoredLocal (sym : Nat) (v : LObj) (wh : LObj)
  | skippedLocal (sym : Nat) (wh : LObj)
  | cleanupRan (id : Nat)
  | msg (s : String)
  deriving DecidableEq, Repr

/-- The whole mutable state of the modelled core: the symbol table, BLV and
cons heaps, buffers and frames, the native-storage arrays, the specpdl, the
Guile dynwind stack and prompt stack, `handlerlist`, and the DEFVAR settings
the signal path consults.  `fastStringMatch` and `errorMessageString` are the
out-of-src collaborators (regex match, error formatting) modelled from the
spec as opaque state functions. -/
@[ext]
structure State where
  nsyms : Nat
  syms : Nat → SymbolRec
  nblvs : Nat
  blvs : Nat → BLV
  nextCell : Nat
  cells : Nat → LObj × LObj
  allBuffers : List Nat
  bufs : Nat → BufferRec
  allFrames : List Nat
  frames : Nat → FrameRec
  currentBuffer : Nat
  selectedFrame : Nat
  perBufferDefaults : Nat → LObj
  intVars : Nat → Int
  boolVars : Nat → Bool
  objVars : Nat → LObj
  kboards : Nat → Nat → LObj
  specpdl : List SpecpdlEntry
  specpdlSize : Nat
  maxSpecpdlSize : Nat
  dynwind : List DynEntry
  handlers : List HandlerRec
  prompts : List (Nat × Nat)
  nextPtag : Nat
  errorConditions : Nat → List LObj
  predFns : Nat → LObj → Bool
  signalHook : LObj
  vDebugOnError : LObj
  vDebugOnSignal : LObj
  debugOnQuit : Bool
  vInhibitDebugger : LObj
  vDebugIgnoredErrors : LObj
  inputBlocked : Bool
  debuggerGuard : Bool
  fastStringMatch : LObj → LObj → Bool
  errorMessageString : List LObj → LObj
  log : List Ev

/-- Pointwise update of a `Nat`-indexed table. -/
def updN {α : Type} (k : Nat) (v : α) (f : Nat → α) : Nat → α :=
  fun x => if x = k then v else f x

/-- Append an instrumentation event. -/
def appendLog (e : Ev) (st : State) : State :=
  {st with log := st.log ++ [e]}

/-- `Fcons`: allocate a fresh cons cell. -/
def Fcons (car cdr : LObj) (st : State) : Nat × State :=
  (st.nextCell,
   {st with cells := updN st.nextCell (car, cdr) st.cells, nextCell := st.nextCell + 1})

/-- Build a heap list out of a Lean list of elements (`list1`..`Flist`). -/
def mkHeapList (l : List LObj) (st : State) : LObj × State :=
  match l with
  | [] => (Qnil, st)
  | x :: rest =>
    let (tail, st1) := mkHeapList rest st
    let (c, st2) := Fcons x tail st1
    (.cell c, st2)

/-- Read back the elements of a heap list (proper-list prefix, fuel-bounded
by the heap size: every reachable list built by the model has cell ids below
`nextCell`, hence length below it). -/
def heapElemsF (cells : Nat → LObj × LObj) : Nat → LObj → List LObj
  | 0, _ => []
  | fuel+1, v =>
    match v with
    | .cell c => (cells c).1 :: heapElemsF cells fuel (cells c).2
    | _ => []

def heapElems (st : State) (v : LObj) : List LObj :=
  heapElemsF st.cells st.nextCell v

/-- `assq_no_quit` / `Fassq` over an alist represented as a list of cons-cell
ids: the first cell whose car is `EQ` to `key`. -/
def assqIds (st : State) (key : LObj) (alist : List Nat) : Option Nat :=
  alist.find? (fun c => (st.cells c).1 = key)

/-- Result of a state operation: normal return, a raised signal (`xsignal`,
with the state at the raise point), `emacs_abort` / a switch case that the C
code treats as unreachable, or fuel exhaustion (a model artifact, proved
absent where a claim depends on it). -/
inductive SRes (α : Type) where
  | ok (a : α) (st : State)
  | sig (e : Sig) (st : State)
  | ab (st : State)
  | oom (st : State)

/-- `xsignal2 (Qwrong_type_argument, predicate, value)`. -/
def wrongType (pred : Nat) (v : LObj) : Sig :=
  ⟨.sym qWrongTypeArgument, [.sym pred, v]⟩

/-- `SYMBOL_ALIAS`: the union field read; meaningful only under the
`varalias` tag (the C code only reads it there). -/
def symbolAlias (st : State) (s : Nat) : Nat :=
  match (st.syms s).redirect with
  | .varalias t => t
  | _ => 0

def isAlias (st : State) (s : Nat) : Bool :=
  match (st.syms s).redirect with
  | .varalias _ => true
  | _ => false

/-- The tortoise/hare loop of `indirect_variable` (src/src/data.c:838-863),
fuel-indexed.  Each iteration advances the hare twice and the tortoise once
and signals `cyclic-variable-indirection` naming the original symbol when
they meet. -/
def ivLoop (st : State) (orig : Nat) : Nat → Nat → Nat → SRes Nat
  | 0, _, _ => .oom st
  | fuel+1, tortoise, hare =>
    if isAlias st hare then
      let hare1 := symbolAlias st hare
      if isAlias st hare1 then
        let hare2 := symbolAlias st hare1
        let tortoise1 := symbolAlias st tortoise
        if hare2 = tortoise1 then
          .sig ⟨.sym qCyclicVariableIndirection, [.sym orig]⟩ st
        else ivLoop st orig fuel tortoise1 hare2
      else .ok hare1 st
    else .ok hare st

/-- `indirect_variable` (src/src/data.c:838-863).  The fuel is an upper bound
on the iterations Floyd cycle detection can take over a symbol table of
`nsyms` symbols; sufficiency is proved below (claim C5). -/
def indirect_variable (st : State) (s : Nat) : SRes Nat :=
  ivLoop st s (st.nsyms * st.nsyms + st.nsyms + 2) s s

/-- The `start:` / `goto start` alias-resolution pattern shared by `specbind`,
`set_internal`, `find_symbol_value`, `default_value`, `Fset_default`, ...:
after `indirect_variable` the symbol is never an alias, so the C loop takes
the `SYMBOL_VARALIAS` case at most once. -/
def chaseToNonAlias (st : State) (s : Nat) : SRes Nat :=
  if isAlias st s then indirect_variable st s else .ok s st

def qBufferp : Nat := 20

/-- Sequencing of state operations (threads the state, propagates signals,
aborts and fuel exhaustion). -/
def SRes.bind {α β : Type} (r : SRes α) (f : α → State → SRes β) : SRes β :=
  match r with
  | .ok a st => f a st
  | .sig e st => .sig e st
  | .ab st => .ab st
  | .oom st => .oom st

/-- Pointwise update of an `Int`-indexed table. -/
def updI {α : Type} (k : Int) (v : α) (f : Int → α) : Int → α :=
  fun x => if x = k then v else f x

/-- `Fcurrent_buffer`. -/
def curBuf (st : State) : LObj := .buffer st.currentBuffer

def updBuf (b : Nat) (f : BufferRec → BufferRec) (st : State) : State :=
  {st with bufs := updN b (f (st.bufs b)) st.bufs}

/-- `set_per_buffer_value (b, offset, v)` (buffer.h collaborator, modelled
from the spec: write a named per-buffer slot by offset). -/
def set_per_buffer_value (b : Nat) (offset : Nat) (v : LObj) (st : State) : State :=
  updBuf b (fun r => {r with slots := updN offset v r.slots}) st

/-- `SET_PER_BUFFER_VALUE_P (b, idx, fl)` (buffer.h collaborator, modelled
from the spec: the per-buffer "has its own local value" bit). -/
def setPerBufferFlag (b : Nat) (idx : Int) (fl : Bool) (st : State) : State :=
  updBuf b (fun r => {r with localFlags := updI idx fl r.localFlags}) st

/-- Overwrite a symbol's redirection (`SET_SYMBOL_REDIRECT` plus payload). -/
def setRedirect (s : Nat) (r : Redirect) (st : State) : State :=
  {st with syms := updN s {st.syms s with redirect := r} st.syms}

/-- `SET_SYMBOL_VAL` (the symbol must be `SYMBOL_PLAINVAL`). -/
def SET_SYMBOL_VAL (s : Nat) (v : LObj) (st : State) : State :=
  setRedirect s (.plainval v) st

def liveBuffers (st : State) : List Nat :=
  st.allBuffers.filter (fun b => (st.bufs b).live)

/-- The propagation loop shared by `store_symval_forwarding`'s `Lisp_Fwd_Obj`
buffer-defaults case and `Fset_default`'s `Lisp_Fwd_Buffer_Obj` case: set the
per-buffer slot in each listed buffer that does not have its own local
value. -/
def setSlotNonLocal (offset : Nat) (idx : Int) (v : LObj) : List Nat → State → State
  | [], st => st
  | b :: rest, st =>
    let st1 := if (st.bufs b).localFlags idx then st else set_per_buffer_value b offset v st
    setSlotNonLocal offset idx v rest st1

/-- `do_symval_forwarding` (src/src/data.c:891-926). -/
def do_symval_forwarding (st : State) (fwd : Fwd) : LObj :=
  match fwd with
  | .intFwd loc => .num (st.intVars loc)
  | .boolFwd loc => if st.boolVars loc then Qt else Qnil
  | .objFwd loc _ => st.objVars loc
  | .bufferObjFwd offset _ _ => (st.bufs st.currentBuffer).slots offset
  | .kboardObjFwd offset => st.kboards ((st.frames st.selectedFrame).kboard) offset

/-- `store_symval_forwarding` (src/src/data.c:937-1005).  `buf = none` is the
C NULL buffer argument (meaning the current buffer for per-buffer slots). -/
def store_symval_forwarding (fwd : Fwd) (newval : LObj) (buf : Option Nat)
    (st : State) : SRes Unit :=
  match fwd with
  | .intFwd loc =>
    match newval with
    | .num n => .ok () {st with intVars := updN loc n st.intVars}
    | _ => .sig (wrongType qNumberp newval) st
  | .boolFwd loc => .ok () {st with boolVars := updN loc (¬ NILP newval) st.boolVars}
  | .objFwd loc bufDefault =>
    let st1 := {st with objVars := updN loc newval st.objVars}
    match bufDefault with
    | some (offset, idx) =>
      -- the objvar points into buffer_defaults: update the live buffers
      -- that do not have local values for it
      if idx ≤ 0 then .ok () st1
      else .ok () (setSlotNonLocal offset idx newval (liveBuffers st1) st1)
    | none => .ok () st1
  | .bufferObjFwd offset _ predicate =>
    let predOk : Bool :=
      match predicate with
      | some p => NILP newval || st.predFns p newval
      | none => true
    if predOk then
      let b := buf.getD st.currentBuffer
      .ok () (set_per_buffer_value b offset newval st)
    else
      .sig (wrongType (predicate.getD qNil) newval) st
  | .kboardObjFwd offset =>
    let kb := (st.frames st.selectedFrame).kboard
    .ok () {st with kboards := updN kb (updN offset newval (st.kboards kb)) st.kboards}

/-- `blv_value`: `XCDR (blv->valcell)`. -/
def blv_value (st : State) (blv : BLV) : LObj := (st.cells blv.valcell).2

/-- `set_blv_value`: `XSETCDR (blv->valcell, val)`. -/
def set_blv_value (blv : BLV) (v : LObj) (st : State) : State :=
  {st with cells := updN blv.valcell ((st.cells blv.valcell).1, v) st.cells}

/-- `XSETCDR (blv->defcell, value)` as done by `Fset_default`. -/
def set_defcell_value (blv : BLV) (v : LObj) (st : State) : State :=
  {st with cells := updN blv.defcell ((st.cells blv.defcell).1, v) st.cells}

def putBlv (blvId : Nat) (blv : BLV) (st : State) : State :=
  {st with blvs := updN blvId blv st.blvs}

/-- `swap_in_global_binding` (src/src/data.c:1013-1029). -/
def swap_in_global_binding (blvId : Nat) (st : State) : SRes Unit :=
  let blv := st.blvs blvId
  -- Unload the previously loaded binding.
  let st1 := match blv.fwd with
             | some f => set_blv_value blv (do_symval_forwarding st f) st
             | none => st
  -- Select the global binding in the symbol.
  let blv1 := {blv with valcell := blv.defcell}
  let st2 := putBlv blvId blv1 st1
  let step : SRes Unit :=
    match blv1.fwd with
    | some f => store_symval_forwarding f ((st2.cells blv1.defcell).2) none st2
    | none => .ok () st2
  SRes.bind step (fun _ st3 =>
    -- Indicate that the global binding is set up now.
    .ok () (putBlv blvId {st3.blvs blvId with whereB := Qnil, found := false} st3))

/-- `swap_in_symval_forwarding` (src/src/data.c:1038-1080). -/
def swap_in_symval_forwarding (s : Nat) (blvId : Nat) (st : State) : SRes Unit :=
  let blv := st.blvs blvId
  let tem1 := blv.whereB
  if NILP tem1
     ∨ (if blv.frame_local then tem1 ≠ .frame st.selectedFrame
        else tem1 ≠ .buffer st.currentBuffer) then
    -- Unload the previously loaded binding.
    let st1 := match blv.fwd with
               | some f => set_blv_value blv (do_symval_forwarding st f) st
               | none => st
    -- Choose the new binding.
    let var : LObj := .sym s
    let tem2 :=
      if blv.frame_local then
        assqIds st1 var ((st1.frames st1.selectedFrame).param_alist)
      else
        assqIds st1 var ((st1.bufs st1.currentBuffer).local_var_alist)
    let newWhere : LObj :=
      if blv.frame_local then .frame st1.selectedFrame else .buffer st1.currentBuffer
    let found := tem2.isSome
    let valc := match tem2 with
                | some c => c
                | none => blv.defcell
    let blv1 := {blv with whereB := newWhere, found := found, valcell := valc}
    let st2 := putBlv blvId blv1 st1
    -- Load the new binding.
    match blv1.fwd with
    | some f => store_symval_forwarding f (blv_value st2 blv1) none st2
    | none => .ok () st2
  else .ok () st

/-- `find_symbol_value` (src/src/data.c:1085-1110). -/
def find_symbol_value (symbol : LObj) (st : State) : SRes LObj :=
  match symbol with
  | .sym s0 =>
    SRes.bind (chaseToNonAlias st s0) (fun s st1 =>
      match (st1.syms s).redirect with
      | .plainval v => .ok v st1
      | .localized blvId =>
        SRes.bind (swap_in_symval_forwarding s blvId st1) (fun _ st2 =>
          let blv := st2.blvs blvId
          match blv.fwd with
          | some f => .ok (do_symval_forwarding st2 f) st2
          | none => .ok (blv_value st2 blv) st2)
      | .forwarded f => .ok (do_symval_forwarding st1 f) st1
      | .varalias _ => .ab st1)
  | _ => .sig (wrongType qSymbolp symbol) st

/-- `Fsymbol_value` (src/src/data.c:1115-1128). -/
def Fsymbol_value (symbol : LObj) (st : State) : SRes LObj :=
  SRes.bind (find_symbol_value symbol st) (fun v st1 =>
    if v = Qunbound then .sig ⟨.sym qVoidVariable, [symbol]⟩ st1 else .ok v st1)

/-- `let_shadows_buffer_binding_p` (src/src/eval.c:2125-2142): is there a
specpdl entry of kind above `SPECPDL_LET` for this symbol whose captured
context is the current buffer? -/
def let_shadows_buffer_binding_p (s : Nat) (st : State) : Bool :=
  st.specpdl.any (fun p =>
    match p with
    | .letP _ _ => false
    | .letLocal s2 _ wh => s2 = s ∧ wh = .buffer st.currentBuffer
    | .letDefault s2 _ wh => s2 = s ∧ wh = .buffer st.currentBuffer)

/-- `let_shadows_global_binding_p` (src/src/eval.c:2144-2153). -/
def let_shadows_global_binding_p (symbol : LObj) (st : State) : Bool :=
  st.specpdl.any (fun p =>
    match p with
    | .letP s _ => LObj.sym s = symbol
    | .letLocal s _ _ => LObj.sym s = symbol
    | .letDefault s _ _ => LObj.sym s = symbol)

/-- `Flocal_variable_p` (src/src/data.c:1807-1866). -/
def Flocal_variable_p (varbl : LObj) (buffer : LObj) (st : State) : SRes LObj :=
  let bufOpt : Option Nat :=
    if NILP buffer then some st.currentBuffer
    else match buffer with
         | .buffer b => some b
         | _ => none
  match bufOpt with
  | none => .sig (wrongType qBufferp buffer) st
  | some b =>
    match varbl with
    | .sym s0 =>
      SRes.bind (chaseToNonAlias st s0) (fun s st1 =>
        match (st1.syms s).redirect with
        | .plainval _ => .ok Qnil st1
        | .localized blvId =>
          let blv := st1.blvs blvId
          if blv.whereB = .buffer b then
            .ok (if blv.found then Qt else Qnil) st1
          else if ((st1.bufs b).local_var_alist.any
                    (fun c => (st1.cells c).1 = LObj.sym s)) then
            .ok Qt st1
          else .ok Qnil st1
        | .forwarded f =>
          match f with
          | .bufferObjFwd _ idx _ =>
            if idx = -1 ∨ (st1.bufs b).localFlags idx then .ok Qt st1 else .ok Qnil st1
          | _ => .ok Qnil st1
        | .varalias _ => .ab st1)
    | _ => .sig (wrongType qSymbolp varbl) st

/-- The `SYMBOL_LOCALIZED` case of `set_internal` (src/src/data.c:1173-1265),
after alias resolution: `s` is the resolved symbol. -/
def set_internal_blv (s : Nat) (blvId : Nat) (newval : LObj) (whereArg : LObj)
    (bindflag : Bool) (voide : Bool) (st : State) : SRes Unit :=
  let blv := st.blvs blvId
  let whereV : LObj :=
    if NILP whereArg then
      (if blv.frame_local then .frame st.selectedFrame else .buffer st.currentBuffer)
    else whereArg
  let step : SRes Unit :=
    if blv.whereB ≠ whereV ∨ blv.valcell = blv.defcell then
      -- The currently loaded binding is not necessarily valid: unload it
      -- and choose a new binding.
      let st1 := match blv.fwd with
                 | some f => set_blv_value blv (do_symval_forwarding st f) st
                 | none => st
      let tem1Opt : Option (Option Nat) :=
        if blv.frame_local then
          match whereV with
          | .frame fr => some (assqIds st1 (LObj.sym s) ((st1.frames fr).param_alist))
          | _ => none
        else
          match whereV with
          | .buffer b => some (assqIds st1 (LObj.sym s) ((st1.bufs b).local_var_alist))
          | _ => none
      match tem1Opt with
      | none => .ab st1
      | some tem1 =>
        let blv1 := {blv with whereB := whereV, found := true}
        match tem1 with
        | some c => .ok () (putBlv blvId {blv1 with valcell := c} st1)
        | none =>
          if bindflag ∨ ¬ blv.local_if_set ∨ let_shadows_buffer_binding_p s st1 then
            -- This buffer still sees the default value.
            .ok () (putBlv blvId {blv1 with found := false, valcell := blv.defcell} st1)
          else
            -- Create a new buffer-local binding for the variable.
            let (c, st2) := Fcons (LObj.sym s) ((st1.cells blv.defcell).2) st1
            match whereV with
            | .buffer b =>
              let st3 := updBuf b (fun r => {r with local_var_alist := c :: r.local_var_alist}) st2
              .ok () (putBlv blvId {blv1 with valcell := c} st3)
            | _ => .ab st2
    else .ok () st
  SRes.bind step (fun _ st4 =>
    -- Store the new value in the cons cell.
    let blv2 := st4.blvs blvId
    let st5 := set_blv_value blv2 newval st4
    match blv2.fwd with
    | some f =>
      if voide then .ok () (putBlv blvId {blv2 with fwd := none} st5)
      else
        let bufArg := match whereV with
                      | .buffer b => b
                      | _ => st5.currentBuffer
        store_symval_forwarding f newval (some bufArg) st5
    | none => .ok () st5)

/-- `set_internal` (src/src/data.c:1145-1292). -/
def set_internal (symbol : LObj) (newval : LObj) (whereArg : LObj) (bindflag : Bool)
    (st : State) : SRes Unit :=
  let voide := newval = Qunbound
  match symbol with
  | .sym s0 =>
    let constStep : SRes Unit :=
      if (st.syms s0).sconst then
        if ¬ (st.syms s0).isKeyword then .sig ⟨.sym qSettingConstant, [symbol]⟩ st
        else
          SRes.bind (Fsymbol_value symbol st) (fun v st1 =>
            if newval ≠ v then .sig ⟨.sym qSettingConstant, [symbol]⟩ st1
            else .ok () st1)
      else .ok () st
    match constStep with
    | .ok _ stc =>
      if (stc.syms s0).sconst then .ok () stc   -- "Allow setting keywords to their own value": return
      else
        SRes.bind (chaseToNonAlias stc s0) (fun s st1 =>
          match (st1.syms s).redirect with
          | .plainval _ => .ok () (SET_SYMBOL_VAL s newval st1)
          | .localized blvId => set_internal_blv s blvId newval whereArg bindflag voide st1
          | .forwarded fwd =>
            let buf := match whereArg with
                       | .buffer b => b
                       | _ => st1.currentBuffer
            let st2 :=
              match fwd with
              | .bufferObjFwd _ idx _ =>
                if idx > 0 ∧ ¬ bindflag ∧ ¬ let_shadows_buffer_binding_p s st1 then
                  setPerBufferFlag buf idx true st1
                else st1
              | _ => st1
            if voide then
              -- Storing void: forward only through the buffer-local indicator.
              .ok () (setRedirect s (.plainval newval) st2)
            else store_symval_forwarding fwd newval (some buf) st2
          | .varalias _ => .ab st1)
    | r => r
  | _ => .sig (wrongType qSymbolp symbol) st

/-- `Fset` (src/src/data.c:1130-1136). -/
def Fset (symbol : LObj) (newval : LObj) (st : State) : SRes LObj :=
  SRes.bind (set_internal symbol newval Qnil false st) (fun _ st1 => .ok newval st1)

/-- `default_value` (src/src/data.c:1294-1341). -/
def default_value (symbol : LObj) (st : State) : SRes LObj :=
  match symbol with
  | .sym s0 =>
    SRes.bind (chaseToNonAlias st s0) (fun s st1 =>
      match (st1.syms s).redirect with
      | .plainval v => .ok v st1
      | .localized blvId =>
        let blv := st1.blvs blvId
        match blv.fwd with
        | some f =>
          if blv.valcell = blv.defcell then .ok (do_symval_forwarding st1 f) st1
          else .ok ((st1.cells blv.defcell).2) st1
        | none => .ok ((st1.cells blv.defcell).2) st1
      | .forwarded f =>
        match f with
        | .bufferObjFwd offset idx _ =>
          if idx ≠ 0 then .ok (st1.perBufferDefaults offset) st1
          else .ok (do_symval_forwarding st1 f) st1
        | _ => .ok (do_symval_forwarding st1 f) st1
      | .varalias _ => .ab st1)
  | _ => .sig (wrongType qSymbolp symbol) st

/-- `Fdefault_value` (src/src/data.c:1355-1367). -/
def Fdefault_value (symbol : LObj) (st : State) : SRes LObj :=
  SRes.bind (default_value symbol st) (fun v st1 =>
    if v = Qunbound then .sig ⟨.sym qVoidVariable, [symbol]⟩ st1 else .ok v st1)

/-- `Fset_default` (src/src/data.c:1369-1437). -/
def Fset_default (symbol : LObj) (value : LObj) (st : State) : SRes LObj :=
  match symbol with
  | .sym s0 =>
    let constStep : SRes Unit :=
      if (st.syms s0).sconst then
        if ¬ (st.syms s0).isKeyword then .sig ⟨.sym qSettingConstant, [symbol]⟩ st
        else
          SRes.bind (Fdefault_value symbol st) (fun v st1 =>
            if value ≠ v then .sig ⟨.sym qSettingConstant, [symbol]⟩ st1
            else .ok () st1)
      else .ok () st
    match constStep with
    | .ok _ stc =>
      if (stc.syms s0).sconst then .ok value stc   -- keyword set to its own value: return
      else
        SRes.bind (chaseToNonAlias stc s0) (fun s st1 =>
          match (st1.syms s).redirect with
          | .plainval _ => Fset symbol value st1
          | .localized blvId =>
            let blv := st1.blvs blvId
            -- Store new value into the DEFAULT-VALUE slot.
            let st2 := set_defcell_value blv value st1
            -- If the default binding is now loaded, set the REALVALUE slot too.
            match blv.fwd with
            | some f =>
              if blv.defcell = blv.valcell then
                SRes.bind (store_symval_forwarding f value none st2)
                  (fun _ st3 => .ok value st3)
              else .ok value st2
            | none => .ok value st2
          | .forwarded fwd =>
            match fwd with
            | .bufferObjFwd offset idx _ =>
              let st2 := {st1 with perBufferDefaults := updN offset value st1.perBufferDefaults}
              if idx > 0 then
                .ok value (setSlotNonLocal offset idx value st2.allBuffers st2)
              else .ok value st2
            | _ => Fset symbol value st1
          | .varalias _ => .ab st1)
    | .sig e stc => .sig e stc
    | .ab stc => .ab stc
    | .oom stc => .oom stc
  | _ => .sig (wrongType qSymbolp symbol) st

/-- `make_blv` (src/src/data.c:1447-1472).  The `union Lisp_Val_Fwd` argument
is split into the flag plus both members. -/
def make_blv (s : Nat) (forwarded : Bool) (valfwd : Fwd) (valval : LObj)
    (st : State) : Nat × State :=
  let contents := if forwarded then do_symval_forwarding st valfwd else valval
  let (tem, st1) := Fcons (.sym s) contents st
  let blv : BLV :=
    { fwd := if forwarded then some valfwd else none
      whereB := Qnil
      defcell := tem
      valcell := tem
      found := false
      frame_local := false
      local_if_set := false }
  (st1.nblvs, {st1 with blvs := updN st1.nblvs blv st1.blvs, nblvs := st1.nblvs + 1})

/-- `Fboundp` (src/src/data.c:616-650). -/
def Fboundp (symbol : LObj) (st : State) : SRes LObj :=
  match symbol with
  | .sym s0 =>
    SRes.bind (chaseToNonAlias st s0) (fun s st1 =>
      match (st1.syms s).redirect with
      | .plainval v => .ok (if v = Qunbound then Qnil else Qt) st1
      | .localized blvId =>
        let blv := st1.blvs blvId
        match blv.fwd with
        | some _ => .ok Qt st1
        | none =>
          SRes.bind (swap_in_symval_forwarding s blvId st1) (fun _ st2 =>
            let v := blv_value st2 (st2.blvs blvId)
            .ok (if v = Qunbound then Qnil else Qt) st2)
      | .forwarded _ => .ok Qt st1
      | .varalias _ => .ab st1)
  | _ => .sig (wrongType qSymbolp symbol) st

/-- `Fmake_variable_buffer_local` (src/src/data.c:1474-1540). -/
def Fmake_variable_buffer_local (varbl : LObj) (st : State) : SRes LObj :=
  match varbl with
  | .sym s0 =>
    SRes.bind (chaseToNonAlias st s0) (fun s st1 =>
      let pre : SRes (Option Nat × Bool × Fwd × LObj) :=
        match (st1.syms s).redirect with
        | .plainval v =>
          .ok (none, false, .intFwd 0, if v = Qunbound then Qnil else v) st1
        | .localized blvId =>
          if (st1.blvs blvId).frame_local then
            .sig ⟨Qerror, [.str "Symbol %s may not be buffer-local"]⟩ st1
          else .ok (some blvId, false, .intFwd 0, Qnil) st1
        | .forwarded f =>
          match f with
          | .kboardObjFwd _ => .sig ⟨Qerror, [.str "Symbol %s may not be buffer-local"]⟩ st1
          | _ => .ok (none, true, f, Qnil) st1
        | .varalias _ => .ab st1
      match (st1.syms s).redirect with
      | .forwarded (.bufferObjFwd _ _ _) => .ok varbl st1   -- already per-buffer: return
      | _ =>
        SRes.bind pre (fun args st2 =>
          let (blv0, forwarded, valfwd, valval) := args
          if (st2.syms s).sconst then
            .sig ⟨Qerror, [.str "Symbol %s may not be buffer-local"]⟩ st2
          else
            let (blvId, st3) :=
              match blv0 with
              | some id => (id, st2)
              | none =>
                let (id, stm) := make_blv s forwarded valfwd valval st2
                let stm2 := setRedirect s (.localized id) stm
                let stm3 :=
                  if let_shadows_global_binding_p (.sym s) stm2 then
                    appendLog (.msg "Making %s buffer-local while let-bound!") stm2
                  else stm2
                (id, stm3)
            .ok varbl (putBlv blvId {st3.blvs blvId with local_if_set := true} st3))
      )
  | _ => .sig (wrongType qSymbolp varbl) st

/-- `Fmake_local_variable` (src/src/data.c:1542-1663). -/
def Fmake_local_variable (varbl : LObj) (st : State) : SRes LObj :=
  match varbl with
  | .sym s0 =>
    SRes.bind (chaseToNonAlias st s0) (fun s st1 =>
      let pre : SRes (Option Nat × Bool × Fwd × LObj) :=
        match (st1.syms s).redirect with
        | .plainval v => .ok (none, false, .intFwd 0, v) st1
        | .localized blvId =>
          if (st1.blvs blvId).frame_local then
            .sig ⟨Qerror, [.str "Symbol %s may not be buffer-local"]⟩ st1
          else .ok (some blvId, false, .intFwd 0, Qnil) st1
        | .forwarded f =>
          match f with
          | .kboardObjFwd _ => .sig ⟨Qerror, [.str "Symbol %s may not be buffer-local"]⟩ st1
          | _ => .ok (none, true, f, Qnil) st1
        | .varalias _ => .ab st1
      SRes.bind pre (fun args st2 =>
        let (blv0, forwarded, valfwd, valval) := args
        if (st2.syms s).sconst then
          .sig ⟨Qerror, [.str "Symbol %s may not be buffer-local"]⟩ st2
        else
          let localIfSet :=
            match blv0 with
            | some id => (st2.blvs id).local_if_set
            | none =>
              forwarded && (match valfwd with
                            | .bufferObjFwd _ _ _ => true
                            | _ => false)
          if localIfSet then
            -- Make sure the symbol has a local value in this particular
            -- buffer, by setting it to the same value it already has.
            SRes.bind (Fboundp varbl st2) (fun tem st3 =>
              SRes.bind
                (if tem = Qt then Fsymbol_value varbl st3 else .ok Qunbound st3)
                (fun v st4 =>
                  SRes.bind (Fset varbl v st4) (fun _ st5 => .ok varbl st5)))
          else
            let (blvId, st3) :=
              match blv0 with
              | some id => (id, st2)
              | none =>
                let (id, stm) := make_blv s forwarded valfwd valval st2
                let stm2 := setRedirect s (.localized id) stm
                let stm3 :=
                  if let_shadows_global_binding_p (.sym s) stm2 then
                    appendLog (.msg "Making %s local to %s while let-bound!") stm2
                  else stm2
                (id, stm3)
            -- Make sure this buffer has its own value of symbol.
            let varbl2 : LObj := .sym s
            let tem := assqIds st3 varbl2 ((st3.bufs st3.currentBuffer).local_var_alist)
            let step : SRes Unit :=
              match tem with
              | some _ => .ok () st3
              | none =>
                let st4 :=
                  if let_shadows_buffer_binding_p s st3 then
                    appendLog (.msg "Making %s buffer-local while locally let-bound!") st3
                  else st3
                -- Swap out any local binding for some other buffer, and make
                -- sure the current value is permanently recorded.
                SRes.bind (find_symbol_value varbl2 st4) (fun _ st5 =>
                  let blv := st5.blvs blvId
                  let (c, st6) := Fcons varbl2 ((st5.cells blv.defcell).2) st5
                  let st7 := updBuf st6.currentBuffer
                              (fun r => {r with local_var_alist := c :: r.local_var_alist}) st6
                  let blv2 := st7.blvs blvId
                  let blv3 :=
                    if blv2.whereB = .buffer st7.currentBuffer then
                      {blv2 with whereB := Qnil, found := false}
                    else {blv2 with found := false}
                  .ok () (putBlv blvId blv3 st7))
            SRes.bind step (fun _ st8 =>
              -- If the symbol forwards into a C variable, load the binding
              -- for this buffer now.
              match (st8.blvs blvId).fwd with
              | some _ =>
                SRes.bind (swap_in_symval_forwarding s blvId st8)
                  (fun _ st9 => .ok varbl2 st9)
              | none => .ok varbl2 st8)))
  | _ => .sig (wrongType qSymbolp varbl) st

/-- `Fmake_variable_frame_local` (src/src/data.c:1779-1805). -/
def Fmake_variable_frame_local (varbl : LObj) (st : State) : SRes LObj :=
  match varbl with
  | .sym s0 =>
    SRes.bind (chaseToNonAlias st s0) (fun s st1 =>
      let pre : SRes (Bool × Fwd × LObj) :=
        match (st1.syms s).redirect with
        | .plainval v => .ok (false, .intFwd 0, if v = Qunbound then Qnil else v) st1
        | .localized blvId =>
          if (st1.blvs blvId).frame_local then .ok (false, .intFwd 0, Qnil) st1
          else .sig ⟨Qerror, [.str "Symbol %s may not be frame-local"]⟩ st1
        | .forwarded f =>
          match f with
          | .kboardObjFwd _ => .sig ⟨Qerror, [.str "Symbol %s may not be frame-local"]⟩ st1
          | .bufferObjFwd _ _ _ => .sig ⟨Qerror, [.str "Symbol %s may not be frame-local"]⟩ st1
          | _ => .ok (true, f, Qnil) st1
        | .varalias _ => .ab st1
      match (st1.syms s).redirect with
      | .localized blvId =>
        if (st1.blvs blvId).frame_local then .ok varbl st1
        else .sig ⟨Qerror, [.str "Symbol %s may not be frame-local"]⟩ st1
      | _ =>
        SRes.bind pre (fun args st2 =>
          let (forwarded, valfwd, valval) := args
          if (st2.syms s).sconst then
            .sig ⟨Qerror, [.str "Symbol %s may not be frame-local"]⟩ st2
          else
            let (id, st3) := make_blv s forwarded valfwd valval st2
            let st4 := putBlv id {st3.blvs id with frame_local := true} st3
            let st5 := setRedirect s (.localized id) st4
            let st6 :=
              if let_shadows_global_binding_p (.sym s) st5 then
                appendLog (.msg "Making %s frame-local while let-bound!") st5
              else st5
            .ok varbl st6))
  | _ => .sig (wrongType qSymbolp varbl) st

/-- `Fkill_local_variable` (src/src/data.c:1665-1730). -/
def Fkill_local_variable (varbl : LObj) (st : State) : SRes LObj :=
  match varbl with
  | .sym s0 =>
    SRes.bind (chaseToNonAlias st s0) (fun s st1 =>
      match (st1.syms s).redirect with
      | .plainval _ => .ok varbl st1
      | .forwarded f =>
        match f with
        | .bufferObjFwd offset idx _ =>
          if idx > 0 then
            let st2 := setPerBufferFlag st1.currentBuffer idx false st1
            let st3 := set_per_buffer_value st2.currentBuffer offset
                        (st2.perBufferDefaults offset) st2
            .ok varbl st3
          else .ok varbl st1
        | _ => .ok varbl st1
      | .localized blvId =>
        let blv := st1.blvs blvId
        if blv.frame_local then .ok varbl st1
        else
          -- Get rid of this buffer's alist element, if any.
          let varbl2 : LObj := .sym s
          let tem := assqIds st1 varbl2 ((st1.bufs st1.currentBuffer).local_var_alist)
          let st2 :=
            match tem with
            | some c =>
              updBuf st1.currentBuffer
                (fun r => {r with local_var_alist := r.local_var_alist.filter (fun x => x ≠ c)}) st1
            | none => st1
          -- If the symbol is set up with the current buffer's binding
          -- loaded, recompute its value.
          if blv.whereB = .buffer st2.currentBuffer then
            let st3 := putBlv blvId {st2.blvs blvId with whereB := Qnil, found := false} st2
            SRes.bind (find_symbol_value varbl2 st3) (fun _ st4 => .ok varbl2 st4)
          else .ok varbl2 st2
      | .varalias _ => .ab st1)
  | _ => .sig (wrongType qSymbolp varbl) st

/-! ## The eval.c layer: specpdl, dynwind, prompts, signal/throw -/

/-- What a C computation that can transfer control produces: a value, an
abort already delivered to a prompt (the dynwind stack has been unwound to
the prompt's depth), a fatal `Fsignal` (no handler above the sentinel), an
`emacs_abort`, a path that leaves the modelled fragment (the Lisp debugger or
the edebug signal hook, both of which run arbitrary Lisp), or fuel
exhaustion (a model artifact). -/
inductive Outcome where
  | ok (v : LObj)
  | aborted (ptag : Nat) (payload : LObj)
  | fatalErr (errsym : LObj) (data : List LObj)
  | eabort
  | unmodeled
  | oomO
  deriving DecidableEq, Repr

/-- `scm_dynwind_unwind_handler`: register a wind handler (modelled from the
spec; the Guile dynwind stack is explicit state). -/
def pushDyn (e : DynEntry) (st : State) : State :=
  {st with dynwind := e :: st.dynwind}

/-- `record_unwind_protect_ptr_1` (src/src/eval.c:2256-2265): registers the
cleanup on the Guile dynwind stack — not on the specpdl. -/
def record_unwind_protect_ptr_1 (c : CleanupK) (wind_explicitly : Bool)
    (st : State) : State :=
  pushDyn (.cleanupE c wind_explicitly) st

/-- `record_unwind_protect` (src/src/eval.c:2243-2254, through
`record_unwind_protect_1`). -/
def record_unwind_protect (c : CleanupK) (st : State) : State :=
  record_unwind_protect_ptr_1 c true st

/-- `unbind_once` (src/src/eval.c:2305-2351).  The specpdl pointer is
decremented before the work, so an error during the undo does not unbind the
same entry again.  The `appendLog` calls are instrumentation recording the
restore. -/
def unbind_once (st0 : State) : SRes Unit :=
  match st0.specpdl with
  | [] => .ab st0
  | entry :: rest =>
    let st := {st0 with specpdl := rest}
    match entry with
    | .letP s old =>
      match (st.syms s).redirect with
      | .plainval _ =>
        .ok () (appendLog (.restored s old) (SET_SYMBOL_VAL s old st))
      | _ =>
        -- FALLTHROUGH: make_local_foo was used for the first time on this
        -- var within this let, so restore through Fset_default.
        SRes.bind (Fset_default (.sym s) old st) (fun _ st2 =>
          .ok () (appendLog (.restoredDefault s old) st2))
    | .letDefault s old _ =>
      SRes.bind (Fset_default (.sym s) old st) (fun _ st2 =>
        .ok () (appendLog (.restoredDefault s old) st2))
    | .letLocal s old wh =>
      -- Reset the value in the recorded buffer, but only if that buffer's
      -- binding still exists.
      SRes.bind (Flocal_variable_p (.sym s) wh st) (fun lv st2 =>
        if ¬ NILP lv then
          SRes.bind (set_internal (.sym s) old wh true st2) (fun _ st3 =>
            .ok () (appendLog (.restoredLocal s old wh) st3))
        else .ok () (appendLog (.skippedLocal s wh) st2))

def PTRDIFF_MAX : Nat := 2 ^ 63 - 1

/-- `xpalloc` growth policy (alloc.c, outside src/; modelled from the spec:
grow by about half the current size, at least by `incrMin`, capped at
`nitemsMax`). -/
def xpallocGrow (size incrMin nitemsMax : Nat) : Nat :=
  min (size + max (size / 2) incrMin) nitemsMax

/-- `signal_error` (src/src/eval.c:1055-1078).  The improper-list check is
vacuous for the `Qnil` argument the modelled caller passes. -/
def signal_error (s : String) (arg : LObj) (st : State) : SRes Unit :=
  .sig ⟨Qerror, LObj.str s :: heapElems st arg⟩ st

/-- `grow_specpdl` (src/src/eval.c:1448-1473).  The caller has already
initialized and pushed the new entry (the C `specpdl_ptr++`); this is the
capacity check, the one-time raising of a too-small ceiling to 400, and the
depth-exceeded signal. -/
def grow_specpdl (st : State) : SRes Unit :=
  if st.specpdl.length = st.specpdlSize then
    let max_size := min st.maxSpecpdlSize (PTRDIFF_MAX - 1000)
    if max_size ≤ st.specpdlSize then
      if st.maxSpecpdlSize < 400 then
        let st1 := {st with maxSpecpdlSize := 400}
        if (400 : Nat) ≤ st1.specpdlSize then
          signal_error "Variable binding depth exceeds max-specpdl-size" Qnil st1
        else
          .ok () {st1 with specpdlSize := xpallocGrow (st1.specpdlSize + 1) 1 (400 + 1) - 1}
      else signal_error "Variable binding depth exceeds max-specpdl-size" Qnil st
    else
      .ok () {st with specpdlSize := xpallocGrow (st.specpdlSize + 1) 1 (max_size + 1) - 1}
  else .ok () st

/-- Push a specpdl record.  The C writes the record fields at `specpdl_ptr`;
it becomes live with the `specpdl_ptr++` at the head of `grow_specpdl`, so a
signal from `grow_specpdl` leaves the entry on the stack. -/
def pushSpecpdl (e : SpecpdlEntry) (st : State) : State :=
  {st with specpdl := e :: st.specpdl}

/-- The shared `SYMBOL_LOCALIZED` / `SYMBOL_FORWARDED` block of `specbind`
(src/src/eval.c:2197-2232); the frame-local error has already been raised by
the caller. -/
def specbind_lf (s : Nat) (value : LObj) (st : State) : SRes Unit :=
  SRes.bind (find_symbol_value (.sym s) st) (fun ovalue st1 =>
    let wh := curBuf st1
    match (st1.syms s).redirect with
    | .localized blvId =>
      let entry : SpecpdlEntry :=
        if ¬ (st1.blvs blvId).found then .letDefault s ovalue wh
        else .letLocal s ovalue wh
      let st2 := pushSpecpdl entry st1
      SRes.bind (grow_specpdl st2) (fun _ st3 =>
        SRes.bind (set_internal (.sym s) value Qnil true st3) (fun _ st4 =>
          .ok () (pushDyn .unbindOnceE st4)))
    | .forwarded fwd =>
      match fwd with
      | .bufferObjFwd _ _ _ =>
        SRes.bind (Flocal_variable_p (.sym s) Qnil st1) (fun lv st2 =>
          if NILP lv then
            -- No buffer-local value here: make the let change the global
            -- value through set-default.
            let st3 := pushSpecpdl (.letDefault s ovalue wh) st2
            SRes.bind (grow_specpdl st3) (fun _ st4 =>
              SRes.bind (Fset_default (.sym s) value st4) (fun _ st5 =>
                .ok () (pushDyn .unbindOnceE st5)))
          else
            let st3 := pushSpecpdl (.letLocal s ovalue wh) st2
            SRes.bind (grow_specpdl st3) (fun _ st4 =>
              SRes.bind (set_internal (.sym s) value Qnil true st4) (fun _ st5 =>
                .ok () (pushDyn .unbindOnceE st5))))
      | _ =>
        let st2 := pushSpecpdl (.letP s ovalue) st1
        SRes.bind (grow_specpdl st2) (fun _ st3 =>
          SRes.bind (set_internal (.sym s) value Qnil true st3) (fun _ st4 =>
            .ok () (pushDyn .unbindOnceE st4)))
    | _ => .ab st1)

/-- `specbind` (src/src/eval.c:2168-2239).  The `done:` label registering
`unbind_once` with the dynwind stack is the trailing `pushDyn .unbindOnceE`
of each completed branch. -/
def specbind (symbol : LObj) (value : LObj) (st : State) : SRes Unit :=
  match symbol with
  | .sym s0 =>
    SRes.bind (chaseToNonAlias st s0) (fun s st1 =>
      match (st1.syms s).redirect with
      | .plainval v0 =>
        -- The most common case: a non-constant symbol with a trivial value.
        let st2 := pushSpecpdl (.letP s v0) st1
        SRes.bind (grow_specpdl st2) (fun _ st3 =>
          let step : SRes Unit :=
            if ¬ (st3.syms s).sconst then .ok () (SET_SYMBOL_VAL s value st3)
            else set_internal (.sym s) value Qnil true st3
          SRes.bind step (fun _ st4 => .ok () (pushDyn .unbindOnceE st4)))
      | .localized blvId =>
        if (st1.blvs blvId).frame_local then
          .sig ⟨Qerror, [.str "Frame-local vars cannot be let-bound"]⟩ st1
        else specbind_lf s value st1
      | .forwarded _ => specbind_lf s value st1
      | .varalias _ => .ab st1)
  | _ => .sig (wrongType qSymbolp symbol) st

/-- `make_prompt_tag` (src/src/eval.c:2404-2412): a fresh Guile prompt tag. -/
def make_prompt_tag (st : State) : Nat × State :=
  (st.nextPtag, {st with nextPtag := st.nextPtag + 1})

/-- `make_catch_handler` (src/src/eval.c:139-153). -/
def make_catch_handler (tag : LObj) (st : State) : HandlerRec × State :=
  let (p, st1) := make_prompt_tag st
  ({tagOrCh := .catchTag tag, ptag := p}, st1)

/-- `make_condition_handler` (src/src/eval.c:155-169). -/
def make_condition_handler (conds : List LObj) (st : State) : HandlerRec × State :=
  let (p, st1) := make_prompt_tag st
  ({tagOrCh := .condList conds, ptag := p}, st1)

/-- `call_with_prompt` establishes the prompt at the current dynwind depth
(Guile semantics, modelled from the spec). -/
def pushPrompt (ptag : Nat) (st : State) : State :=
  {st with prompts := (ptag, st.dynwind.length) :: st.prompts}

def popPrompt (st : State) : State :=
  {st with prompts := st.prompts.tail}

def lookupPrompt (ps : List (Nat × Nat)) (ptag : Nat) : Option Nat :=
  match ps.find? (fun p => p.1 = ptag) with
  | some p => some p.2
  | none => none

/-- Run one registered cleanup (the C function pointer behaviours the claims
range over: complete, or signal).  The log append records the run. -/
def runCleanup (c : CleanupK) (st : State) : SRes Unit :=
  match c with
  | .pureK id => .ok () (appendLog (.cleanupRan id) st)
  | .signalK id es data => .sig ⟨es, data⟩ (appendLog (.cleanupRan id) st)

/-- Execute one dynwind entry during a non-local unwind (all handlers run on
a non-local exit, whatever their explicit flag).  The entry has already been
popped by the caller. -/
def runDynEntry (e : DynEntry) (st : State) : SRes Unit :=
  match e with
  | .frameMark => .ok () st
  | .restoreHandlerE => .ok () st
  | .setHandlersE saved => .ok () {st with handlers := saved}
  | .unbindOnceE => unbind_once st
  | .cleanupE c _ => runCleanup c st

/-- Result of running dynwind entries: target reached, a signal raised by an
entry (the unwind stops there, the signal machinery takes over), an
`emacs_abort`, or fuel exhaustion. -/
inductive UnwRes where
  | reached (st : State)
  | stoppedSig (e : Sig) (st : State)
  | stoppedAb (st : State)
  | fuelOut (st : State)

/-- The unwinding performed by `abort-to-prompt` (Guile, modelled from the
spec): pop dynwind entries one at a time — each popped before its handler
runs — until the stack is down to `target` entries.  The fuel is supplied as
the current stack length, which always suffices since every step pops one
entry. -/
def runTo (target : Nat) : Nat → State → UnwRes
  | 0, st => if st.dynwind.length ≤ target then .reached st else .fuelOut st
  | fuel+1, st =>
    if st.dynwind.length ≤ target then .reached st
    else
      match st.dynwind with
      | [] => .reached st
      | e :: rest =>
        match runDynEntry e {st with dynwind := rest} with
        | .ok _ st2 => runTo target fuel st2
        | .sig e2 st2 => .stoppedSig e2 st2
        | .ab st2 => .stoppedAb st2
        | .oom st2 => .fuelOut st2

/-- `scm_dynwind_end` (modelled from the spec): pop entries up to and
including the innermost `scm_dynwind_begin` frame mark, running only the
handlers registered with `SCM_F_WIND_EXPLICITLY`. -/
def dynEnd : Nat → State → UnwRes
  | 0, st => .fuelOut st
  | fuel+1, st =>
    match st.dynwind with
    | [] => .reached st
    | e :: rest =>
      let st1 := {st with dynwind := rest}
      match e with
      | .frameMark => .reached st1
      | .restoreHandlerE => dynEnd fuel st1
      | .cleanupE c expl =>
        if expl then
          match runCleanup c st1 with
          | .ok _ st2 => dynEnd fuel st2
          | .sig e2 st2 => .stoppedSig e2 st2
          | .ab st2 => .stoppedAb st2
          | .oom st2 => .fuelOut st2
        else dynEnd fuel st1
      | .unbindOnceE =>
        match unbind_once st1 with
        | .ok _ st2 => dynEnd fuel st2
        | .sig e2 st2 => .stoppedSig e2 st2
        | .ab st2 => .stoppedAb st2
        | .oom st2 => .fuelOut st2
      | .setHandlersE saved => dynEnd fuel {st1 with handlers := saved}

def dynwindEnd (st : State) : UnwRes :=
  dynEnd st.dynwind.length st

/-- What `find_handler_clause` returns when non-nil: `Qt` (for the
C-installed `t` / `error` catch-alls) or the handler list itself. -/
inductive Clause where
  | ct
  | cl (conds : List LObj)
  deriving DecidableEq, Repr

/-- `find_handler_clause` (src/src/eval.c:1173-1195).  It is only invoked on
`CONDITION_CASE` handlers; `catchTag` yields no clause. -/
def find_handler_clause (handlers : TagOrCh) (conditions : List LObj) : Option Clause :=
  match handlers with
  | .condAll => some .ct
  | .condError => some .ct
  | .condList l =>
    if l.any (fun h => conditions.contains h) then some (.cl l) else none
  | .catchTag _ => none

/-- The handler-scanning loop of `Fsignal` (src/src/eval.c:961-968): the
first `CONDITION_CASE` handler, scanning outward, whose clause matches. -/
def signalScan (hs : List HandlerRec) (conditions : List LObj) :
    Option (HandlerRec × Clause) :=
  match hs with
  | [] => none
  | h :: rest =>
    match h.tagOrCh with
    | .catchTag _ => signalScan rest conditions
    | t =>
      match find_handler_clause t conditions with
      | some cl => some (h, cl)
      | none => signalScan rest conditions

/-- `wants_debugger` (src/src/eval.c:1081-1101). -/
def wants_debugger (st : State) (list : LObj) (conditions : List LObj) : Bool :=
  if NILP list then false
  else match list with
       | .cell _ => conditions.any (fun c => (heapElems st list).contains c)
       | _ => true

/-- `skip_debugger` (src/src/eval.c:1107-1137).  `Ferror_message_string` and
`fast_string_match` live outside src/ and are modelled from the spec as
opaque state functions. -/
def skip_debugger (st : State) (conditions : List LObj) (data : List LObj) : Bool :=
  (heapElems st st.vDebugIgnoredErrors).any (fun x =>
    match x with
    | .str _ => st.fastStringMatch x (st.errorMessageString data)
    | _ => conditions.contains x)

/-- The guard of `maybe_call_debugger` (src/src/eval.c:1144-1170).  When it
holds, `call_debugger` applies the arbitrary Lisp `Vdebugger` — the model
leaves the fragment there (`Outcome.unmodeled`). -/
def maybe_call_debugger_p (st : State) (conditions : List LObj) (sig : LObj)
    (data : List LObj) : Bool :=
  ¬ st.inputBlocked
  && NILP st.vInhibitDebugger
  && (if sig = .sym qQuit then st.debugOnQuit
      else wants_debugger st st.vDebugOnError conditions)
  && ¬ skip_debugger st conditions (sig :: data)
  && st.debuggerGuard

/-- `Fthrow`'s catcher scan (src/src/eval.c:697-704). -/
def findCatcher (hs : List HandlerRec) (tag : LObj) : Option HandlerRec :=
  hs.find? (fun c => match c.tagOrCh with
                     | .catchTag t => t = tag
                     | _ => false)

/-- `handlerlist != handlerlist_sentinel`: in the model the sentinel handler
installed by `init_eval` (a catcher with tag `Qunbound`) is the last element
of the handler list. -/
def atSentinel (st : State) : Bool := st.handlers.length ≤ 1

/-- A non-local control transfer in flight. -/
inductive Ctl where
  | thr (tag : LObj) (value : LObj)
  | sigC (e : Sig)
  | abortC (ptag : Nat) (payload : LObj)
  deriving Repr

/-- The combined transfer machinery: `Fthrow` (src/src/eval.c:693-707),
`Fsignal` (src/src/eval.c:907-1012) and
`unwind_to_catch`/`abort_to_prompt` (src/src/eval.c:686-691 and 2383-2391,
with Guile's prompt unwinding modelled from the spec).  The fuel bounds the
number of transfer restarts (a cleanup signalling mid-unwind, the top-level
rethrow cycle noted FIXME in `Fsignal`); a single transfer with a clean
unwind consumes one unit. -/
def ctlRun : Nat → Ctl → State → Outcome × State
  | 0, _, st => (.oomO, st)
  | fuel+1, c, st =>
    match c with
    | .thr tag value =>
      if ¬ NILP tag then
        match findCatcher st.handlers tag with
        | some h => ctlRun fuel (.abortC h.ptag value) st
        | none => ctlRun fuel (.sigC ⟨.sym qNoCatch, [tag, value]⟩) st
      else ctlRun fuel (.sigC ⟨.sym qNoCatch, [tag, value]⟩) st
    | .abortC ptag payload =>
      match lookupPrompt st.prompts ptag with
      | none => (.eabort, st)
      | some depth =>
        match runTo depth st.dynwind.length st with
        | .reached st2 => (.aborted ptag payload, st2)
        | .stoppedSig e2 st2 => ctlRun fuel (.sigC e2) st2
        | .stoppedAb st2 => (.eabort, st2)
        | .fuelOut st2 => (.oomO, st2)
    | .sigC e =>
      let error_symbol := e.errsym
      let data := e.data
      -- When memory is full, ERROR-SYMBOL is nil and DATA is
      -- (REAL-ERROR-SYMBOL . REAL-DATA).
      let real := if NILP error_symbol then data.headD Qnil else error_symbol
      if ¬ NILP st.signalHook ∧ ¬ NILP error_symbol then (.unmodeled, st)
      else
        -- conditions = Fget (real_error_symbol, Qerror_conditions):
        -- property lists live outside src/, modelled from the spec as a map.
        let conditions := match real with
                          | .sym rs => st.errorConditions rs
                          | _ => []
        let scan := signalScan st.handlers conditions
        let dbgCond : Bool :=
          ¬ NILP error_symbol
          && (¬ NILP st.vDebugOnSignal
              || scan.isNone
              || (match scan with
                  | some (_, .cl l) => ¬ l.isEmpty && l.contains (.sym qDebug)
                  | _ => false)
              || (match scan with
                  | some (h, _) => h.tagOrCh = .condError
                  | none => false))
        if dbgCond ∧ maybe_call_debugger_p st conditions error_symbol data then
          (.unmodeled, st)
        else
          match scan with
          | some (h, _) =>
            let (uw, st1) :=
              if NILP error_symbol then mkHeapList data st
              else mkHeapList (error_symbol :: data) st
            ctlRun fuel (.abortC h.ptag uw) st1
          | none =>
            if ¬ atSentinel st then ctlRun fuel (.thr (.sym qTopLevel) Qt) st
            else
              let data2 := if ¬ NILP error_symbol then error_symbol :: data else data
              (.fatalErr e.errsym data2, st)

/-- Finish `icc_thunk` after its body: on normal completion run
`scm_dynwind_end`; an abort propagates unchanged — its unwinding already
consumed the frame. -/
def thunkFinish (r : Outcome × State) (fuel : Nat) : Outcome × State :=
  match r with
  | (.ok v, st) =>
    match dynwindEnd st with
    | .reached st2 => (.ok v, st2)
    | .stoppedSig e2 st2 => ctlRun fuel (.sigC e2) st2
    | .stoppedAb st2 => (.eabort, st2)
    | .fuelOut st2 => (.oomO, st2)
  | r0 => r0

/-- The `icc_thunk` prologue (src/src/eval.c:573-583): `dynwind_begin`,
register `restore_handler` (flag 0) and `set_handlerlist` (explicit), then
install the handler at the head of `handlerlist`. -/
def iccProlog (h : HandlerRec) (st : State) : State :=
  let st1 := pushDyn .frameMark st
  let st2 := pushDyn .restoreHandlerE st1
  let st3 := pushDyn (.setHandlersE st2.handlers) st2
  {st3 with handlers := h :: st3.handlers}

/-- A condition-case clause head: one condition name or a list of them. -/
inductive CondSpec where
  | single (s : LObj)
  | multi (l : List LObj)
  deriving DecidableEq, Repr

/-- `ilcc1`'s clause normalization: `if (!CONSP (condition)) condition =
Fcons (condition, Qnil)`. -/
def condSpecList (c : CondSpec) : List LObj :=
  match c with
  | .single s => [s]
  | .multi l => l

/-- The reserved `objVars` location of the C global
`Vinternal_interpreter_environment` (a DEFVAR_LISP). -/
def objVarIIE : Nat := 0

/-- The programs the claims quantify over: compositions of the C primitives
of src/src/eval.c.  The generic Lisp evaluator itself (`eval_sub` delegates
to the Guile Scheme elisp compiler, outside src/) is modelled from the spec
as exactly these composition forms:
* `prognE` is `Fprogn`;
* `dletE` is the `dynwind_begin; specbind; body; dynwind_end` pattern of
  `Feval` / `call_debugger`;
* `uwpE` is `dynwind_begin; record_unwind_protect; body; dynwind_end`
  (unwind-protect);
* `catchE` is `internal_catch`; `throwE` is `Fthrow`; `signalE` is `Fsignal`;
* `condCaseE` is `internal_lisp_condition_case` (with `condCase1` its
  internal `ilcc1` recursion over the reversed clause list);
* `funcallLamE` is `funcall_lambda` with the function object pre-split into
  lexenv, formals and body;
* `setE`/`symValE`/`constE` are `Fset`, `Fsymbol_value` and a constant. -/
inductive Expr where
  | constE (v : LObj)
  | prognE (es : List Expr)
  | setE (sym : LObj) (v : LObj)
  | symValE (sym : LObj)
  | throwE (tag : LObj) (v : LObj)
  | signalE (errsym : LObj) (data : List LObj)
  | dletE (sym : LObj) (v : LObj) (body : Expr)
  | uwpE (c : CleanupK) (body : Expr)
  | catchE (tag : LObj) (body : Expr)
  | condCaseE (var : LObj) (body : Expr) (clauses : List (CondSpec × Expr))
  | condCase1 (var : LObj) (body : Expr) (clauses : List (CondSpec × Expr))
  | funcallLamE (lexenv : LObj) (formals : List LObj) (fbody : Expr) (args : List LObj)

/-- The parameter-binding loop of `funcall_lambda`
(src/src/eval.c:2044-2086) together with the trailing argument-count check
(lines 2083-2086).  `i`, `optional` and `rest` are the loop variables.  The
`QUIT` poll is not modelled (no quit is pending in modelled states); in the
wrong-number-of-arguments data, `Qnil` stands for the function object, which
has no model representation. -/
def flbLoop (args : List LObj) :
    List LObj → LObj → Nat → Bool → Bool → State → SRes LObj
  | [], lexenv, i, _, _, st =>
    if i < args.length then
      .sig ⟨.sym qWrongNumberOfArguments, [Qnil, .num args.length]⟩ st
    else .ok lexenv st
  | next :: restSyms, lexenv, i, optional, rest, st =>
    if ¬ SYMBOLP next then .sig ⟨.sym qInvalidFunction, [Qnil]⟩ st
    else if next = .sym qAndRest then flbLoop args restSyms lexenv i optional true st
    else if next = .sym qAndOptional then flbLoop args restSyms lexenv i true rest st
    else
      let argStep : SRes (LObj × Nat) :=
        if rest then
          let (lst, st1) := mkHeapList (args.drop i) st
          .ok (lst, args.length) st1
        else if i < args.length then .ok (args.getD i Qnil, i + 1) st
        else if ¬ optional then
          .sig ⟨.sym qWrongNumberOfArguments, [Qnil, .num args.length]⟩ st
        else .ok (Qnil, i) st
      match argStep with
      | .ok av st2 =>
        if ¬ NILP lexenv ∧ SYMBOLP next then
          -- Lexically bind NEXT by adding it to the lexenv alist.
          let (c1, st3) := Fcons next av.1 st2
          let (c2, st4) := Fcons (.cell c1) lexenv st3
          flbLoop args restSyms (.cell c2) av.2 optional rest st4
        else
          -- Dynamically bind NEXT.
          match specbind next av.1 st2 with
          | .ok _ st5 => flbLoop args restSyms lexenv av.2 optional rest st5
          | .sig e st5 => .sig e st5
          | .ab st5 => .ab st5
          | .oom st5 => .oom st5
      | .sig e st2 => .sig e st2
      | .ab st2 => .ab st2
      | .oom st2 => .oom st2

def funcall_lambda_bind (lexenv : LObj) (formals : List LObj) (args : List LObj)
    (st : State) : SRes LObj :=
  flbLoop args formals lexenv 0 false false st

/-- The evaluator over `Expr` (see the `Expr` doc comment for the source of
each case).  It is fuel-structural; the fuel decreases once per evaluated
sub-expression and is handed to the transfer machinery at each raise point. -/
def evalE : Nat → Expr → State → Outcome × State
  | 0, _, st => (.oomO, st)
  | fuel+1, e, st =>
    match e with
    | .constE v => (.ok v, st)
    | .prognE [] => (.ok Qnil, st)
    | .prognE (e1 :: rest) =>
      match evalE fuel e1 st with
      | (.ok v, st1) =>
        match rest with
        | [] => (.ok v, st1)
        | _ => evalE fuel (.prognE rest) st1
      | r => r
    | .setE sym v =>
      match Fset sym v st with
      | .ok rv st1 => (.ok rv, st1)
      | .sig e2 st1 => ctlRun fuel (.sigC e2) st1
      | .ab st1 => (.eabort, st1)
      | .oom st1 => (.oomO, st1)
    | .symValE sym =>
      match Fsymbol_value sym st with
      | .ok rv st1 => (.ok rv, st1)
      | .sig e2 st1 => ctlRun fuel (.sigC e2) st1
      | .ab st1 => (.eabort, st1)
      | .oom st1 => (.oomO, st1)
    | .throwE tag v => ctlRun fuel (.thr tag v) st
    | .signalE es data => ctlRun fuel (.sigC ⟨es, data⟩) st
    | .dletE sym v body =>
      let st1 := pushDyn .frameMark st
      match specbind sym v st1 with
      | .ok _ st2 => thunkFinish (evalE fuel body st2) fuel
      | .sig e2 st2 => ctlRun fuel (.sigC e2) st2
      | .ab st2 => (.eabort, st2)
      | .oom st2 => (.oomO, st2)
    | .uwpE c body =>
      let st1 := pushDyn .frameMark st
      let st2 := record_unwind_protect c st1
      thunkFinish (evalE fuel body st2) fuel
    | .catchE tag body =>
      -- internal_catch (src/src/eval.c:656-667)
      let (h, st1) := make_catch_handler tag st
      let st2 := pushPrompt h.ptag st1
      let st3 := iccProlog h st2
      let r := thunkFinish (evalE fuel body st3) fuel
      match r with
      | (.aborted p payload, st4) =>
        -- icc_handler applied to Fidentity
        if p = h.ptag then (.ok payload, popPrompt st4)
        else (.aborted p payload, popPrompt st4)
      | (o, st4) => (o, popPrompt st4)
    | .condCaseE var body clauses =>
      -- internal_lisp_condition_case (src/src/eval.c:778-799): CHECK_SYMBOL,
      -- clause-shape validation (vacuous on the typed clause list), then
      -- ilcc1 on the reversed clause list.
      if SYMBOLP var then evalE fuel (.condCase1 var body clauses.reverse) st
      else ctlRun fuel (.sigC (wrongType qSymbolp var)) st
    | .condCase1 _ body [] => evalE fuel body st
    | .condCase1 var body ((cspec, cbody) :: rest) =>
      -- ilcc1 (src/src/eval.c:745-771)
      let condition := condSpecList cspec
      let (h, st1) := make_condition_handler condition st
      let st2 := pushPrompt h.ptag st1
      let st3 := iccProlog h st2
      let r := thunkFinish (evalE fuel (.condCase1 var body rest) st3) fuel
      match r with
      | (.aborted p payload, st4) =>
        if p = h.ptag then
          -- icc_lisp_handler (src/src/eval.c:629-650)
          let st5 := pushDyn .frameMark (popPrompt st4)
          let step : SRes Unit :=
            if ¬ NILP var then specbind var payload st5 else .ok () st5
          match step with
          | .ok _ st6 => thunkFinish (evalE fuel cbody st6) fuel
          | .sig e2 st6 => ctlRun fuel (.sigC e2) st6
          | .ab st6 => (.eabort, st6)
          | .oom st6 => (.oomO, st6)
        else (.aborted p payload, popPrompt st4)
      | (o, st4) => (o, popPrompt st4)
    | .funcallLamE lexenv formals fbody args =>
      -- funcall_lambda (src/src/eval.c:2017-2096)
      let st1 := pushDyn .frameMark st
      match funcall_lambda_bind lexenv formals args st1 with
      | .ok lex2 st2 =>
        -- if (!EQ (lexenv, Vinternal_interpreter_environment))
        --   specbind (Qinternal_interpreter_environment, lexenv);
        let step : SRes Unit :=
          if lex2 ≠ st2.objVars objVarIIE then
            specbind (.sym qInternalInterpreterEnv) lex2 st2
          else .ok () st2
        match step with
        | .ok _ st3 => thunkFinish (evalE fuel fbody st3) fuel
        | .sig e2 st3 => ctlRun fuel (.sigC e2) st3
        | .ab st3 => (.eabort, st3)
        | .oom st3 => (.oomO, st3)
      | .sig e2 st2 => ctlRun fuel (.sigC e2) st2
      | .ab st2 => (.eabort, st2)
      | .oom st2 => (.oomO, st2)

/-! ## Base states for concrete scenarios -/

/-- A plain, unbound-to-nil, non-constant symbol record. -/
def baseSym : SymbolRec :=
  {redirect := .plainval Qnil, sconst := false, isKeyword := false}

/-- The standard `error-conditions` property lists of the modelled error
symbols (set up by `syms_of_eval` / `Fput`, outside src/; modelled from the
spec: every error symbol's condition list ends in `error`). -/
def baseConditions (s : Nat) : List LObj :=
  if s = qError then [Qerror]
  else if s = qWrongTypeArgument ∨ s = qCyclicVariableIndirection
          ∨ s = qSettingConstant ∨ s = qNoCatch ∨ s = qWrongNumberOfArguments
          ∨ s = qInvalidFunction ∨ s = qVoidVariable ∨ s = qArithError then
    [.sym s, Qerror]
  else []

/-- A minimal freshly-initialized state, mirroring `init_eval_once` /
`init_eval`: empty specpdl of capacity 50 with ceiling 10000, empty dynwind
stack, `handlerlist` holding only the sentinel catcher (tag `Qunbound`,
whose prompt was never established), one live buffer (id 0, current), one
frame (id 0, selected), fifty interned symbols of which `nil` and `t` are
self-valued constants, and all debugger-related variables nil. -/
def baseState : State :=
  { nsyms := 50
    syms := fun s =>
      if s < 2 then {redirect := .plainval (.sym s), sconst := true, isKeyword := false}
      else baseSym
    nblvs := 0
    blvs := fun _ =>
      { fwd := none, whereB := Qnil, defcell := 0, valcell := 0,
        found := false, frame_local := false, local_if_set := false }
    nextCell := 0
    cells := fun _ => (Qnil, Qnil)
    allBuffers := [0]
    bufs := fun _ =>
      {live := true, local_var_alist := [], slots := fun _ => Qnil,
       localFlags := fun _ => false}
    allFrames := [0]
    frames := fun _ => {param_alist := [], kboard := 0}
    currentBuffer := 0
    selectedFrame := 0
    perBufferDefaults := fun _ => Qnil
    intVars := fun _ => 0
    boolVars := fun _ => false
    objVars := fun _ => Qnil
    kboards := fun _ _ => Qnil
    specpdl := []
    specpdlSize := 50
    maxSpecpdlSize := 10000
    dynwind := []
    handlers := [{tagOrCh := .catchTag Qunbound, ptag := 0}]
    prompts := []
    nextPtag := 1
    errorConditions := baseConditions
    predFns := fun _ _ => true
    signalHook := Qnil
    vDebugOnError := Qnil
    vDebugOnSignal := Qnil
    debugOnQuit := false
    vInhibitDebugger := Qnil
    vDebugIgnoredErrors := Qnil
    inputBlocked := false
    debuggerGuard := true
    fastStringMatch := fun _ _ => false
    errorMessageString := fun _ => .str ""
    log := [] }

/-- A state with one buffer-local variable machinery in place: symbol 30 is
`SYMBOL_LOCALIZED` with BLV slot 0, and that BLV is frame-local (as
`Fmake_variable_frame_local` leaves it). -/
def c10State : State :=
  {baseState with
    nblvs := 1,
    syms := updN 30 {baseSym with redirect := .localized 0} baseState.syms,
    blvs := updN 0 {fwd := none, whereB := Qnil, defcell := 0, valcell := 0,
                    found := false, frame_local := true, local_if_set := true}
              baseState.blvs}

/-! ## Scenario families: nests of dynamic lets and unwind-protects

The unwind-ordering claims quantify over arbitrary interleavings of
`PushLet` and `PushUnwind` at arbitrary nesting depth.  A `NestItem` list
describes one such interleaving, `nestN` builds the corresponding program,
and `pushNest` computes the state after its prologue has run (used to relate
the evaluator to the unwinder). -/

inductive NestItem where
  | letN (s : Nat) (v : LObj)
  | uwpI (f : Nat)
  deriving DecidableEq, Repr

/-- The program wrapping `e` in the given lets / unwind-protects,
outermost first. -/
def nestN : List NestItem → Expr → Expr
  | [], e => e
  | .letN s v :: rest, e => .dletE (.sym s) v (nestN rest e)
  | .uwpI f :: rest, e => .uwpE (.pureK f) (nestN rest e)

/-- The value in a plain value cell (`SYMBOL_VAL`). -/
def plainOf (r : SymbolRec) : LObj :=
  match r.redirect with
  | .plainval v => v
  | _ => Qnil

def isPlainRed : Redirect → Bool
  | .plainval _ => true
  | _ => false

/-- The state effect of one nest level's prologue: what
`dynwind_begin; specbind` (for a plain non-constant symbol with room on the
specpdl) resp. `dynwind_begin; record_unwind_protect` leave behind. -/
def pushOne : NestItem → State → State
  | .letN s v, st =>
    pushDyn .unbindOnceE
      (SET_SYMBOL_VAL s v
        (pushSpecpdl (.letP s (plainOf (st.syms s))) (pushDyn .frameMark st)))
  | .uwpI f, st => pushDyn (.cleanupE (.pureK f) true) (pushDyn .frameMark st)

def pushNest : List NestItem → State → State
  | [], st => st
  | i :: rest, st => pushNest rest (pushOne i st)

/-- The dynwind-stack segment the nest pushes (innermost entries first). -/
def segDyn : List NestItem → List DynEntry
  | [] => []
  | .letN _ _ :: rest => segDyn rest ++ [.unbindOnceE, .frameMark]
  | .uwpI f :: rest => segDyn rest ++ [.cleanupE (.pureK f) true, .frameMark]

/-- The symbol table after the nest's bindings have been performed. -/
def segSyms : List NestItem → (Nat → SymbolRec) → (Nat → SymbolRec)
  | [], σ => σ
  | .letN s v :: rest, σ => segSyms rest (updN s {σ s with redirect := .plainval v} σ)
  | .uwpI _ :: rest, σ => segSyms rest σ

/-- The specpdl segment the nest pushes (innermost first), recording the old
values as seen at each push. -/
def segSpec : List NestItem → (Nat → SymbolRec) → List SpecpdlEntry
  | [], _ => []
  | .letN s v :: rest, σ =>
    segSpec rest (updN s {σ s with redirect := .plainval v} σ) ++ [.letP s (plainOf (σ s))]
  | .uwpI _ :: rest, σ => segSpec rest σ

/-- The log an unwind of the whole nest must produce: strict reverse push
order, each restore to the value recorded at push time, each cleanup once. -/
def expectedTrace : List NestItem → (Nat → SymbolRec) → List Ev
  | [], _ => []
  | .letN s v :: rest, σ =>
    expectedTrace rest (updN s {σ s with redirect := .plainval v} σ)
      ++ [.restored s (plainOf (σ s))]
  | .uwpI f :: rest, σ => expectedTrace rest σ ++ [.cleanupRan f]

/-- Side conditions for the nest to run without surprises: every bound
symbol is a plain non-constant symbol at its push point, and each push stays
strictly inside the allocated specpdl (so `grow_specpdl` does nothing). -/
def nestOK : List NestItem → State → Bool
  | [], _ => true
  | .letN s v :: rest, st =>
    isPlainRed (st.syms s).redirect && !(st.syms s).sconst
      && (st.specpdl.length + 1 != st.specpdlSize)
      && nestOK rest (pushOne (.letN s v) st)
  | .uwpI f :: rest, st => nestOK rest (pushOne (.uwpI f) st)

/-- An outcome that is not a normal value (aborts, fatals, ...). -/
def notValue : Outcome → Prop
  | .ok _ => False
  | _ => True

/-- The symbol-table side conditions of an unwind through a nest segment:
each restored symbol is plain at its (reverse) restore point. -/
def segSymsOK : List NestItem → (Nat → SymbolRec) → Bool
  | [], _ => true
  | .letN s v :: rest, σ =>
    isPlainRed (σ s).redirect
      && segSymsOK rest (updN s {σ s with redirect := .plainval v} σ)
  | .uwpI _ :: rest, σ => segSymsOK rest σ

/-! ## Lambda-list binding (claim C9): heap validity and the reference plan -/

/-- Heap extension: later allocation never rewrites already-allocated cells. -/
def extendsH (st st2 : State) : Prop :=
  st.nextCell ≤ st2.nextCell ∧ ∀ id, id < st.nextCell → st2.cells id = st.cells id

/-- Validity of a heap cons chain: it terminates within the fuel and every
spine cell is allocated. -/
def listValid (st : State) : Nat → LObj → Bool
  | 0, v => match v with | .cell _ => false | _ => true
  | fuel+1, v =>
    match v with
    | .cell c => c < st.nextCell && listValid st fuel (st.cells c).2
    | _ => true

/-- Validity of a lexical-environment alist chain: the spine and each pair
cell are allocated and the spine terminates within the fuel. -/
def chainValid (st : State) : Nat → LObj → Bool
  | 0, v => match v with | .cell _ => false | _ => true
  | fuel+1, v =>
    match v with
    | .cell c =>
      c < st.nextCell
        && (match (st.cells c).1 with
            | .cell pc => pc < st.nextCell
            | _ => true)
        && chainValid st fuel (st.cells c).2
    | _ => true

/-- Read a lexical environment alist back as (symbol, value) pairs,
innermost binding first. -/
def envPairs (st : State) : Nat → LObj → List (LObj × LObj)
  | 0, _ => []
  | fuel+1, v =>
    match v with
    | .cell c =>
      (match (st.cells c).1 with
       | .cell pc => [((st.cells pc).1, (st.cells pc).2)]
       | _ => []) ++ envPairs st fuel (st.cells c).2
    | _ => []

/-- The value a lambda-list formal should receive: a plain object, or (for
the formal under `&rest`) a freshly consed list of objects. -/
inductive PV where
  | v (x : LObj)
  | lst (xs : List LObj)
  deriving DecidableEq, Repr

def pvOK (st : State) (val : LObj) : PV → Bool
  | .v x => val = x
  | .lst xs => heapElems st val = xs

def bindsOK (st : State) : List (LObj × LObj) → List (LObj × PV) → Bool
  | [], [] => true
  | (s1, v1) :: r1, (s2, pv) :: r2 => s1 = s2 && pvOK st v1 pv && bindsOK st r1 r2
  | _, _ => false

/-- Reference binding plan, written from the spec's words: required formals
take the actuals in order, optionals beyond the actuals take nil, and every
formal under `&rest` takes the list of the remaining actuals. -/
def bindSpec (args : List LObj) : List LObj → Nat → Bool → Bool → List (LObj × PV)
  | [], _, _, _ => []
  | next :: restS, i, optional, rest =>
    if next = .sym qAndRest then bindSpec args restS i optional true
    else if next = .sym qAndOptional then bindSpec args restS i true rest
    else if rest then
      (next, .lst (args.drop i)) :: bindSpec args restS args.length optional rest
    else if i < args.length then
      (next, .v (args.getD i Qnil)) :: bindSpec args restS (i + 1) optional rest
    else (next, .v Qnil) :: bindSpec args restS i optional rest

/-- Whether the binding loop raises wrong-number-of-arguments, mirrored off
`funcall_lambda`'s loop and its trailing `i < nargs` check. -/
def errCgen (args : List LObj) : List LObj → Nat → Bool → Bool → Bool
  | [], i, _, _ => decide (i < args.length)
  | next :: restS, i, optional, rest =>
    if next = .sym qAndRest then errCgen args restS i optional true
    else if next = .sym qAndOptional then errCgen args restS i true rest
    else if rest then errCgen args restS args.length optional rest
    else if i < args.length then errCgen args restS (i + 1) optional rest
    else if optional then errCgen args restS i optional rest
    else true

/-- The number of required formals: value-taking formals before the first
`&optional` or `&rest` (spec words). -/
def requiredCount : List LObj → Nat
  | [] => 0
  | x :: r =>
    if x = .sym qAndRest ∨ x = .sym qAndOptional then 0 else requiredCount r + 1

/-- The total number of value-taking formals (spec words). -/
def totalCount : List LObj → Nat
  | [] => 0
  | x :: r =>
    if x = .sym qAndRest ∨ x = .sym qAndOptional then totalCount r else totalCount r + 1

/-- Whether some formal actually consumes the remaining actuals under
`&rest` (spec words: "in the absence of `&rest`"). -/
def restConsumer : List LObj → Bool
  | [] => false
  | x :: r => if x = .sym qAndRest then totalCount r != 0 else restConsumer r

/-- One lexical binding step of `funcall_lambda`:
`lexenv = Fcons (Fcons (next, arg), lexenv)`. -/
def lexBind (next val env : LObj) (st : State) : LObj × State :=
  let (c1, st3) := Fcons next val st
  let (c2, st4) := Fcons (.cell c1) env st3
  (.cell c2, st4)

/-- The state after `internal_catch`'s prologue: fresh prompt tag, prompt
established at the current dynwind depth, `icc_thunk` prologue run, catch
handler installed at the head of `handlerlist`. -/
def catchPre (tag : LObj) (base : State) : State :=
  iccProlog {tagOrCh := .catchTag tag, ptag := base.nextPtag}
    (pushPrompt base.nextPtag {base with nextPtag := base.nextPtag + 1})

/-- `catchPre` written as a single record over the initial state. -/
def catchPreS (tag : LObj) (base : State) : State :=
  {base with
    nextPtag := base.nextPtag + 1,
    prompts := (base.nextPtag, base.dynwind.length) :: base.prompts,
    dynwind := .setHandlersE base.handlers :: .restoreHandlerE :: .frameMark
      :: base.dynwind,
    handlers := {tagOrCh := .catchTag tag, ptag := base.nextPtag} :: base.handlers}

/-- The catch prologue followed by the nest prologue, written as a single
record over the initial state. -/
def catchNestState (items : List NestItem) (tag : LObj) (base : State) : State :=
  {base with
    nextPtag := base.nextPtag + 1,
    prompts := (base.nextPtag, base.dynwind.length) :: base.prompts,
    handlers := {tagOrCh := .catchTag tag, ptag := base.nextPtag} :: base.handlers,
    dynwind := segDyn items
      ++ (.setHandlersE base.handlers :: .restoreHandlerE :: .frameMark :: base.dynwind),
    specpdl := segSpec items base.syms ++ base.specpdl,
    syms := segSyms items base.syms}

/-- The state a throw out of the nest must deliver to the catch's prompt:
everything unwound back to the initial state (the prompt entry itself is
popped by `internal_catch` afterwards), the unwind trace appended. -/
def catchNestFinal (items : List NestItem) (base : State) : State :=
  {base with
    nextPtag := base.nextPtag + 1,
    prompts := (base.nextPtag, base.dynwind.length) :: base.prompts,
    log := base.log ++ expectedTrace items base.syms}

/-- A state with a `Lisp_Fwd_Buffer_Obj` forwarded symbol (symbol 40,
slot offset 3, `PER_BUFFER_IDX` 2) and two chained buffers: buffer 1 has its
own local value for that slot (`PER_BUFFER_VALUE_P` set), buffer 0 does
not. -/
def c7State : State :=
  {baseState with
    allBuffers := [0, 1],
    bufs := fun b =>
      if b = 1 then
        {live := true, local_var_alist := [],
         slots := fun _ => .num 7, localFlags := fun i => decide (i = 2)}
      else
        {live := true, local_var_alist := [], slots := fun _ => .num 5,
         localFlags := fun _ => false},
    syms := updN 40 {baseSym with redirect := .forwarded (.bufferObjFwd 3 2 none)}
      baseState.syms}

/-! ### Alias chasing (claim C5) -/

/-- One alias-following step (`SYMBOL_ALIAS`, 0 on a non-alias, where the C
loop would already have stopped). -/
def iterF (st : State) : Nat → Nat := fun x => symbolAlias st x

/-- The tortoise/hare loop exits during iteration `j + 1` (counting from a
start at iterates `(j, 2j)`): the hare or its successor is a non-alias, or
the stepped hare meets the stepped tortoise. -/
def exitAt (st : State) (s j : Nat) : Prop :=
  isAlias st ((iterF st)^[2 * j] s) = false
  ∨ isAlias st ((iterF st)^[2 * j + 1] s) = false
  ∨ (iterF st)^[2 * j + 2] s = (iterF st)^[j + 1] s

/-- What the alias chase is allowed to produce: a non-alias result with the
state untouched, or the `cyclic-variable-indirection` signal naming the
original symbol. -/
def ivGood (st : State) (orig : Nat) (r : SRes Nat) : Prop :=
  (∃ h, r = .ok h st ∧ isAlias st h = false)
  ∨ r = .sig ⟨.sym qCyclicVariableIndirection, [.sym orig]⟩ st

/-- A symbol table with a three-symbol alias cycle 35 → 36 → 37 → 35. -/
def c5State : State :=
  {baseState with
    syms := updN 35 {baseSym with redirect := .varalias 36}
      (updN 36 {baseSym with redirect := .varalias 37}
        (updN 37 {baseSym with redirect := .varalias 35} baseState.syms))}

/-! ### Handler scanning (claim C4) -/

/-- A handler `Fsignal`'s scan skips: a catcher, or a `CONDITION_CASE`
handler whose clause does not apply. -/
def scanNoMatch (conditions : List LObj) (h : HandlerRec) : Prop :=
  match h.tagOrCh with
  | .catchTag _ => True
  | t => find_handler_clause t conditions = none

/-- A handler `Fsignal`'s scan selects, with the clause
`find_handler_clause` hands to the handler. -/
def scanMatch (conditions : List LObj) (h : HandlerRec) (cl : Clause) : Prop :=
  match h.tagOrCh with
  | .catchTag _ => False
  | t => find_handler_clause t conditions = some cl

/-! ### Depth-exceeded scenarios (claim C8) -/

/-- 398 live bindings on a specpdl of capacity 400 with the ceiling already
at 400: the next-but-one `specbind` hits the depth limit. -/
def c8State : State :=
  {baseState with
    specpdl := List.replicate 398 (.letP 45 Qnil),
    specpdlSize := 400,
    maxSpecpdlSize := 400}

/-- One binding less: the same program stays below the limit. -/
def c8okState : State :=
  {baseState with
    specpdl := List.replicate 397 (.letP 45 Qnil),
    specpdlSize := 400,
    maxSpecpdlSize := 400}

/-- A full specpdl whose ceiling is still below 400: `grow_specpdl` must
first raise the ceiling to 400 and grow instead of signaling. -/
def c8rState : State :=
  {baseState with
    specpdl := List.replicate 299 (.letP 45 Qnil),
    specpdlSize := 300,
    maxSpecpdlSize := 300}

/-- The C8 probe program: a condition-case catching `error` around two
nested dynamic lets. -/
def c8Expr : Expr :=
  .condCaseE (.sym qNil)
    (.dletE (.sym 30) (.num 1) (.dletE (.sym 31) (.num 2) (.constE (.num 0))))
    [(.single (.sym qError), .constE (.num 99))]

/-! ### The BLV found-invariant (claim C6) -/

/-- The state a fallible operation leaves behind, whatever its outcome. -/
def resState {α : Type} : SRes α → State
  | .ok _ st => st
  | .sig _ st => st
  | .ab st => st
  | .oom st => st

/-- The claim's per-BLV invariant: `found` holds exactly when the default
cell and the loaded value cell are different heap objects (`EQ` on cell
ids, i.e. object identity). -/
def blvInvAt (blv : BLV) : Prop :=
  blv.found = true ↔ blv.defcell ≠ blv.valcell

/-- The invariant over every allocated BLV. -/
def blvInv (st : State) : Prop :=
  ∀ i, i < st.nblvs → blvInvAt (st.blvs i)

/-- Heap discipline the C allocator guarantees and the BLV code relies on:
every default cell is an allocated cell that is never threaded onto any
buffer's `local_var_alist` or frame's `param_alist` (those spines hold only
cells consed by `set_internal` / `Fmake_local_variable`), and every
`SYMBOL_LOCALIZED` redirect points at an allocated BLV. -/
def blvWF (st : State) : Prop :=
  (∀ i, i < st.nblvs → (st.blvs i).defcell < st.nextCell)
  ∧ (∀ i, i < st.nblvs → ∀ b, (st.blvs i).defcell ∉ (st.bufs b).local_var_alist)
  ∧ (∀ i, i < st.nblvs → ∀ fr, (st.blvs i).defcell ∉ (st.frames fr).param_alist)
  ∧ (∀ s i, (st.syms s).redirect = .localized i → i < st.nblvs)

/-- State changes that leave the whole BLV core untouched: the BLV table,
the alist spines, the redirects; the heap may only grow. -/
def corePres (st st2 : State) : Prop :=
  st2.blvs = st.blvs ∧ st2.nblvs = st.nblvs
  ∧ st.nextCell ≤ st2.nextCell
  ∧ (∀ b, (st2.bufs b).local_var_alist = (st.bufs b).local_var_alist)
  ∧ (∀ fr, (st2.frames fr).param_alist = (st.frames fr).param_alist)
  ∧ (∀ s, (st2.syms s).redirect = (st.syms s).redirect)

/-- A state with the buffer-local machinery of symbol 40 fully set up: BLV 0
with default cell 0, the current buffer holding a local binding in cell 1
for it (the loaded one), and cell allocation past both. -/
def c6State : State :=
  {baseState with
    nblvs := 1,
    nextCell := 2,
    cells := updN 0 (.sym 40, .num 5) (updN 1 (.sym 40, .num 7) baseState.cells),
    syms := updN 40 {baseSym with redirect := .localized 0} baseState.syms,
    blvs := updN 0 {fwd := none, whereB := .buffer 0, defcell := 0, valcell := 1,
                    found := true, frame_local := false, local_if_set := false}
              baseState.blvs,
    bufs := fun b =>
      {live := true, local_var_alist := if b = 0 then [1] else [],
       slots := fun _ => Qnil, localFlags := fun _ => false}}

/-! ### Two-phase unwinding (claim C1) -/

/-- A signalling cleanup caught by an enclosing condition-case, with one
dynamic let below it and one above it: the program of C1's concrete run. -/
def c1Expr : Expr :=
  .catchE (.sym 25)
    (.condCaseE Qnil
      (.dletE (.sym 30) (.num 1)
        (.uwpE (.signalK 7 (.sym qArithError) [])
          (.dletE (.sym 31) (.num 2) (.throwE (.sym 25) (.num 42)))))
      [(.single (.sym qArithError), .constE (.num 99))])

def c1Items2 : List NestItem := [.letN 31 (.num 2)]

def c1Items1 : List NestItem := [.letN 30 (.num 1)]

/-- The mid-unwind state of C1's witness: one let below the signalling
cleanup, one above, target depth 0. -/
def c1Wit0 : State :=
  {baseState with
    dynwind := segDyn c1Items2
      ++ .cleanupE (.signalK 7 (.sym qArithError) []) true :: (segDyn c1Items1 ++ []),
    specpdl := segSpec c1Items2 (segSyms c1Items1 baseState.syms)
      ++ (segSpec c1Items1 baseState.syms ++ []),
    syms := segSyms c1Items2 (segSyms c1Items1 baseState.syms)}

/-- Where the first unwind of C1's witness stops: the cleanup has signalled,
the entries above it are undone, the entries below are untouched. -/
def c1Wit1 : State :=
  {c1Wit0 with
    dynwind := segDyn c1Items1 ++ [],
    specpdl := segSpec c1Items1 baseState.syms ++ [],
    syms := segSyms c1Items1 baseState.syms,
    log := (c1Wit0.log ++ expectedTrace c1Items2 (segSyms c1Items1 baseState.syms))
      ++ [.cleanupRan 7]}

/-- The state after C1's witness's second unwind: every entry below the
cleanup undone exactly once. -/
def c1Wit2 : State :=
  {c1Wit0 with
    dynwind := [],
    specpdl := [],
    syms := baseState.syms,
    log := ((c1Wit0.log ++ expectedTrace c1Items2 (segSyms c1Items1 baseState.syms))
      ++ [.cleanupRan 7]) ++ expectedTrace c1Items1 baseState.syms}

/-! ## Theorems -/

theorem updN_same {α : Type} (k : Nat) (v : α) (f : Nat → α) : updN k v f k = v := by
  simp [updN]

theorem updN_other {α : Type} {k x : Nat} (v : α) (f : Nat → α) (h : x ≠ k) :
    updN k v f x = f x := by
  simp [updN, h]


theorem updN_self {α : Type} (k : Nat) (f : Nat → α) : updN k (f k) f = f := by
  funext x
  by_cases h : x = k <;> simp [updN, h]

theorem updN_collapse {α : Type} (k : Nat) (v w : α) (f : Nat → α) :
    updN k v (updN k w f) = updN k v f := by
  funext x
  by_cases h : x = k <;> simp [updN, h]

theorem runDynEntry_unbind_plain (st : State) (s : Nat) (old w : LObj)
    (sp : List SpecpdlEntry) (h1 : st.specpdl = .letP s old :: sp)
    (h2 : (st.syms s).redirect = .plainval w) :
    runDynEntry .unbindOnceE st
      = .ok () (appendLog (.restored s old) (SET_SYMBOL_VAL s old {st with specpdl := sp})) := by
  simp [runDynEntry, unbind_once, h1, h2]

/-- One step of `runTo` when the popped entry completes normally. -/
theorem runTo_cons_ok (t : Nat) (st st2 : State) (e : DynEntry) (d : List DynEntry)
    (h : st.dynwind = e :: d) (ht : t ≤ d.length)
    (hrun : runDynEntry e {st with dynwind := d} = .ok () st2) :
    runTo t st.dynwind.length st = runTo t d.length st2 := by
  have hlen : st.dynwind.length = d.length + 1 := by rw [h]; simp
  rw [hlen, runTo]
  simp only [h, hrun, List.length_cons]
  rw [if_neg (by omega)]

/-- One step of `runTo` when the popped entry raises a signal: the unwind
stops there and the signal machinery takes over. -/
theorem runTo_cons_sig (t : Nat) (st st2 : State) (e : DynEntry) (d : List DynEntry)
    (e2 : Sig) (h : st.dynwind = e :: d) (ht : t ≤ d.length)
    (hrun : runDynEntry e {st with dynwind := d} = .sig e2 st2) :
    runTo t st.dynwind.length st = .stoppedSig e2 st2 := by
  have hlen : st.dynwind.length = d.length + 1 := by rw [h]; simp
  rw [hlen, runTo]
  simp only [h, hrun, List.length_cons]
  rw [if_neg (by omega)]

/-- `runTo` at its target does nothing. -/
theorem runTo_done (t : Nat) (st : State) (h : st.dynwind.length ≤ t) :
    runTo t st.dynwind.length st = .reached st := by
  cases hn : st.dynwind.length with
  | zero => rw [runTo]; simp [h]
  | succ n => rw [runTo]; rw [if_pos (hn ▸ h)]

theorem runTo_done2 (t n : Nat) (st st2 : State) (hn : st.dynwind.length = n)
    (h : n ≤ t) (he : st = st2) : runTo t n st = .reached st2 := by
  subst he
  subst hn
  exact runTo_done t st h

/-- Restoring a let-bound plain symbol puts the symbol table back. -/
theorem restore_syms (σ : Nat → SymbolRec) (s : Nat) (v w : LObj)
    (h : (σ s).redirect = .plainval w) :
    updN s {(updN s {σ s with redirect := .plainval v} σ) s with
              redirect := .plainval (plainOf (σ s))}
      (updN s {σ s with redirect := .plainval v} σ) = σ := by
  have h2 : plainOf (σ s) = w := by simp [plainOf, h]
  rw [updN_collapse, updN_same, h2]
  have h3 : ({({σ s with redirect := .plainval v}) with redirect := .plainval w} : SymbolRec)
      = σ s := by
    rw [← h]
  rw [h3, updN_self]

/-- Two `runTo` steps popping one dynamic-let level: the `unbind_once`
registration (restoring a plain symbol and logging) and the frame mark. -/
theorem runTo_let_step (t n : Nat) (st : State) (s : Nat) (old v : LObj)
    (r : List DynEntry) (p : List SpecpdlEntry)
    (hd : st.dynwind = .unbindOnceE :: .frameMark :: r)
    (hs : st.specpdl = .letP s old :: p)
    (hsym : (st.syms s).redirect = .plainval v)
    (hn : st.dynwind.length = n) (ht : t ≤ r.length) :
    runTo t n st
      = runTo t r.length
          (appendLog (.restored s old)
            (SET_SYMBOL_VAL s old {st with dynwind := r, specpdl := p})) := by
  rw [← hn]
  have h1 := runTo_cons_ok t st
    (appendLog (.restored s old)
      (SET_SYMBOL_VAL s old {st with dynwind := .frameMark :: r, specpdl := p}))
    .unbindOnceE (.frameMark :: r) hd (by simp; omega)
    (runDynEntry_unbind_plain _ s old v p hs hsym)
  rw [h1]
  have h2 := runTo_cons_ok t
    (appendLog (.restored s old)
      (SET_SYMBOL_VAL s old {st with dynwind := .frameMark :: r, specpdl := p}))
    (appendLog (.restored s old)
      (SET_SYMBOL_VAL s old {st with dynwind := r, specpdl := p}))
    .frameMark r rfl ht rfl
  exact h2

/-- Two `runTo` steps popping one unwind-protect level: the cleanup (which
completes, logging its run) and the frame mark. -/
theorem runTo_uwp_step (t n : Nat) (st : State) (f : Nat) (r : List DynEntry)
    (hd : st.dynwind = .cleanupE (.pureK f) true :: .frameMark :: r)
    (hn : st.dynwind.length = n) (ht : t ≤ r.length) :
    runTo t n st = runTo t r.length (appendLog (.cleanupRan f) {st with dynwind := r}) := by
  rw [← hn]
  have h1 := runTo_cons_ok t st
    (appendLog (.cleanupRan f) {st with dynwind := .frameMark :: r})
    (.cleanupE (.pureK f) true) (.frameMark :: r) hd (by simp; omega) rfl
  rw [h1]
  have h2 := runTo_cons_ok t
    (appendLog (.cleanupRan f) {st with dynwind := .frameMark :: r})
    (appendLog (.cleanupRan f) {st with dynwind := r})
    .frameMark r rfl ht rfl
  exact h2

/-- A `runTo` step popping a cleanup that raises a signal: the cleanup runs
(exactly once — its entry was already popped) and the unwind stops. -/
theorem runTo_sigCleanup_step (t n : Nat) (st : State) (id : Nat) (es : LObj)
    (dt : List LObj) (b : Bool) (d : List DynEntry)
    (hd : st.dynwind = .cleanupE (.signalK id es dt) b :: d)
    (hn : st.dynwind.length = n) (ht : t ≤ d.length) :
    runTo t n st = .stoppedSig ⟨es, dt⟩ (appendLog (.cleanupRan id) {st with dynwind := d}) := by
  rw [← hn]
  exact runTo_cons_sig t st (appendLog (.cleanupRan id) {st with dynwind := d})
    (.cleanupE (.signalK id es dt) b) d ⟨es, dt⟩ hd ht rfl

/-- A `runTo` step popping a frame mark. -/
theorem runTo_fm_step (t n : Nat) (st : State) (d : List DynEntry)
    (hd : st.dynwind = .frameMark :: d) (hn : st.dynwind.length = n) (ht : t ≤ d.length) :
    runTo t n st = runTo t d.length {st with dynwind := d} := by
  rw [← hn]
  exact runTo_cons_ok t st {st with dynwind := d} .frameMark d hd ht rfl

/-- A `runTo` step popping the flag-0 `restore_handler` entry. -/
theorem runTo_rh_step (t n : Nat) (st : State) (d : List DynEntry)
    (hd : st.dynwind = .restoreHandlerE :: d) (hn : st.dynwind.length = n)
    (ht : t ≤ d.length) :
    runTo t n st = runTo t d.length {st with dynwind := d} := by
  rw [← hn]
  exact runTo_cons_ok t st {st with dynwind := d} .restoreHandlerE d hd ht rfl

/-- A `runTo` step popping a `set_handlerlist` entry: `handlerlist` is
restored to its saved value. -/
theorem runTo_setH_step (t n : Nat) (st : State) (saved : List HandlerRec)
    (d : List DynEntry) (hd : st.dynwind = .setHandlersE saved :: d)
    (hn : st.dynwind.length = n) (ht : t ≤ d.length) :
    runTo t n st = runTo t d.length {st with dynwind := d, handlers := saved} := by
  rw [← hn]
  exact runTo_cons_ok t st {st with dynwind := d, handlers := saved}
    (.setHandlersE saved) d hd ht rfl

/-- Unwinding straight through a nest segment: pops each pushed entry in
strict reverse push order, restores each let binding to its recorded old
value, runs each cleanup exactly once, and continues below the segment with
the base symbol table back in place and the expected trace appended. -/
theorem runTo_seg (items : List NestItem) :
    ∀ (σ : Nat → SymbolRec) (r : List DynEntry) (p : List SpecpdlEntry) (t : Nat) (st : State),
    st.dynwind = segDyn items ++ r →
    st.specpdl = segSpec items σ ++ p →
    st.syms = segSyms items σ →
    segSymsOK items σ = true →
    t ≤ r.length →
    runTo t st.dynwind.length st
      = runTo t r.length
          {st with dynwind := r, specpdl := p, syms := σ,
                   log := st.log ++ expectedTrace items σ} := by
  induction items with
  | nil =>
    intro σ r p t st h1 h2 h3 _ _
    simp only [segDyn, List.nil_append] at h1
    simp only [segSpec, List.nil_append] at h2
    simp only [segSyms] at h3
    simp only [expectedTrace, List.append_nil]
    have heq : ({st with dynwind := r, specpdl := p, syms := σ, log := st.log} : State)
        = st := by
      rw [← h1, ← h2, ← h3]
    rw [heq, h1]
  | cons i rest ih =>
    intro σ r p t st h1 h2 h3 hok ht
    cases i with
    | letN s v =>
      simp only [segDyn, List.append_assoc, List.cons_append, List.nil_append] at h1
      simp only [segSpec, List.append_assoc, List.cons_append, List.nil_append] at h2
      simp only [segSyms] at h3
      simp only [segSymsOK, Bool.and_eq_true] at hok
      obtain ⟨hplain, hok2⟩ := hok
      obtain ⟨w, hw⟩ : ∃ w, (σ s).redirect = .plainval w := by
        cases hred : (σ s).redirect <;> simp [isPlainRed, hred] at hplain ⊢
      have hih := ih (updN s {σ s with redirect := .plainval v} σ)
        (.unbindOnceE :: .frameMark :: r) (.letP s (plainOf (σ s)) :: p) t st
        h1 h2 h3 hok2 (by simp; omega)
      rw [hih]
      have hstep := runTo_let_step t
        ((DynEntry.unbindOnceE :: DynEntry.frameMark :: r : List DynEntry).length)
        {st with dynwind := .unbindOnceE :: .frameMark :: r,
                 specpdl := .letP s (plainOf (σ s)) :: p,
                 syms := updN s {σ s with redirect := .plainval v} σ,
                 log := st.log ++ expectedTrace rest (updN s {σ s with redirect := .plainval v} σ)}
        s (plainOf (σ s)) v r p rfl rfl (by simp [updN_same]) rfl ht
      rw [hstep]
      congr 1
      apply State.ext <;> try rfl
      · exact restore_syms σ s v w hw
      · show (st.log ++ expectedTrace rest (updN s {σ s with redirect := .plainval v} σ))
               ++ [.restored s (plainOf (σ s))]
          = st.log ++ expectedTrace (.letN s v :: rest) σ
        rw [List.append_assoc]
        rfl
    | uwpI f =>
      simp only [segDyn, List.append_assoc, List.cons_append, List.nil_append] at h1
      simp only [segSpec] at h2
      simp only [segSyms] at h3
      simp only [segSymsOK] at hok
      have hih := ih σ (.cleanupE (.pureK f) true :: .frameMark :: r) p t st
        h1 h2 h3 hok (by simp; omega)
      rw [hih]
      have hstep := runTo_uwp_step t
        ((DynEntry.cleanupE (.pureK f) true :: DynEntry.frameMark :: r : List DynEntry).length)
        {st with dynwind := .cleanupE (.pureK f) true :: .frameMark :: r,
                 specpdl := p, syms := σ,
                 log := st.log ++ expectedTrace rest σ}
        f r rfl rfl ht
      rw [hstep]
      congr 1
      apply State.ext <;> try rfl
      show (st.log ++ expectedTrace rest σ) ++ [.cleanupRan f]
          = st.log ++ expectedTrace (.uwpI f :: rest) σ
      rw [List.append_assoc]
      rfl

theorem isPlainRed_exists {r : Redirect} (h : isPlainRed r = true) :
    ∃ w, r = .plainval w := by
  cases r <;> simp [isPlainRed] at h ⊢

/-- `specbind` on a plain non-constant symbol with room on the specpdl:
record the old value, set the new one, register `unbind_once`. -/
theorem specbind_plain (s : Nat) (v w : LObj) (st : State)
    (h1 : (st.syms s).redirect = .plainval w)
    (h2 : (st.syms s).sconst = false)
    (h3 : st.specpdl.length + 1 ≠ st.specpdlSize) :
    specbind (.sym s) v st
      = .ok () (pushDyn .unbindOnceE (SET_SYMBOL_VAL s v (pushSpecpdl (.letP s w) st))) := by
  unfold specbind chaseToNonAlias
  simp only [isAlias, h1]
  simp only [SRes.bind, h1]
  unfold grow_specpdl
  simp [pushSpecpdl, h3, SRes.bind, h2, h1]

theorem thunkFinish_notValue (r : Outcome × State) (fuel : Nat) (h : notValue r.1) :
    thunkFinish r fuel = r := by
  obtain ⟨o, st⟩ := r
  cases o <;> simp [thunkFinish, notValue] at h ⊢

theorem pushOne_handlers (i : NestItem) (st : State) :
    (pushOne i st).handlers = st.handlers := by cases i <;> rfl

theorem pushOne_prompts (i : NestItem) (st : State) :
    (pushOne i st).prompts = st.prompts := by cases i <;> rfl

theorem pushOne_log (i : NestItem) (st : State) :
    (pushOne i st).log = st.log := by cases i <;> rfl

theorem pushOne_nextPtag (i : NestItem) (st : State) :
    (pushOne i st).nextPtag = st.nextPtag := by cases i <;> rfl

theorem pushNest_handlers (items : List NestItem) :
    ∀ st, (pushNest items st).handlers = st.handlers := by
  induction items with
  | nil => intro st; rfl
  | cons i rest ih =>
    intro st
    show (pushNest rest (pushOne i st)).handlers = st.handlers
    rw [ih, pushOne_handlers]

theorem pushNest_prompts (items : List NestItem) :
    ∀ st, (pushNest items st).prompts = st.prompts := by
  induction items with
  | nil => intro st; rfl
  | cons i rest ih =>
    intro st
    show (pushNest rest (pushOne i st)).prompts = st.prompts
    rw [ih, pushOne_prompts]

theorem pushNest_log (items : List NestItem) :
    ∀ st, (pushNest items st).log = st.log := by
  induction items with
  | nil => intro st; rfl
  | cons i rest ih =>
    intro st
    show (pushNest rest (pushOne i st)).log = st.log
    rw [ih, pushOne_log]

theorem pushNest_nextPtag (items : List NestItem) :
    ∀ st, (pushNest items st).nextPtag = st.nextPtag := by
  induction items with
  | nil => intro st; rfl
  | cons i rest ih =>
    intro st
    show (pushNest rest (pushOne i st)).nextPtag = st.nextPtag
    rw [ih, pushOne_nextPtag]

theorem pushNest_dynwind (items : List NestItem) :
    ∀ st, (pushNest items st).dynwind = segDyn items ++ st.dynwind := by
  induction items with
  | nil => intro st; rfl
  | cons i rest ih =>
    intro st
    show (pushNest rest (pushOne i st)).dynwind = segDyn (i :: rest) ++ st.dynwind
    rw [ih]
    cases i <;> simp [segDyn, pushOne, pushDyn, SET_SYMBOL_VAL, setRedirect, pushSpecpdl]

theorem pushNest_specpdl (items : List NestItem) :
    ∀ st, (pushNest items st).specpdl = segSpec items st.syms ++ st.specpdl := by
  induction items with
  | nil => intro st; rfl
  | cons i rest ih =>
    intro st
    show (pushNest rest (pushOne i st)).specpdl = segSpec (i :: rest) st.syms ++ st.specpdl
    rw [ih]
    cases i with
    | letN s v =>
      simp only [segSpec, pushOne, pushDyn, SET_SYMBOL_VAL, setRedirect, pushSpecpdl,
        List.append_assoc, List.cons_append, List.nil_append]
    | uwpI f => rfl

theorem pushNest_syms (items : List NestItem) :
    ∀ st, (pushNest items st).syms = segSyms items st.syms := by
  induction items with
  | nil => intro st; rfl
  | cons i rest ih =>
    intro st
    show (pushNest rest (pushOne i st)).syms = segSyms (i :: rest) st.syms
    rw [ih]
    cases i with
    | letN s v => rfl
    | uwpI f => rfl

theorem nestOK_segSymsOK (items : List NestItem) :
    ∀ st, nestOK items st = true → segSymsOK items st.syms = true := by
  induction items with
  | nil => intro st _; rfl
  | cons i rest ih =>
    intro st hok
    cases i with
    | letN s v =>
      simp only [nestOK, Bool.and_eq_true] at hok
      obtain ⟨⟨⟨hplain, _⟩, _⟩, hok2⟩ := hok
      simp only [segSymsOK, Bool.and_eq_true]
      exact ⟨hplain, ih _ hok2⟩
    | uwpI f =>
      simp only [nestOK] at hok
      exact ih (pushOne (.uwpI f) st) hok

/-- `nestOK` only reads the symbol table, the specpdl length and the
allocated specpdl size. -/
theorem nestOK_congr (items : List NestItem) :
    ∀ (st st' : State), st'.syms = st.syms → st'.specpdl.length = st.specpdl.length →
    st'.specpdlSize = st.specpdlSize → nestOK items st' = nestOK items st := by
  induction items with
  | nil => intro st st' _ _ _; rfl
  | cons i rest ih =>
    intro st st' h1 h2 h3
    cases i with
    | letN s v =>
      simp only [nestOK, h1, h2, h3]
      congr 1
      apply ih
      · show (pushOne (.letN s v) st').syms = (pushOne (.letN s v) st).syms
        simp [pushOne, pushDyn, SET_SYMBOL_VAL, setRedirect, pushSpecpdl, h1]
      · show (pushOne (.letN s v) st').specpdl.length = (pushOne (.letN s v) st).specpdl.length
        simp [pushOne, pushDyn, SET_SYMBOL_VAL, setRedirect, pushSpecpdl, h2]
      · exact h3
    | uwpI f =>
      simp only [nestOK]
      apply ih
      · exact h1
      · simpa using h2
      · exact h3

/-- Evaluating a nest around an expression that does not return normally:
the prologues run (pushing the dynwind and specpdl segments and performing
the bindings) and the inner outcome passes through unchanged. -/
theorem evalE_nest (items : List NestItem) :
    ∀ (k : Nat) (inner : Expr) (st : State),
    nestOK items st = true →
    notValue (evalE k inner (pushNest items st)).1 →
    evalE (items.length + k) (nestN items inner) st = evalE k inner (pushNest items st) := by
  induction items with
  | nil =>
    intro k inner st _ _
    simp [nestN, pushNest]
  | cons i rest ih =>
    intro k inner st hok hres
    cases i with
    | letN s v =>
      simp only [nestOK, Bool.and_eq_true] at hok
      obtain ⟨⟨⟨hplain, hconst⟩, hcap⟩, hok2⟩ := hok
      obtain ⟨w, hw⟩ := isPlainRed_exists hplain
      have hcap2 : st.specpdl.length + 1 ≠ st.specpdlSize := by
        simpa using hcap
      have hconst2 : (st.syms s).sconst = false := by
        simpa using hconst
      show evalE (rest.length + 1 + k) (.dletE (.sym s) v (nestN rest inner)) st
        = evalE k inner (pushNest (.letN s v :: rest) st)
      rw [show rest.length + 1 + k = (rest.length + k) + 1 by omega]
      rw [evalE]
      have hsb := specbind_plain s v w (pushDyn .frameMark st) hw hconst2 hcap2
      simp only [hsb]
      have hpush : (pushDyn .unbindOnceE (SET_SYMBOL_VAL s v
          (pushSpecpdl (.letP s w) (pushDyn .frameMark st)))) = pushOne (.letN s v) st := by
        simp [pushOne, plainOf, hw]
      rw [hpush]
      have hihr := ih k inner (pushOne (.letN s v) st) hok2 hres
      rw [hihr]
      exact thunkFinish_notValue _ _ hres
    | uwpI f =>
      simp only [nestOK] at hok
      show evalE (rest.length + 1 + k) (.uwpE (.pureK f) (nestN rest inner)) st
        = evalE k inner (pushNest (.uwpI f :: rest) st)
      rw [show rest.length + 1 + k = (rest.length + k) + 1 by omega]
      rw [evalE]
      have hihr := ih k inner (pushOne (.uwpI f) st) hok hres
      show thunkFinish (evalE (rest.length + k) (nestN rest inner)
          (record_unwind_protect (.pureK f) (pushDyn .frameMark st))) (rest.length + k)
        = evalE k inner (pushNest (.uwpI f :: rest) st)
      rw [show record_unwind_protect (.pureK f) (pushDyn .frameMark st)
            = pushOne (.uwpI f) st from rfl]
      rw [hihr]
      exact thunkFinish_notValue _ _ hres

/-- Three `runTo` steps popping an `icc_thunk` prologue: `set_handlerlist`
(restoring `handlerlist`), the flag-0 `restore_handler`, the frame mark. -/
theorem runTo_icc3 (t n : Nat) (st : State) (saved : List HandlerRec)
    (r : List DynEntry)
    (hd : st.dynwind = .setHandlersE saved :: .restoreHandlerE :: .frameMark :: r)
    (hn : st.dynwind.length = n) (ht : t ≤ r.length) :
    runTo t n st = runTo t r.length {st with dynwind := r, handlers := saved} := by
  rw [← hn]
  have h1 := runTo_cons_ok t st
    {st with dynwind := .restoreHandlerE :: .frameMark :: r, handlers := saved}
    (.setHandlersE saved) (.restoreHandlerE :: .frameMark :: r) hd (by simp; omega) rfl
  rw [h1]
  have h2 := runTo_cons_ok t
    {st with dynwind := .restoreHandlerE :: .frameMark :: r, handlers := saved}
    {st with dynwind := .frameMark :: r, handlers := saved}
    .restoreHandlerE (.frameMark :: r) rfl (by simp; omega) rfl
  rw [h2]
  exact runTo_cons_ok t
    {st with dynwind := .frameMark :: r, handlers := saved}
    {st with dynwind := r, handlers := saved}
    .frameMark r rfl ht rfl

/-- The nest prologue as one state equation. -/
theorem pushNest_eq (items : List NestItem) :
    ∀ st, pushNest items st
      = {st with dynwind := segDyn items ++ st.dynwind,
                 specpdl := segSpec items st.syms ++ st.specpdl,
                 syms := segSyms items st.syms} := by
  induction items with
  | nil =>
    intro st
    apply State.ext <;> rfl
  | cons i rest ih =>
    intro st
    show pushNest rest (pushOne i st) = _
    rw [ih (pushOne i st)]
    cases i <;>
      apply State.ext <;>
        simp [pushOne, pushDyn, SET_SYMBOL_VAL, setRedirect, pushSpecpdl,
          segDyn, segSpec, segSyms]

theorem evalE_catch_abort (k : Nat) (tag v : LObj) (body : Expr) (base Z : State)
    (hbody : evalE k body
        (iccProlog {tagOrCh := .catchTag tag, ptag := base.nextPtag}
          (pushPrompt base.nextPtag {base with nextPtag := base.nextPtag + 1}))
      = (.aborted base.nextPtag v, Z)) :
    evalE (k + 1) (.catchE tag body) base = (.ok v, popPrompt Z) := by
  rw [evalE]
  simp only [make_catch_handler, make_prompt_tag]
  rw [hbody]
  simp [thunkFinish]

theorem evalE_throw (fuel : Nat) (tag v : LObj) (st : State) :
    evalE (fuel + 1) (.throwE tag v) st = ctlRun fuel (.thr tag v) st := by
  simp only [evalE]

/-- `Fthrow` with a non-nil tag that has a live catcher becomes an abort to
that catcher's prompt. -/
theorem ctlRun_thr_catch (fuel : Nat) (tag v : LObj) (st : State) (h : HandlerRec)
    (htag : ¬ NILP tag = true)
    (hfind : findCatcher st.handlers tag = some h) :
    ctlRun (fuel + 1) (.thr tag v) st = ctlRun fuel (.abortC h.ptag v) st := by
  simp only [ctlRun]
  rw [if_pos htag, hfind]

/-- `abort_to_prompt` whose unwind reaches the prompt's depth cleanly. -/
theorem ctlRun_abort_reached (fuel ptag : Nat) (payload : LObj)
    (st st2 : State) (depth : Nat)
    (hlook : lookupPrompt st.prompts ptag = some depth)
    (hrun : runTo depth st.dynwind.length st = .reached st2) :
    ctlRun (fuel + 1) (.abortC ptag payload) st = (.aborted ptag payload, st2) := by
  simp only [ctlRun, hlook]
  rw [hrun]

/-- The `icc_thunk` prologue as one state equation. -/
theorem iccProlog_eq (h : HandlerRec) (st : State) :
    iccProlog h st
      = {st with dynwind := .setHandlersE st.handlers :: .restoreHandlerE
                   :: .frameMark :: st.dynwind,
                 handlers := h :: st.handlers} := by
  apply State.ext <;> rfl

theorem catchPre_eq (tag : LObj) (base : State) :
    catchPre tag base = catchPreS tag base := by
  show iccProlog {tagOrCh := .catchTag tag, ptag := base.nextPtag}
    (pushPrompt base.nextPtag {base with nextPtag := base.nextPtag + 1}) = _
  rw [iccProlog_eq]
  apply State.ext <;> rfl

/-- Master scenario: `internal_catch` around an arbitrary nest of `specbind`
frames and `record_unwind_protect` cleanups whose innermost body throws to
the catch's tag.  The throw unwinds every nest entry in strict reverse push
order (the appended `expectedTrace`), every let-bound symbol is restored to
its pre-bind value, each cleanup runs exactly once, and the catch returns
the thrown value with the specpdl, dynwind stack, `handlerlist` and symbol
table restored exactly to their initial contents. -/
theorem catch_nest_throw (items : List NestItem) (tag v : LObj) (base : State)
    (htag : tag ≠ Qnil) (hok : nestOK items base = true) :
    evalE (items.length + 4) (.catchE tag (nestN items (.throwE tag v))) base
      = (.ok v, {base with nextPtag := base.nextPtag + 1,
                           log := base.log ++ expectedTrace items base.syms}) := by
  have hnilp : ¬ NILP tag = true := by simpa [NILP] using htag
  have hok3 : nestOK items (catchPre tag base) = true := by
    rw [nestOK_congr items base (catchPre tag base)
      (by rw [catchPre_eq]; rfl) (by rw [catchPre_eq]; rfl) (by rw [catchPre_eq]; rfl)]

    exact hok
  have hS4 : pushNest items (catchPre tag base) = catchNestState items tag base := by
    rw [catchPre_eq, pushNest_eq]
    apply State.ext <;> rfl
  have hfind : findCatcher (catchNestState items tag base).handlers tag
      = some {tagOrCh := .catchTag tag, ptag := base.nextPtag} := by
    show findCatcher
      ({tagOrCh := .catchTag tag, ptag := base.nextPtag} :: base.handlers) tag = _
    simp [findCatcher, List.find?]
  have hlook : lookupPrompt (catchNestState items tag base).prompts base.nextPtag
      = some base.dynwind.length := by
    show lookupPrompt
      ((base.nextPtag, base.dynwind.length) :: base.prompts) base.nextPtag = _
    simp [lookupPrompt, List.find?]
  have hrun : runTo base.dynwind.length
      (catchNestState items tag base).dynwind.length
      (catchNestState items tag base) = .reached (catchNestFinal items base) := by
    refine Eq.trans (runTo_seg items base.syms
      (.setHandlersE base.handlers :: .restoreHandlerE :: .frameMark :: base.dynwind)
      base.specpdl base.dynwind.length (catchNestState items tag base)
      rfl rfl rfl (nestOK_segSymsOK items base hok)
      (by simp only [List.length_cons]; omega)) ?_
    refine Eq.trans (runTo_icc3 base.dynwind.length _ _ base.handlers base.dynwind
      rfl rfl (Nat.le_refl _)) ?_
    refine runTo_done2 _ _ _ _ ?_ ?_ ?_
    · rfl
    · exact Nat.le_refl _
    · apply State.ext <;> rfl
  have hthrow : evalE 3 (.throwE tag v) (pushNest items (catchPre tag base))
      = (.aborted base.nextPtag v, catchNestFinal items base) := by
    rw [hS4]
    rw [show (3 : Nat) = 2 + 1 from rfl]
    rw [evalE_throw]
    rw [show (2 : Nat) = 1 + 1 from rfl]
    rw [ctlRun_thr_catch 1 tag v (catchNestState items tag base)
      {tagOrCh := .catchTag tag, ptag := base.nextPtag} hnilp hfind]
    rw [show (1 : Nat) = 0 + 1 from rfl]
    exact ctlRun_abort_reached 0 base.nextPtag v (catchNestState items tag base)
      (catchNestFinal items base) base.dynwind.length hlook hrun
  have hnest := evalE_nest items 3 (.throwE tag v) (catchPre tag base) hok3
    (by rw [hthrow]; trivial)
  exact evalE_catch_abort (items.length + 3) tag v (nestN items (.throwE tag v))
    base (catchNestFinal items base) (hnest.trans hthrow)

/-- C3: for every tag, value, initial state and arbitrary nest of `specbind`
frames and unwind-protect cleanups, `internal_catch` around a body that
throws the catch's own tag from inside the nest returns the thrown value at
the catch call site; the throw runs every intervening cleanup and
let-restoration in strict reverse push order (`expectedTrace`), and the
handler stack, the specpdl, the dynwind stack and the symbol table are left
exactly as they were before the catch call. -/
theorem C3_catch_throw_roundtrip (items : List NestItem) (tag v : LObj)
    (base : State) (htag : tag ≠ Qnil) (hok : nestOK items base = true) :
    (evalE (items.length + 4) (.catchE tag (nestN items (.throwE tag v))) base).1
        = .ok v
    ∧ (evalE (items.length + 4) (.catchE tag (nestN items (.throwE tag v))) base).2.handlers
        = base.handlers
    ∧ (evalE (items.length + 4) (.catchE tag (nestN items (.throwE tag v))) base).2.specpdl
        = base.specpdl
    ∧ (evalE (items.length + 4) (.catchE tag (nestN items (.throwE tag v))) base).2.dynwind
        = base.dynwind
    ∧ (evalE (items.length + 4) (.catchE tag (nestN items (.throwE tag v))) base).2.syms
        = base.syms
    ∧ (evalE (items.length + 4) (.catchE tag (nestN items (.throwE tag v))) base).2.log
        = base.log ++ expectedTrace items base.syms := by
  rw [catch_nest_throw items tag v base htag hok]
  exact ⟨rfl, rfl, rfl, rfl, rfl, rfl⟩

theorem C3_catch_throw_roundtrip_witness :
    ((.sym 25 : LObj) ≠ Qnil)
    ∧ (nestOK [.letN 30 (.num 1), .uwpI 7, .letN 30 (.num 2)] baseState = true)
    ∧ ((evalE 7 (.catchE (.sym 25) (nestN [.letN 30 (.num 1), .uwpI 7, .letN 30 (.num 2)]
          (.throwE (.sym 25) (.num 42)))) baseState).1 = .ok (.num 42)
       ∧ (evalE 7 (.catchE (.sym 25) (nestN [.letN 30 (.num 1), .uwpI 7, .letN 30 (.num 2)]
          (.throwE (.sym 25) (.num 42)))) baseState).2.handlers = baseState.handlers
       ∧ (evalE 7 (.catchE (.sym 25) (nestN [.letN 30 (.num 1), .uwpI 7, .letN 30 (.num 2)]
          (.throwE (.sym 25) (.num 42)))) baseState).2.specpdl = baseState.specpdl
       ∧ (evalE 7 (.catchE (.sym 25) (nestN [.letN 30 (.num 1), .uwpI 7, .letN 30 (.num 2)]
          (.throwE (.sym 25) (.num 42)))) baseState).2.dynwind = baseState.dynwind
       ∧ (evalE 7 (.catchE (.sym 25) (nestN [.letN 30 (.num 1), .uwpI 7, .letN 30 (.num 2)]
          (.throwE (.sym 25) (.num 42)))) baseState).2.syms = baseState.syms
       ∧ (evalE 7 (.catchE (.sym 25) (nestN [.letN 30 (.num 1), .uwpI 7, .letN 30 (.num 2)]
          (.throwE (.sym 25) (.num 42)))) baseState).2.log
          = baseState.log ++ expectedTrace [.letN 30 (.num 1), .uwpI 7, .letN 30 (.num 2)] baseState.syms) :=
  ⟨by decide, by decide,
   C3_catch_throw_roundtrip [.letN 30 (.num 1), .uwpI 7, .letN 30 (.num 2)]
     (.sym 25) (.num 42) baseState (by decide) (by decide)⟩

/-- C2: unwinding undoes binding-stack entries strictly in reverse push
order regardless of entry kind.  After `specbind A 1`, `record_unwind_protect f`,
`specbind A 2`, an unwind back to the starting depth first restores A to 1
(undoing the innermost let), then runs cleanup `f`, then restores A to its
original value `a0` (undoing the outermost let) — exactly this trace, in
exactly this order — and the symbol table and specpdl end as they started. -/
theorem C2_reverse_unwind_order (A f : Nat) (tag v a0 : LObj) (base : State)
    (htag : tag ≠ Qnil)
    (ha : (base.syms A).redirect = .plainval a0)
    (hok : nestOK [.letN A (.num 1), .uwpI f, .letN A (.num 2)] base = true) :
    (evalE ([NestItem.letN A (.num 1), .uwpI f, .letN A (.num 2)].length + 4)
        (.catchE tag (nestN [.letN A (.num 1), .uwpI f, .letN A (.num 2)] (.throwE tag v))) base).2.log
      = base.log ++ [.restored A (.num 1), .cleanupRan f, .restored A a0]
    ∧ (evalE ([NestItem.letN A (.num 1), .uwpI f, .letN A (.num 2)].length + 4)
        (.catchE tag (nestN [.letN A (.num 1), .uwpI f, .letN A (.num 2)] (.throwE tag v))) base).2.syms
      = base.syms
    ∧ (evalE ([NestItem.letN A (.num 1), .uwpI f, .letN A (.num 2)].length + 4)
        (.catchE tag (nestN [.letN A (.num 1), .uwpI f, .letN A (.num 2)] (.throwE tag v))) base).2.specpdl
      = base.specpdl
    ∧ (evalE ([NestItem.letN A (.num 1), .uwpI f, .letN A (.num 2)].length + 4)
        (.catchE tag (nestN [.letN A (.num 1), .uwpI f, .letN A (.num 2)] (.throwE tag v))) base).1
      = .ok v := by
  rw [catch_nest_throw [.letN A (.num 1), .uwpI f, .letN A (.num 2)] tag v base htag hok]
  refine ⟨?_, rfl, rfl, rfl⟩
  show base.log ++ expectedTrace [.letN A (.num 1), .uwpI f, .letN A (.num 2)] base.syms = _
  simp [expectedTrace, plainOf, updN, ha]

theorem C2_reverse_unwind_order_witness :
    ((.sym 25 : LObj) ≠ Qnil)
    ∧ ((baseState.syms 30).redirect = .plainval Qnil)
    ∧ (nestOK [.letN 30 (.num 1), .uwpI 7, .letN 30 (.num 2)] baseState = true)
    ∧ ((evalE ([NestItem.letN 30 (.num 1), .uwpI 7, .letN 30 (.num 2)].length + 4)
          (.catchE (.sym 25) (nestN [.letN 30 (.num 1), .uwpI 7, .letN 30 (.num 2)]
            (.throwE (.sym 25) (.num 42)))) baseState).2.log
        = baseState.log ++ [.restored 30 (.num 1), .cleanupRan 7, .restored 30 Qnil]
       ∧ (evalE ([NestItem.letN 30 (.num 1), .uwpI 7, .letN 30 (.num 2)].length + 4)
          (.catchE (.sym 25) (nestN [.letN 30 (.num 1), .uwpI 7, .letN 30 (.num 2)]
            (.throwE (.sym 25) (.num 42)))) baseState).2.syms = baseState.syms
       ∧ (evalE ([NestItem.letN 30 (.num 1), .uwpI 7, .letN 30 (.num 2)].length + 4)
          (.catchE (.sym 25) (nestN [.letN 30 (.num 1), .uwpI 7, .letN 30 (.num 2)]
            (.throwE (.sym 25) (.num 42)))) baseState).2.specpdl = baseState.specpdl
       ∧ (evalE ([NestItem.letN 30 (.num 1), .uwpI 7, .letN 30 (.num 2)].length + 4)
          (.catchE (.sym 25) (nestN [.letN 30 (.num 1), .uwpI 7, .letN 30 (.num 2)]
            (.throwE (.sym 25) (.num 42)))) baseState).1 = .ok (.num 42)) :=
  ⟨by decide, by decide, by decide,
   C2_reverse_unwind_order 30 7 (.sym 25) (.num 42) Qnil baseState
     (by decide) (by decide) (by decide)⟩

/-- C10: `specbind` on a symbol whose `SYMBOL_LOCALIZED` BLV is frame-local
signals the error `"Frame-local vars cannot be let-bound"` and returns the
state completely unchanged: no specpdl entry is pushed, no dynwind entry is
registered, and no value cell, buffer or global is modified by the
attempt. -/
theorem C10_frame_local_specbind (s blvId : Nat) (value : LObj) (st : State)
    (hred : (st.syms s).redirect = .localized blvId)
    (hfl : (st.blvs blvId).frame_local = true) :
    specbind (.sym s) value st
      = .sig ⟨Qerror, [.str "Frame-local vars cannot be let-bound"]⟩ st := by
  have hna : isAlias st s = false := by simp [isAlias, hred]
  simp [specbind, chaseToNonAlias, hna, SRes.bind, hred, hfl]

theorem C10_frame_local_specbind_witness :
    ((c10State.syms 30).redirect = .localized 0)
    ∧ ((c10State.blvs 0).frame_local = true)
    ∧ specbind (.sym 30) (.num 5) c10State
        = .sig ⟨Qerror, [.str "Frame-local vars cannot be let-bound"]⟩ c10State :=
  ⟨by decide, by decide,
   C10_frame_local_specbind 30 0 (.num 5) c10State (by decide) (by decide)⟩


/-! ### Heap-extension lemmas and the lambda-list binding loop (claim C9) -/

theorem extendsH_refl (st : State) : extendsH st st :=
  ⟨Nat.le_refl _, fun _ _ => rfl⟩

theorem extendsH_trans {st1 st2 st3 : State} (h1 : extendsH st1 st2)
    (h2 : extendsH st2 st3) : extendsH st1 st3 :=
  ⟨Nat.le_trans h1.1 h2.1,
   fun id hid => (h2.2 id (Nat.lt_of_lt_of_le hid h1.1)).trans (h1.2 id hid)⟩

theorem Fcons_extends (a b : LObj) (st : State) : extendsH st (Fcons a b st).2 := by
  refine ⟨Nat.le_succ _, fun id hid => ?_⟩
  show updN st.nextCell (a, b) st.cells id = st.cells id
  exact updN_other _ _ (by omega)

theorem listValid_extends (st st2 : State) (hx : extendsH st st2) :
    ∀ (n : Nat) (v : LObj), listValid st n v = true → listValid st2 n v = true := by
  intro n
  induction n with
  | zero =>
    intro v h
    cases v <;> simpa [listValid] using h
  | succ n ih =>
    intro v h
    cases v with
    | cell c =>
      simp only [listValid, Bool.and_eq_true, decide_eq_true_eq] at h ⊢
      refine ⟨Nat.lt_of_lt_of_le h.1 hx.1, ?_⟩
      rw [hx.2 c h.1]
      exact ih _ h.2
    | sym s => simp [listValid]
    | num k => simp [listValid]
    | str s => simp [listValid]
    | buffer b => simp [listValid]
    | frame fr => simp [listValid]

theorem heapElemsF_extends (st st2 : State) (hx : extendsH st st2) :
    ∀ (n : Nat) (v : LObj), listValid st n v = true →
    heapElemsF st2.cells n v = heapElemsF st.cells n v := by
  intro n
  induction n with
  | zero => intro v _; rfl
  | succ n ih =>
    intro v h
    cases v with
    | cell c =>
      simp only [listValid, Bool.and_eq_true, decide_eq_true_eq] at h
      show (st2.cells c).1 :: heapElemsF st2.cells n (st2.cells c).2
          = (st.cells c).1 :: heapElemsF st.cells n (st.cells c).2
      rw [hx.2 c h.1, ih _ h.2]
    | sym s => rfl
    | num k => rfl
    | str s => rfl
    | buffer b => rfl
    | frame fr => rfl

theorem heapElemsF_fuel (st : State) :
    ∀ (n m : Nat) (v : LObj), listValid st n v = true → n ≤ m →
    heapElemsF st.cells m v = heapElemsF st.cells n v := by
  intro n
  induction n with
  | zero =>
    intro m v h _
    cases v with
    | cell c => simp [listValid] at h
    | sym s => cases m <;> rfl
    | num k => cases m <;> rfl
    | str s => cases m <;> rfl
    | buffer b => cases m <;> rfl
    | frame fr => cases m <;> rfl
  | succ n ih =>
    intro m v h hm
    cases v with
    | cell c =>
      simp only [listValid, Bool.and_eq_true, decide_eq_true_eq] at h
      cases m with
      | zero => omega
      | succ m =>
        show (st.cells c).1 :: heapElemsF st.cells m (st.cells c).2
            = (st.cells c).1 :: heapElemsF st.cells n (st.cells c).2
        rw [ih m _ h.2 (Nat.le_of_succ_le_succ hm)]
    | sym s => cases m <;> rfl
    | num k => cases m <;> rfl
    | str s => cases m <;> rfl
    | buffer b => cases m <;> rfl
    | frame fr => cases m <;> rfl

theorem chainValid_extends (st st2 : State) (hx : extendsH st st2) :
    ∀ (n : Nat) (v : LObj), chainValid st n v = true → chainValid st2 n v = true := by
  intro n
  induction n with
  | zero =>
    intro v h
    cases v <;> simpa [chainValid] using h
  | succ n ih =>
    intro v h
    cases v with
    | cell c =>
      simp only [chainValid, Bool.and_eq_true, decide_eq_true_eq] at h ⊢
      obtain ⟨⟨h1, h2⟩, h3⟩ := h
      refine ⟨⟨Nat.lt_of_lt_of_le h1 hx.1, ?_⟩, ?_⟩
      · rw [hx.2 c h1]
        cases hcar : (st.cells c).1 with
        | cell pc =>
          rw [hcar] at h2
          simp only [decide_eq_true_eq] at h2
          simp only [decide_eq_true_eq]
          exact Nat.lt_of_lt_of_le h2 hx.1
        | sym s => rfl
        | num k => rfl
        | str s => rfl
        | buffer b => rfl
        | frame fr => rfl
      · rw [hx.2 c h1]
        exact ih _ h3
    | sym s => simp [chainValid]
    | num k => simp [chainValid]
    | str s => simp [chainValid]
    | buffer b => simp [chainValid]
    | frame fr => simp [chainValid]

theorem chainValid_fuel (st : State) :
    ∀ (n m : Nat) (v : LObj), chainValid st n v = true → n ≤ m →
    chainValid st m v = true := by
  intro n
  induction n with
  | zero =>
    intro m v h _
    cases v with
    | cell c => simp [chainValid] at h
    | sym s => cases m <;> simp [chainValid]
    | num k => cases m <;> simp [chainValid]
    | str s => cases m <;> simp [chainValid]
    | buffer b => cases m <;> simp [chainValid]
    | frame fr => cases m <;> simp [chainValid]
  | succ n ih =>
    intro m v h hm
    cases v with
    | cell c =>
      cases m with
      | zero => omega
      | succ m =>
        simp only [chainValid, Bool.and_eq_true] at h ⊢
        exact ⟨h.1, ih m _ h.2 (Nat.le_of_succ_le_succ hm)⟩
    | sym s => cases m <;> simp [chainValid]
    | num k => cases m <;> simp [chainValid]
    | str s => cases m <;> simp [chainValid]
    | buffer b => cases m <;> simp [chainValid]
    | frame fr => cases m <;> simp [chainValid]

theorem envPairs_extends (st st2 : State) (hx : extendsH st st2) :
    ∀ (n : Nat) (v : LObj), chainValid st n v = true →
    envPairs st2 n v = envPairs st n v := by
  intro n
  induction n with
  | zero => intro v _; rfl
  | succ n ih =>
    intro v h
    cases v with
    | cell c =>
      simp only [chainValid, Bool.and_eq_true, decide_eq_true_eq] at h
      obtain ⟨⟨h1, h2⟩, h3⟩ := h
      show (match (st2.cells c).1 with
            | .cell pc => [((st2.cells pc).1, (st2.cells pc).2)]
            | _ => ([] : List (LObj × LObj))) ++ envPairs st2 n (st2.cells c).2
          = (match (st.cells c).1 with
            | .cell pc => [((st.cells pc).1, (st.cells pc).2)]
            | _ => ([] : List (LObj × LObj))) ++ envPairs st n (st.cells c).2
      rw [hx.2 c h1, ih _ h3]
      cases hcar : (st.cells c).1 with
      | cell pc =>
        rw [hcar] at h2
        simp only [decide_eq_true_eq] at h2
        simp only [hcar]
        rw [hx.2 pc h2]
      | sym s => simp [hcar]
      | num k => simp [hcar]
      | str s => simp [hcar]
      | buffer b => simp [hcar]
      | frame fr => simp [hcar]
    | sym s => rfl
    | num k => rfl
    | str s => rfl
    | buffer b => rfl
    | frame fr => rfl

theorem envPairs_fuel (st : State) :
    ∀ (n m : Nat) (v : LObj), chainValid st n v = true → n ≤ m →
    envPairs st m v = envPairs st n v := by
  intro n
  induction n with
  | zero =>
    intro m v h _
    cases v with
    | cell c => simp [chainValid] at h
    | sym s => cases m <;> rfl
    | num k => cases m <;> rfl
    | str s => cases m <;> rfl
    | buffer b => cases m <;> rfl
    | frame fr => cases m <;> rfl
  | succ n ih =>
    intro m v h hm
    cases v with
    | cell c =>
      simp only [chainValid, Bool.and_eq_true] at h
      cases m with
      | zero => omega
      | succ m =>
        show (match (st.cells c).1 with
              | .cell pc => [((st.cells pc).1, (st.cells pc).2)]
              | _ => ([] : List (LObj × LObj))) ++ envPairs st m (st.cells c).2
            = (match (st.cells c).1 with
              | .cell pc => [((st.cells pc).1, (st.cells pc).2)]
              | _ => ([] : List (LObj × LObj))) ++ envPairs st n (st.cells c).2
        rw [ih m _ h.2 (Nat.le_of_succ_le_succ hm)]
    | sym s => cases m <;> rfl
    | num k => cases m <;> rfl
    | str s => cases m <;> rfl
    | buffer b => cases m <;> rfl
    | frame fr => cases m <;> rfl

theorem mkHeapList_spec : ∀ (l : List LObj) (st : State),
    extendsH st (mkHeapList l st).2
    ∧ (mkHeapList l st).2.nextCell = st.nextCell + l.length
    ∧ listValid (mkHeapList l st).2 l.length (mkHeapList l st).1 = true
    ∧ heapElemsF (mkHeapList l st).2.cells l.length (mkHeapList l st).1 = l := by
  intro l
  induction l with
  | nil =>
    intro st
    exact ⟨extendsH_refl st, rfl, rfl, rfl⟩
  | cons x rest ih =>
    intro st
    obtain ⟨hx, hnx, hv, he⟩ := ih st
    have hes : extendsH (mkHeapList rest st).2 (mkHeapList (x :: rest) st).2 :=
      Fcons_extends x (mkHeapList rest st).1 (mkHeapList rest st).2
    have hcell : (mkHeapList (x :: rest) st).2.cells (mkHeapList rest st).2.nextCell
        = (x, (mkHeapList rest st).1) := by
      show updN (mkHeapList rest st).2.nextCell (x, (mkHeapList rest st).1)
        (mkHeapList rest st).2.cells (mkHeapList rest st).2.nextCell = _
      rw [updN_same]
    refine ⟨extendsH_trans hx hes, ?_, ?_, ?_⟩
    · show (mkHeapList rest st).2.nextCell + 1 = st.nextCell + (rest.length + 1)
      omega
    · show (decide ((mkHeapList rest st).2.nextCell < (mkHeapList rest st).2.nextCell + 1)
          && listValid (mkHeapList (x :: rest) st).2 rest.length
               ((mkHeapList (x :: rest) st).2.cells (mkHeapList rest st).2.nextCell).2) = true
      rw [hcell]
      simp only [Bool.and_eq_true, decide_eq_true_eq]
      exact ⟨by omega, listValid_extends _ _ hes rest.length _ hv⟩
    · show ((mkHeapList (x :: rest) st).2.cells (mkHeapList rest st).2.nextCell).1
          :: heapElemsF (mkHeapList (x :: rest) st).2.cells rest.length
               ((mkHeapList (x :: rest) st).2.cells (mkHeapList rest st).2.nextCell).2
        = x :: rest
      rw [hcell]
      rw [heapElemsF_extends _ _ hes rest.length _ hv, he]

theorem lexBind_extends (next val env : LObj) (st : State) :
    extendsH st (lexBind next val env st).2 :=
  extendsH_trans (Fcons_extends next val st)
    (Fcons_extends (.cell st.nextCell) env (Fcons next val st).2)

theorem lexBind_nilp (next val env : LObj) (st : State) :
    NILP (lexBind next val env st).1 = false := rfl

theorem lexBind_cells (next val env : LObj) (st : State) :
    (lexBind next val env st).2.cells (st.nextCell + 1) = (.cell st.nextCell, env)
    ∧ (lexBind next val env st).2.cells st.nextCell = (next, val)
    ∧ (lexBind next val env st).2.nextCell = st.nextCell + 2
    ∧ (lexBind next val env st).1 = .cell (st.nextCell + 1) := by
  refine ⟨?_, ?_, rfl, rfl⟩
  · show updN (st.nextCell + 1) (.cell st.nextCell, env)
      (updN st.nextCell (next, val) st.cells) (st.nextCell + 1) = _
    rw [updN_same]
  · show updN (st.nextCell + 1) (.cell st.nextCell, env)
      (updN st.nextCell (next, val) st.cells) st.nextCell = _
    rw [updN_other _ _ (by omega), updN_same]

theorem lexBind_chain (next val env : LObj) (st : State) (n : Nat)
    (h : chainValid st n env = true) :
    chainValid (lexBind next val env st).2 (n + 1) (lexBind next val env st).1 = true := by
  obtain ⟨hc2, hc1, hnx, hv⟩ := lexBind_cells next val env st
  rw [hv]
  simp only [chainValid, hc2, hnx, Bool.and_eq_true, decide_eq_true_eq]
  refine ⟨⟨by omega, by omega⟩, ?_⟩
  exact chainValid_extends _ _ (lexBind_extends next val env st) n env h

theorem lexBind_pairs (next val env : LObj) (st : State) (n : Nat)
    (h : chainValid st n env = true) :
    envPairs (lexBind next val env st).2 (n + 1) (lexBind next val env st).1
      = (next, val) :: envPairs st n env := by
  obtain ⟨hc2, hc1, hnx, hv⟩ := lexBind_cells next val env st
  rw [hv]
  simp only [envPairs, hc2, hc1]
  rw [envPairs_extends st _ (lexBind_extends next val env st) n env h]
  rfl

theorem bindsOK_append (st : State) :
    ∀ (a : List (LObj × LObj)) (c : List (LObj × PV)) (b : List (LObj × LObj))
      (d : List (LObj × PV)),
    bindsOK st a c = true → bindsOK st b d = true → bindsOK st (a ++ b) (c ++ d) = true := by
  intro a
  induction a with
  | nil =>
    intro c b d h1 h2
    cases c with
    | nil => simpa using h2
    | cons q c2 => simp [bindsOK] at h1
  | cons p a2 ih =>
    intro c b d h1 h2
    cases c with
    | nil =>
      rcases p with (mk1 : LObj × LObj)
      simp [bindsOK] at h1
    | cons q c2 =>
      rcases p with (s1v1 : LObj × LObj)
      rcases q with (s2pv : LObj × PV)
      simp only [bindsOK, Bool.and_eq_true] at h1
      simp only [List.cons_append, bindsOK, Bool.and_eq_true]
      exact (by exact ⟨h1.1, ih c2 b d h1.2 h2⟩)

theorem flbLoop_step_bind (args : List LObj) (next : LObj) (restS : List LObj)
    (env : LObj) (i : Nat) (optional rest : Bool) (st : State)
    (hs : SYMBOLP next = true) (hr : next ≠ .sym qAndRest)
    (ho : next ≠ .sym qAndOptional) (hn : NILP env = false) :
    flbLoop args (next :: restS) env i optional rest st
      = if rest then
          flbLoop args restS
            (lexBind next (mkHeapList (args.drop i) st).1 env (mkHeapList (args.drop i) st).2).1
            args.length optional rest
            (lexBind next (mkHeapList (args.drop i) st).1 env (mkHeapList (args.drop i) st).2).2
        else if i < args.length then
          flbLoop args restS
            (lexBind next (args.getD i Qnil) env st).1 (i + 1) optional rest
            (lexBind next (args.getD i Qnil) env st).2
        else if optional then
          flbLoop args restS
            (lexBind next Qnil env st).1 i optional rest
            (lexBind next Qnil env st).2
        else .sig ⟨.sym qWrongNumberOfArguments, [Qnil, .num args.length]⟩ st := by
  simp only [flbLoop]
  rw [if_neg (by simp [hs]), if_neg hr, if_neg ho]
  cases rest with
  | true =>
    rw [if_pos rfl]
    rcases hml : mkHeapList (args.drop i) st with ⟨lst, st1⟩
    simp only [hml, hn, hs, lexBind, Fcons]
    simp [hn, hs]
  | false =>
    rw [if_neg (by simp)]
    by_cases hi : i < args.length
    · rw [if_pos hi]
      simp only [hn, hs, lexBind, Fcons]
      simp [hn, hs, hi]
    · rw [if_neg hi]
      cases optional with
      | true =>
        simp only [hn, hs, lexBind, Fcons]
        simp [hn, hs, hi]
      | false =>
        simp [hi]

theorem flbLoop_step_markers (args : List LObj) (next : LObj) (restS : List LObj)
    (env : LObj) (i : Nat) (optional rest : Bool) (st : State)
    (hs : SYMBOLP next = true) :
    (next = .sym qAndRest →
      flbLoop args (next :: restS) env i optional rest st
        = flbLoop args restS env i optional true st)
    ∧ (next ≠ .sym qAndRest → next = .sym qAndOptional →
      flbLoop args (next :: restS) env i optional rest st
        = flbLoop args restS env i true rest st) := by
  constructor
  · intro h
    subst h
    rfl
  · intro h1 h2
    subst h2
    simp only [flbLoop]
    rw [if_neg (by simp [hs]), if_neg h1]
    simp


theorem flb_err (args : List LObj) :
    ∀ (fr : List LObj) (i : Nat) (optional rest : Bool) (st : State) (env : LObj),
    fr.all SYMBOLP = true → NILP env = false →
    errCgen args fr i optional rest = true →
    ∃ st2, flbLoop args fr env i optional rest st
      = .sig ⟨.sym qWrongNumberOfArguments, [Qnil, .num args.length]⟩ st2 := by
  intro fr
  induction fr with
  | nil =>
    intro i optional rest st env _ _ herr
    simp only [errCgen, decide_eq_true_eq] at herr
    exact ⟨st, by simp [flbLoop, herr]⟩
  | cons next restS ih =>
    intro i optional rest st env hwf hn herr
    simp only [List.all_cons, Bool.and_eq_true] at hwf
    obtain ⟨hs, hwf2⟩ := hwf
    by_cases hr : next = .sym qAndRest
    · rw [(flbLoop_step_markers args next restS env i optional rest st hs).1 hr]
      have herr2 : errCgen args restS i optional true = true := by
        subst hr
        simpa [errCgen] using herr
      exact ih i optional true st env hwf2 hn herr2
    · by_cases ho : next = .sym qAndOptional
      · rw [(flbLoop_step_markers args next restS env i optional rest st hs).2 hr ho]
        have herr2 : errCgen args restS i true rest = true := by
          subst ho
          simpa [errCgen, hr] using herr
        exact ih i true rest st env hwf2 hn herr2
      · rw [flbLoop_step_bind args next restS env i optional rest st hs hr ho hn]
        cases rest with
        | true =>
          rw [if_pos rfl]
          have herr2 : errCgen args restS args.length optional true = true := by
            simpa [errCgen, hr, ho] using herr
          exact ih args.length optional true _ _ hwf2
            (lexBind_nilp next (mkHeapList (args.drop i) st).1 env (mkHeapList (args.drop i) st).2)
            herr2
        | false =>
          rw [if_neg (by simp)]
          by_cases hi : i < args.length
          · rw [if_pos hi]
            have herr2 : errCgen args restS (i + 1) optional false = true := by
              simpa [errCgen, hr, ho, hi] using herr
            exact ih (i + 1) optional false _ _ hwf2
              (lexBind_nilp next (args.getD i Qnil) env st) herr2
          · rw [if_neg hi]
            cases optional with
            | true =>
              rw [if_pos rfl]
              have herr2 : errCgen args restS i true false = true := by
                simpa [errCgen, hr, ho, hi] using herr
              exact ih i true false _ _ hwf2 (lexBind_nilp next Qnil env st) herr2
            | false =>
              rw [if_neg (by simp)]
              exact ⟨st, rfl⟩


theorem flb_ok (args : List LObj) :
    ∀ (fr : List LObj) (i : Nat) (optional rest : Bool) (st : State) (env : LObj) (n : Nat),
    fr.all SYMBOLP = true → NILP env = false → chainValid st n env = true →
    errCgen args fr i optional rest = false →
    ∃ envF stF pfx,
      flbLoop args fr env i optional rest st = .ok envF stF
      ∧ extendsH st stF
      ∧ chainValid stF (n + fr.length) envF = true
      ∧ envPairs stF (n + fr.length) envF = pfx ++ envPairs st n env
      ∧ bindsOK stF pfx ((bindSpec args fr i optional rest).reverse) = true := by
  intro fr
  induction fr with
  | nil =>
    intro i optional rest st env n hwf hn hcv herr
    simp only [errCgen, decide_eq_false_iff_not] at herr
    refine ⟨env, st, [], ?_, extendsH_refl st, hcv, ?_, ?_⟩
    · simp [flbLoop, herr]
    · simp
    · simp [bindSpec, bindsOK]
  | cons next restS ih =>
    intro i optional rest st env n hwf hn hcv herr
    simp only [List.all_cons, Bool.and_eq_true] at hwf
    obtain ⟨hs, hwf2⟩ := hwf
    by_cases hr : next = .sym qAndRest
    · rw [(flbLoop_step_markers args next restS env i optional rest st hs).1 hr]
      have herr2 : errCgen args restS i optional true = false := by
        subst hr
        simpa [errCgen] using herr
      obtain ⟨envF, stF, pfx, heq, hx, hcF, hpF, hbF⟩ :=
        ih i optional true st env n hwf2 hn hcv herr2
      refine ⟨envF, stF, pfx, heq, hx, ?_, ?_, ?_⟩
      · exact chainValid_fuel stF _ _ _ hcF (by simp only [List.length_cons]; omega)
      · rw [envPairs_fuel stF (n + restS.length) (n + (next :: restS).length) envF hcF
          (by simp only [List.length_cons]; omega)]
        exact hpF
      · subst hr
        simpa [bindSpec] using hbF
    · by_cases ho : next = .sym qAndOptional
      · rw [(flbLoop_step_markers args next restS env i optional rest st hs).2 hr ho]
        have herr2 : errCgen args restS i true rest = false := by
          subst ho
          simpa [errCgen, hr] using herr
        obtain ⟨envF, stF, pfx, heq, hx, hcF, hpF, hbF⟩ :=
          ih i true rest st env n hwf2 hn hcv herr2
        refine ⟨envF, stF, pfx, heq, hx, ?_, ?_, ?_⟩
        · exact chainValid_fuel stF _ _ _ hcF (by simp only [List.length_cons]; omega)
        · rw [envPairs_fuel stF (n + restS.length) (n + (next :: restS).length) envF hcF
            (by simp only [List.length_cons]; omega)]
          exact hpF
        · subst ho
          simpa [bindSpec, hr] using hbF
      · rw [flbLoop_step_bind args next restS env i optional rest st hs hr ho hn]
        cases rest with
        | true =>
          rw [if_pos rfl]
          obtain ⟨hx1, hn1, hv1, he1⟩ := mkHeapList_spec (args.drop i) st
          have hch1 : chainValid (mkHeapList (args.drop i) st).2 n env = true :=
            chainValid_extends st _ hx1 n env hcv
          have hch4 : chainValid
              (lexBind next (mkHeapList (args.drop i) st).1 env (mkHeapList (args.drop i) st).2).2
              (n + 1)
              (lexBind next (mkHeapList (args.drop i) st).1 env (mkHeapList (args.drop i) st).2).1
              = true :=
            lexBind_chain next _ env _ n hch1
          have herr2 : errCgen args restS args.length optional true = false := by
            simpa [errCgen, hr, ho] using herr
          obtain ⟨envF, stF, pfx, heq, hx, hcF, hpF, hbF⟩ :=
            ih args.length optional true _ _ (n + 1) hwf2
              (lexBind_nilp next (mkHeapList (args.drop i) st).1 env (mkHeapList (args.drop i) st).2)
              hch4 herr2
          have hx14 : extendsH (mkHeapList (args.drop i) st).2 stF :=
            extendsH_trans
              (lexBind_extends next (mkHeapList (args.drop i) st).1 env (mkHeapList (args.drop i) st).2)
              hx
          refine ⟨envF, stF, pfx ++ [(next, (mkHeapList (args.drop i) st).1)], heq,
            extendsH_trans hx1 hx14, ?_, ?_, ?_⟩
          · exact chainValid_fuel stF _ _ _ hcF (by simp only [List.length_cons]; omega)
          · rw [envPairs_fuel stF (n + 1 + restS.length) (n + (next :: restS).length) envF hcF
              (by simp only [List.length_cons]; omega)]
            rw [hpF]
            rw [lexBind_pairs next (mkHeapList (args.drop i) st).1 env (mkHeapList (args.drop i) st).2
              n hch1]
            rw [envPairs_extends st (mkHeapList (args.drop i) st).2 hx1 n env hcv]
            simp
          · have hspec : (bindSpec args (next :: restS) i optional true).reverse
                = (bindSpec args restS args.length optional true).reverse
                  ++ [(next, PV.lst (args.drop i))] := by
              simp [bindSpec, hr, ho]
            rw [hspec]
            refine bindsOK_append stF pfx _ [(next, (mkHeapList (args.drop i) st).1)]
              [(next, PV.lst (args.drop i))] hbF ?_
            have hvF : listValid stF (args.drop i).length (mkHeapList (args.drop i) st).1 = true :=
              listValid_extends _ _ hx14 _ _ hv1
            have hhe : heapElems stF (mkHeapList (args.drop i) st).1 = args.drop i := by
              show heapElemsF stF.cells stF.nextCell (mkHeapList (args.drop i) st).1 = _
              rw [heapElemsF_fuel stF (args.drop i).length stF.nextCell _ hvF
                (by have := hx14.1; omega)]
              rw [heapElemsF_extends _ _ hx14 _ _ hv1]
              exact he1
            simp [bindsOK, pvOK, hhe]
        | false =>
          by_cases hi : i < args.length
          · rw [if_neg (by simp), if_pos hi]
            have hch4 : chainValid (lexBind next (args.getD i Qnil) env st).2 (n + 1)
                (lexBind next (args.getD i Qnil) env st).1 = true :=
              lexBind_chain next _ env st n hcv
            have herr2 : errCgen args restS (i + 1) optional false = false := by
              simpa [errCgen, hr, ho, hi] using herr
            obtain ⟨envF, stF, pfx, heq, hx, hcF, hpF, hbF⟩ :=
              ih (i + 1) optional false _ _ (n + 1) hwf2
                (lexBind_nilp next (args.getD i Qnil) env st) hch4 herr2
            refine ⟨envF, stF, pfx ++ [(next, args.getD i Qnil)], heq,
              extendsH_trans (lexBind_extends next (args.getD i Qnil) env st) hx, ?_, ?_, ?_⟩
            · exact chainValid_fuel stF _ _ _ hcF (by simp only [List.length_cons]; omega)
            · rw [envPairs_fuel stF (n + 1 + restS.length) (n + (next :: restS).length) envF hcF
                (by simp only [List.length_cons]; omega)]
              rw [hpF]
              rw [lexBind_pairs next (args.getD i Qnil) env st n hcv]
              simp
            · have hspec : (bindSpec args (next :: restS) i optional false).reverse
                  = (bindSpec args restS (i + 1) optional false).reverse
                    ++ [(next, PV.v (args.getD i Qnil))] := by
                simp [bindSpec, hr, ho, hi]
              rw [hspec]
              refine bindsOK_append stF pfx _ [(next, args.getD i Qnil)]
                [(next, PV.v (args.getD i Qnil))] hbF ?_
              simp [bindsOK, pvOK]
          · cases optional with
            | true =>
              rw [if_neg (by simp), if_neg hi, if_pos rfl]
              have hch4 : chainValid (lexBind next Qnil env st).2 (n + 1)
                  (lexBind next Qnil env st).1 = true :=
                lexBind_chain next Qnil env st n hcv
              have herr2 : errCgen args restS i true false = false := by
                simpa [errCgen, hr, ho, hi] using herr
              obtain ⟨envF, stF, pfx, heq, hx, hcF, hpF, hbF⟩ :=
                ih i true false _ _ (n + 1) hwf2 (lexBind_nilp next Qnil env st) hch4 herr2
              refine ⟨envF, stF, pfx ++ [(next, Qnil)], heq,
                extendsH_trans (lexBind_extends next Qnil env st) hx, ?_, ?_, ?_⟩
              · exact chainValid_fuel stF _ _ _ hcF (by simp only [List.length_cons]; omega)
              · rw [envPairs_fuel stF (n + 1 + restS.length) (n + (next :: restS).length) envF hcF
                  (by simp only [List.length_cons]; omega)]
                rw [hpF]
                rw [lexBind_pairs next Qnil env st n hcv]
                simp
              · have hspec : (bindSpec args (next :: restS) i true false).reverse
                    = (bindSpec args restS i true false).reverse ++ [(next, PV.v Qnil)] := by
                  simp [bindSpec, hr, ho, hi]
                rw [hspec]
                refine bindsOK_append stF pfx _ [(next, Qnil)] [(next, PV.v Qnil)] hbF ?_
                simp [bindsOK, pvOK]
            | false =>
              exfalso
              simp [errCgen, hr, ho, hi] at herr


theorem errC_rest (args : List LObj) :
    ∀ (fr : List LObj) (i : Nat) (optional : Bool),
    errCgen args fr i optional true
      = ((totalCount fr == 0) && decide (i < args.length)) := by
  intro fr
  induction fr with
  | nil => intro i o; simp [errCgen, totalCount]
  | cons x r ih =>
    intro i o
    by_cases hrx : x = .sym qAndRest
    · subst hrx
      simp [errCgen, totalCount, ih]
    · by_cases hox : x = .sym qAndOptional
      · subst hox
        simp [errCgen, totalCount, ih, hrx]
      · simp only [errCgen, if_neg hrx, if_neg hox, if_pos rfl]
        rw [ih args.length o]
        simp only [totalCount, if_neg (not_or.mpr ⟨hrx, hox⟩)]
        have hL : ¬ (args.length < args.length) := by omega
        simp [hL]

theorem errC_opt (args : List LObj) :
    ∀ (fr : List LObj) (i : Nat),
    errCgen args fr i true false
      = (!restConsumer fr && decide (i + totalCount fr < args.length)) := by
  intro fr
  induction fr with
  | nil => intro i; simp [errCgen, totalCount, restConsumer]
  | cons x r ih =>
    intro i
    by_cases hrx : x = .sym qAndRest
    · subst hrx
      rw [show errCgen args (LObj.sym qAndRest :: r) i true false
            = errCgen args r i true true from by simp [errCgen]]
      rw [errC_rest args r i true]
      simp only [restConsumer, if_pos rfl, totalCount, if_pos (Or.inl rfl)]
      cases htc : totalCount r with
      | zero => simp
      | succ k =>
        have h1 : ¬ (i + (k + 1) < args.length) ∨ True := Or.inr trivial
        simp
    · by_cases hox : x = .sym qAndOptional
      · subst hox
        rw [show errCgen args (LObj.sym qAndOptional :: r) i true false
              = errCgen args r i true false from by simp [errCgen, hrx]]
        rw [ih i]
        simp [restConsumer, totalCount, hrx]
      · by_cases hi : i < args.length
        · rw [show errCgen args (x :: r) i true false
                = errCgen args r (i + 1) true false from by simp [errCgen, hrx, hox, hi]]
          rw [ih (i + 1)]
          simp only [restConsumer, if_neg hrx, totalCount,
            if_neg (not_or.mpr ⟨hrx, hox⟩)]
          rw [show i + 1 + totalCount r = i + (totalCount r + 1) from by omega]
        · rw [show errCgen args (x :: r) i true false
                = errCgen args r i true false from by simp [errCgen, hrx, hox, hi]]
          rw [ih i]
          simp only [restConsumer, if_neg hrx, totalCount,
            if_neg (not_or.mpr ⟨hrx, hox⟩)]
          have h1 : ¬ (i + totalCount r < args.length) := by omega
          have h2 : ¬ (i + (totalCount r + 1) < args.length) := by omega
          simp [h1, h2]

theorem errC_main (args : List LObj) :
    ∀ (fr : List LObj) (i : Nat), i ≤ args.length →
    errCgen args fr i false false
      = (decide (args.length < i + requiredCount fr)
         || (!restConsumer fr && decide (i + totalCount fr < args.length))) := by
  intro fr
  induction fr with
  | nil =>
    intro i hi
    have h1 : ¬ (args.length < i) := by omega
    simp [errCgen, totalCount, restConsumer, requiredCount, h1]
  | cons x r ih =>
    intro i hi
    by_cases hrx : x = .sym qAndRest
    · subst hrx
      rw [show errCgen args (LObj.sym qAndRest :: r) i false false
            = errCgen args r i false true from by simp [errCgen]]
      rw [errC_rest args r i false]
      simp only [requiredCount, if_pos (Or.inl rfl), restConsumer, if_pos rfl,
        totalCount, if_pos (Or.inl rfl)]
      have hL : ¬ (args.length < i) := by omega
      cases htc : totalCount r with
      | zero => simp [hL]
      | succ k => simp [hL]
    · by_cases hox : x = .sym qAndOptional
      · subst hox
        rw [show errCgen args (LObj.sym qAndOptional :: r) i false false
              = errCgen args r i true false from by simp [errCgen, hrx]]
        rw [errC_opt args r i]
        have hL : ¬ (args.length < i) := by omega
        simp [requiredCount, restConsumer, totalCount, hrx, hL]
      · by_cases hi2 : i < args.length
        · rw [show errCgen args (x :: r) i false false
                = errCgen args r (i + 1) false false from by simp [errCgen, hrx, hox, hi2]]
          rw [ih (i + 1) (by omega)]
          simp only [requiredCount, if_neg (not_or.mpr ⟨hrx, hox⟩), restConsumer,
            if_neg hrx, totalCount]
          rw [show i + 1 + requiredCount r = i + (requiredCount r + 1) from by omega]
          rw [show i + 1 + totalCount r = i + (totalCount r + 1) from by omega]
        · rw [show errCgen args (x :: r) i false false = true from by
              simp [errCgen, hrx, hox, hi2]]
          simp only [requiredCount, if_neg (not_or.mpr ⟨hrx, hox⟩)]
          have h1 : args.length < i + (requiredCount r + 1) := by omega
          simp [h1]


/-- C9: lambda-list binding.  In lexical-binding mode, `funcall_lambda`'s
parameter-binding loop fails with `wrong-number-of-arguments` exactly when
the actuals are fewer than the required non-optional formals, or — in the
absence of a value-taking `&rest` formal — more than the total value-taking
formal count; otherwise it succeeds and the resulting environment binds
every value-taking formal in order, with optionals beyond the actuals bound
to nil and the `&rest` formal bound to the freshly consed list of the
remaining actuals (checked by reading the environment alist back out of the
heap against the spec's binding plan `bindSpec`). -/
theorem C9_bind_parameters (formals args : List LObj) (st : State)
    (hwf : formals.all SYMBOLP = true) :
    ((args.length < requiredCount formals
        ∨ (restConsumer formals = false ∧ totalCount formals < args.length)) →
      ∃ st2, funcall_lambda_bind Qt formals args st
        = .sig ⟨.sym qWrongNumberOfArguments, [Qnil, .num args.length]⟩ st2)
    ∧ (¬ (args.length < requiredCount formals
        ∨ (restConsumer formals = false ∧ totalCount formals < args.length)) →
      ∃ envF stF, funcall_lambda_bind Qt formals args st = .ok envF stF
        ∧ bindsOK stF (envPairs stF formals.length envF)
            ((bindSpec args formals 0 false false).reverse) = true) := by
  have hmain := errC_main args formals 0 (Nat.zero_le _)
  constructor
  · intro hcond
    have herr : errCgen args formals 0 false false = true := by
      rw [hmain]
      rcases hcond with h | ⟨h1, h2⟩
      · simp [Nat.zero_add, h]
      · simp [Nat.zero_add, h1, h2]
    exact flb_err args formals 0 false false st Qt hwf rfl herr
  · intro hcond
    obtain ⟨hA, hB⟩ := not_or.mp hcond
    have herr : errCgen args formals 0 false false = false := by
      rw [hmain]
      cases hrc : restConsumer formals with
      | false =>
        have hnt : ¬ (totalCount formals < args.length) := fun h => hB ⟨hrc, h⟩
        simp [Nat.zero_add, hA, hrc, hnt]
      | true => simp [Nat.zero_add, hA, hrc]
    obtain ⟨envF, stF, pfx, heq, hx, hcF, hpF, hbF⟩ :=
      flb_ok args formals 0 false false st Qt 0 hwf rfl rfl herr
    refine ⟨envF, stF, heq, ?_⟩
    have hp2 : envPairs stF formals.length envF = pfx := by
      rw [Nat.zero_add, show envPairs st 0 Qt = [] from rfl, List.append_nil] at hpF
      exact hpF
    rw [hp2]
    exact hbF

theorem C9_bind_parameters_witness :
    (([.sym 31, .sym qAndOptional, .sym 32, .sym qAndRest, .sym 33] : List LObj).all SYMBOLP
      = true)
    ∧ ¬ (([LObj.num 1] : List LObj).length
          < requiredCount [.sym 31, .sym qAndOptional, .sym 32, .sym qAndRest, .sym 33]
        ∨ (restConsumer [.sym 31, .sym qAndOptional, .sym 32, .sym qAndRest, .sym 33] = false
           ∧ totalCount [.sym 31, .sym qAndOptional, .sym 32, .sym qAndRest, .sym 33]
             < ([LObj.num 1] : List LObj).length))
    ∧ (∃ envF stF, funcall_lambda_bind Qt
          [.sym 31, .sym qAndOptional, .sym 32, .sym qAndRest, .sym 33] [LObj.num 1] baseState
          = .ok envF stF
        ∧ bindsOK stF (envPairs stF 5 envF)
            ((bindSpec [LObj.num 1]
              [.sym 31, .sym qAndOptional, .sym 32, .sym qAndRest, .sym 33] 0 false false).reverse)
          = true) :=
  ⟨by decide, by decide,
   (C9_bind_parameters [.sym 31, .sym qAndOptional, .sym 32, .sym qAndRest, .sym 33]
      [LObj.num 1] baseState (by decide)).2 (by decide)⟩


/-! ### `Fset_default` propagation (claim C7) -/

theorem ssnl_pbd (offset : Nat) (idx : Int) (v : LObj) :
    ∀ (bs : List Nat) (st : State),
    (setSlotNonLocal offset idx v bs st).perBufferDefaults = st.perBufferDefaults := by
  intro bs
  induction bs with
  | nil => intro st; rfl
  | cons b0 rest ih =>
    intro st
    show (setSlotNonLocal offset idx v rest _).perBufferDefaults = _
    rw [ih]
    by_cases hf : (st.bufs b0).localFlags idx
    · rw [if_pos hf]
    · rw [if_neg hf]
      rfl

theorem ssnl_bufs_other (offset : Nat) (idx : Int) (v : LObj) :
    ∀ (bs : List Nat) (st : State) (b : Nat), b ∉ bs →
    (setSlotNonLocal offset idx v bs st).bufs b = st.bufs b := by
  intro bs
  induction bs with
  | nil => intro st b _; rfl
  | cons b0 rest ih =>
    intro st b hb
    have hb0 : b ≠ b0 := fun h => hb (h ▸ List.mem_cons_self b0 rest)
    have hbr : b ∉ rest := fun h => hb (List.mem_cons_of_mem b0 h)
    show (setSlotNonLocal offset idx v rest _).bufs b = _
    rw [ih _ b hbr]
    by_cases hf : (st.bufs b0).localFlags idx
    · rw [if_pos hf]
    · rw [if_neg hf]
      show updN b0 _ st.bufs b = st.bufs b
      exact updN_other _ _ hb0

theorem ssnl_flags (offset : Nat) (idx : Int) (v : LObj) :
    ∀ (bs : List Nat) (st : State) (b : Nat),
    ((setSlotNonLocal offset idx v bs st).bufs b).localFlags
      = (st.bufs b).localFlags := by
  intro bs
  induction bs with
  | nil => intro st b; rfl
  | cons b0 rest ih =>
    intro st b
    show ((setSlotNonLocal offset idx v rest _).bufs b).localFlags = _
    rw [ih]
    by_cases hf : (st.bufs b0).localFlags idx
    · rw [if_pos hf]
    · rw [if_neg hf]
      by_cases hb : b = b0
      · subst hb
        show (updN b _ st.bufs b).localFlags = _
        rw [updN_same]
      · show (updN b0 _ st.bufs b).localFlags = _
        rw [updN_other _ _ hb]

theorem ssnl_flagTrue (offset : Nat) (idx : Int) (v : LObj) :
    ∀ (bs : List Nat) (st : State) (b : Nat),
    (st.bufs b).localFlags idx = true →
    ((setSlotNonLocal offset idx v bs st).bufs b).slots offset
      = (st.bufs b).slots offset := by
  intro bs
  induction bs with
  | nil => intro st b _; rfl
  | cons b0 rest ih =>
    intro st b hf
    show ((setSlotNonLocal offset idx v rest _).bufs b).slots offset = _
    by_cases hf0 : (st.bufs b0).localFlags idx
    · rw [if_pos hf0]
      exact ih st b hf
    · rw [if_neg hf0]
      by_cases hb : b = b0
      · subst hb
        rw [hf] at hf0
        exact absurd rfl hf0
      · have h1 : ((set_per_buffer_value b0 offset v st).bufs b).localFlags idx = true := by
          show ((updN b0 _ st.bufs) b).localFlags idx = true
          rw [updN_other _ _ hb]
          exact hf
        rw [ih _ b h1]
        show (updN b0 _ st.bufs b).slots offset = _
        rw [updN_other _ _ hb]

theorem ssnl_flagFalse (offset : Nat) (idx : Int) (v : LObj) :
    ∀ (bs : List Nat) (st : State) (b : Nat), b ∈ bs →
    (st.bufs b).localFlags idx = false →
    ((setSlotNonLocal offset idx v bs st).bufs b).slots offset = v := by
  intro bs
  induction bs with
  | nil => intro st b hb _; exact absurd hb (List.not_mem_nil b)
  | cons b0 rest ih =>
    intro st b hb hf
    show ((setSlotNonLocal offset idx v rest _).bufs b).slots offset = v
    by_cases hb0 : b = b0
    · subst hb0
      rw [if_neg (by rw [hf]; exact Bool.false_ne_true)]
      by_cases hbr : b ∈ rest
      · refine ih _ b hbr ?_
        show ((updN b _ st.bufs) b).localFlags idx = false
        rw [updN_same]
        exact hf
      · rw [ssnl_bufs_other offset idx v rest _ b hbr]
        show ((updN b _ st.bufs) b).slots offset = v
        rw [updN_same]
        show updN offset v (st.bufs b).slots offset = v
        rw [updN_same]
    · have hbr : b ∈ rest := by
        rcases List.mem_cons.mp hb with h | h
        · exact absurd h hb0
        · exact h
      by_cases hf0 : (st.bufs b0).localFlags idx
      · rw [if_pos hf0]
        exact ih st b hbr hf
      · rw [if_neg hf0]
        refine ih _ b hbr ?_
        show ((updN b0 _ st.bufs) b).localFlags idx = false
        rw [updN_other _ _ hb0]
        exact hf

/-- C7: `Fset_default` on a `Lisp_Fwd_Buffer_Obj` forwarded variable (with a
positive `PER_BUFFER_IDX`) returns the new value, stores it as the
per-buffer default, and walks every chained buffer: each buffer that has
not set its own local value for the slot (`PER_BUFFER_VALUE_P` clear) gets
its per-buffer slot set to the new value, while every buffer with its own
local value keeps its overridden slot value unchanged (and no buffer's
local-value flags change). -/
theorem C7_set_default_propagation (s : Nat) (offset : Nat) (idx : Int)
    (pred : Option Nat) (value : LObj) (st : State)
    (hred : (st.syms s).redirect = .forwarded (.bufferObjFwd offset idx pred))
    (hconst : (st.syms s).sconst = false)
    (hidx : 0 < idx) :
    ∃ stF, Fset_default (.sym s) value st = .ok value stF
    ∧ stF.perBufferDefaults offset = value
    ∧ (∀ b, (stF.bufs b).localFlags = (st.bufs b).localFlags)
    ∧ (∀ b, b ∈ st.allBuffers → (st.bufs b).localFlags idx = false →
        (stF.bufs b).slots offset = value)
    ∧ (∀ b, (st.bufs b).localFlags idx = true →
        (stF.bufs b).slots offset = (st.bufs b).slots offset) := by
  have hna : isAlias st s = false := by simp [isAlias, hred]
  have hrun : Fset_default (.sym s) value st
      = .ok value (setSlotNonLocal offset idx value st.allBuffers
          {st with perBufferDefaults := updN offset value st.perBufferDefaults}) := by
    simp [Fset_default, chaseToNonAlias, hna, SRes.bind, hred, hconst, hidx]
  refine ⟨_, hrun, ?_, ?_, ?_, ?_⟩
  · rw [ssnl_pbd]
    show updN offset value st.perBufferDefaults offset = value
    rw [updN_same]
  · intro b
    rw [ssnl_flags]
  · intro b hb hf
    exact ssnl_flagFalse offset idx value st.allBuffers _ b hb hf
  · intro b hf
    exact ssnl_flagTrue offset idx value st.allBuffers _ b hf

theorem C7_set_default_propagation_witness :
    ((c7State.syms 40).redirect = .forwarded (.bufferObjFwd 3 2 none))
    ∧ ((c7State.syms 40).sconst = false)
    ∧ ((0 : Int) < 2)
    ∧ (∃ stF, Fset_default (.sym 40) (.num 9) c7State = .ok (.num 9) stF
      ∧ stF.perBufferDefaults 3 = .num 9
      ∧ (∀ b, (stF.bufs b).localFlags = (c7State.bufs b).localFlags)
      ∧ (∀ b, b ∈ c7State.allBuffers → (c7State.bufs b).localFlags 2 = false →
          (stF.bufs b).slots 3 = .num 9)
      ∧ (∀ b, (c7State.bufs b).localFlags 2 = true →
          (stF.bufs b).slots 3 = (c7State.bufs b).slots 3)) :=
  ⟨by decide, by decide, by decide,
   C7_set_default_propagation 40 3 2 none (.num 9) c7State (by decide) (by decide) (by decide)⟩


/-! ### Floyd cycle detection terminates (claim C5) -/

theorem iterF_step (st : State) (s : Nat) :
    ∀ n, symbolAlias st ((iterF st)^[n] s) = (iterF st)^[n + 1] s :=
  fun n => (Function.iterate_succ_apply' (iterF st) n s).symm

theorem iter_period (f : Nat → Nat) (x : Nat) (i L : Nat)
    (hper : f^[i + L] x = f^[i] x) :
    ∀ (c e : Nat), f^[i + e + c * L] x = f^[i + e] x := by
  intro c
  induction c with
  | zero => intro e; simp
  | succ c ih =>
    intro e
    rw [show i + e + (c + 1) * L = e + c * L + (i + L) from by ring]
    rw [Function.iterate_add_apply, hper, ← Function.iterate_add_apply]
    rw [show e + c * L + i = i + e + c * L from by ring]
    exact ih e

theorem orbit_repeat (f : Nat → Nat) (x N : Nat) (hN : 1 ≤ N)
    (hb : ∀ m, f^[m] x < N) :
    ∃ i j, i < j ∧ j ≤ N ∧ f^[i] x = f^[j] x := by
  have hni : ¬ Function.Injective
      (fun k : Fin (N + 1) => (⟨f^[k.1] x, hb k.1⟩ : Fin N)) := by
    intro hinj
    have hcard := Fintype.card_le_of_injective _ hinj
    simp only [Fintype.card_fin] at hcard
    omega
  rcases Function.not_injective_iff.mp hni with ⟨a, b, hab, hne⟩
  have hval : f^[a.1] x = f^[b.1] x := congrArg Fin.val hab
  rcases Nat.lt_trichotomy a.1 b.1 with h | h | h
  · exact ⟨a.1, b.1, h, Nat.lt_succ_iff.mp b.isLt, hval⟩
  · exact absurd (Fin.ext h) hne
  · exact ⟨b.1, a.1, h, Nat.lt_succ_iff.mp a.isLt, hval.symm⟩

theorem ivLoop_reaches (st : State) (orig s : Nat) :
    ∀ (d k fuel : Nat), exitAt st s (k + d) → d < fuel →
    ivGood st orig (ivLoop st orig fuel ((iterF st)^[k] s) ((iterF st)^[2 * k] s)) := by
  intro d
  induction d with
  | zero =>
    intro k fuel hex hf
    simp only [Nat.add_zero] at hex
    cases fuel with
    | zero => omega
    | succ fuel =>
      rw [ivLoop]
      by_cases h1 : isAlias st ((iterF st)^[2 * k] s) = true
      · rw [if_pos h1, iterF_step]
        by_cases h2 : isAlias st ((iterF st)^[2 * k + 1] s) = true
        · rw [if_pos h2, iterF_step, iterF_step]
          have h3 : (iterF st)^[2 * k + 1 + 1] s = (iterF st)^[k + 1] s := by
            rcases hex with h | h | h
            · rw [h] at h1
              exact absurd h1 Bool.false_ne_true
            · rw [h] at h2
              exact absurd h2 Bool.false_ne_true
            · rw [show 2 * k + 1 + 1 = 2 * k + 2 from by omega]
              exact h
          rw [if_pos h3]
          exact Or.inr rfl
        · rw [if_neg h2]
          exact Or.inl ⟨_, rfl, Bool.eq_false_iff.mpr h2⟩
      · rw [if_neg h1]
        exact Or.inl ⟨_, rfl, Bool.eq_false_iff.mpr h1⟩
  | succ d ih =>
    intro k fuel hex hf
    cases fuel with
    | zero => omega
    | succ fuel =>
      rw [ivLoop]
      by_cases h1 : isAlias st ((iterF st)^[2 * k] s) = true
      · rw [if_pos h1, iterF_step]
        by_cases h2 : isAlias st ((iterF st)^[2 * k + 1] s) = true
        · rw [if_pos h2, iterF_step, iterF_step]
          by_cases h3 : (iterF st)^[2 * k + 1 + 1] s = (iterF st)^[k + 1] s
          · rw [if_pos h3]
            exact Or.inr rfl
          · rw [if_neg h3]
            have hgoal := ih (k + 1) fuel
              (by rw [show k + 1 + d = k + (d + 1) from by omega]; exact hex)
              (by omega)
            rw [show 2 * (k + 1) = 2 * k + 1 + 1 from by omega] at hgoal
            exact hgoal
        · rw [if_neg h2]
          exact Or.inl ⟨_, rfl, Bool.eq_false_iff.mpr h2⟩
      · rw [if_neg h1]
        exact Or.inl ⟨_, rfl, Bool.eq_false_iff.mpr h1⟩

theorem symbolAlias_nonalias (st : State) (x : Nat)
    (h : ¬ isAlias st x = true) : symbolAlias st x = 0 := by
  cases hred : (st.syms x).redirect with
  | varalias t => exact absurd (by simp [isAlias, hred]) h
  | plainval v => simp [symbolAlias, hred]
  | localized b => simp [symbolAlias, hred]
  | forwarded f => simp [symbolAlias, hred]

theorem orbit_bounded (st : State) (s : Nat)
    (hwf : ∀ x, x < st.nsyms → isAlias st x = true → symbolAlias st x < st.nsyms)
    (hs : s < st.nsyms) :
    ∀ m, (iterF st)^[m] s < st.nsyms := by
  intro m
  induction m with
  | zero => simpa using hs
  | succ m ih =>
    rw [Function.iterate_succ_apply']
    by_cases ha : isAlias st ((iterF st)^[m] s) = true
    · exact hwf _ ih ha
    · show symbolAlias st ((iterF st)^[m] s) < st.nsyms
      rw [symbolAlias_nonalias st _ ha]
      omega

theorem exit_exists (st : State) (s : Nat)
    (hwf : ∀ x, x < st.nsyms → isAlias st x = true → symbolAlias st x < st.nsyms)
    (hs : s < st.nsyms) :
    ∃ j, j ≤ st.nsyms * st.nsyms + st.nsyms ∧ exitAt st s j := by
  have hns : 1 ≤ st.nsyms := by omega
  have horb := orbit_bounded st s hwf hs
  by_cases hK : ∃ m, isAlias st ((iterF st)^[m] s) = false
  · -- the chain reaches a non-alias symbol; the first one is within nsyms
    have hKal := Nat.find_spec hK
    have hmin : ∀ m, m < Nat.find hK → isAlias st ((iterF st)^[m] s) = true := by
      intro m hm
      have := Nat.find_min hK hm
      cases hval : isAlias st ((iterF st)^[m] s) with
      | false => exact absurd hval this
      | true => rfl
    have hKb : Nat.find hK ≤ st.nsyms := by
      by_contra hgt
      push_neg at hgt
      obtain ⟨i, j, hij, hjN, heq⟩ := orbit_repeat (iterF st) s st.nsyms hns horb
      have hper : (iterF st)^[i + (j - i)] s = (iterF st)^[i] s := by
        rw [show i + (j - i) = j from by omega]
        exact heq.symm
      have hred : (iterF st)^[Nat.find hK] s
          = (iterF st)^[i + (Nat.find hK - i) % (j - i)] s := by
        have h0 := iter_period (iterF st) s i (j - i) hper
          ((Nat.find hK - i) / (j - i)) ((Nat.find hK - i) % (j - i))
        have hiF : i < Nat.find hK := by omega
        have h1 : i + (Nat.find hK - i) % (j - i)
            + (Nat.find hK - i) / (j - i) * (j - i) = Nat.find hK := by
          have h2 := Nat.div_add_mod' (Nat.find hK - i) (j - i)
          omega
        rw [h1] at h0
        exact h0
      have hin : i + (Nat.find hK - i) % (j - i) < Nat.find hK := by
        have h2 : (Nat.find hK - i) % (j - i) < j - i :=
          Nat.mod_lt _ (by omega)
        have h3 : i + (Nat.find hK - i) % (j - i) < j := by omega
        have h4 : j < Nat.find hK := by omega
        omega
      have := hmin _ hin
      rw [← hred] at this
      rw [hKal] at this
      exact Bool.false_ne_true this
    -- exit happens at iteration (find hK) / 2
    by_cases hpar : Nat.find hK % 2 = 0
    · refine ⟨Nat.find hK / 2, by omega, Or.inl ?_⟩
      rw [show 2 * (Nat.find hK / 2) = Nat.find hK from by omega]
      exact hKal
    · refine ⟨Nat.find hK / 2, by omega, Or.inr (Or.inl ?_)⟩
      rw [show 2 * (Nat.find hK / 2) + 1 = Nat.find hK from by omega]
      exact hKal
  · -- every iterate is an alias: a pure cycle, the hare meets the tortoise
    have hall : ∀ m, isAlias st ((iterF st)^[m] s) = true := by
      intro m
      rcases Bool.eq_false_or_eq_true (isAlias st ((iterF st)^[m] s)) with h | h
      · exact h
      · exact absurd ⟨m, h⟩ hK
    obtain ⟨i, j, hij, hjN, heq⟩ := orbit_repeat (iterF st) s st.nsyms hns horb
    have hper : (iterF st)^[i + (j - i)] s = (iterF st)^[i] s := by
      rw [show i + (j - i) = j from by omega]
      exact heq.symm
    have hbnd : (j - i) * (i + 1) ≤ st.nsyms * st.nsyms := by
      have hL2 : j - i ≤ st.nsyms := by omega
      have hi1 : i + 1 ≤ st.nsyms := by omega
      exact Nat.mul_le_mul hL2 hi1
    refine ⟨(j - i) * (i + 1) - 1, by omega, Or.inr (Or.inr ?_)⟩
    have hk1 : 1 ≤ (j - i) * (i + 1) := Nat.mul_pos (by omega) (by omega)
    rw [show 2 * ((j - i) * (i + 1) - 1) + 2 = (j - i) * (i + 1) + (i + 1) * (j - i)
      from by rw [Nat.mul_comm (i + 1) (j - i)]; omega]
    rw [show (j - i) * (i + 1) - 1 + 1 = (j - i) * (i + 1) from by omega]
    have h0 := iter_period (iterF st) s i (j - i) hper (i + 1) ((j - i) * (i + 1) - i)
    have h1 : i + ((j - i) * (i + 1) - i) = (j - i) * (i + 1) := by
      have h5 : 1 * (i + 1) ≤ (j - i) * (i + 1) :=
        Nat.mul_le_mul_right (i + 1) (by omega)
      rw [Nat.one_mul] at h5
      omega
    rw [h1] at h0
    rw [show (j - i) * (i + 1) + (i + 1) * (j - i)
        = (j - i) * (i + 1) + (i + 1) * (j - i) from rfl]
    exact h0

/-- C5: alias chasing terminates.  Under the symbol-table well-formedness
the C heap guarantees (every alias link stays inside the `nsyms` interned
symbols), `indirect_variable` on any symbol either returns a non-alias
symbol with the state untouched, or raises `cyclic-variable-indirection`
naming the original symbol — the tortoise/hare loop never exhausts its
`nsyms² + nsyms + 2` iteration budget, i.e. it never loops forever. -/
theorem C5_alias_termination (st : State) (s : Nat)
    (hwf : ∀ x, x < st.nsyms → isAlias st x = true → symbolAlias st x < st.nsyms)
    (hs : s < st.nsyms) :
    (∃ h, indirect_variable st s = .ok h st ∧ isAlias st h = false)
    ∨ indirect_variable st s
        = .sig ⟨.sym qCyclicVariableIndirection, [.sym s]⟩ st := by
  obtain ⟨j, hj, hex⟩ := exit_exists st s hwf hs
  have := ivLoop_reaches st s s j 0 (st.nsyms * st.nsyms + st.nsyms + 2)
    (by simpa using hex) (by omega)
  simpa [ivGood, indirect_variable] using this

theorem C5_alias_termination_witness :
    (∀ x, x < c5State.nsyms → isAlias c5State x = true →
      symbolAlias c5State x < c5State.nsyms)
    ∧ 35 < c5State.nsyms
    ∧ ((∃ h, indirect_variable c5State 35 = .ok h c5State ∧ isAlias c5State h = false)
      ∨ indirect_variable c5State 35
          = .sig ⟨.sym qCyclicVariableIndirection, [.sym 35]⟩ c5State) :=
  ⟨by decide, by decide,
   C5_alias_termination c5State 35 (by decide) (by decide)⟩


/-! ### Condition-case clause ordering (claim C4) -/

theorem signalScan_first (conditions : List LObj) (h : HandlerRec) (cl : Clause) :
    ∀ hs, signalScan hs conditions = some (h, cl)
      ↔ ∃ pre post, hs = pre ++ h :: post
          ∧ (∀ h2 ∈ pre, scanNoMatch conditions h2)
          ∧ scanMatch conditions h cl := by
  intro hs
  induction hs with
  | nil =>
    constructor
    · intro hcon
      simp [signalScan] at hcon
    · rintro ⟨pre, post, habs, -, -⟩
      cases pre <;> simp at habs
  | cons h0 rest ih =>
    constructor
    · intro hscan
      cases htoc : h0.tagOrCh with
      | catchTag t =>
        rw [signalScan, htoc] at hscan
        obtain ⟨pre, post, hdec, hno, hm⟩ := ih.mp hscan
        exact ⟨h0 :: pre, post, by rw [hdec]; rfl,
          by
            intro h2 hh2
            rcases List.mem_cons.mp hh2 with rfl | hh2
            · show scanNoMatch conditions h2
              simp [scanNoMatch, htoc]
            · exact hno h2 hh2,
          hm⟩
      | condAll =>
        rw [signalScan, htoc] at hscan
        simp only [] at hscan
        cases hf : find_handler_clause .condAll conditions with
        | some cl2 =>
          rw [hf] at hscan
          obtain ⟨rfl, rfl⟩ : h0 = h ∧ cl2 = cl := by
            constructor <;> [exact (Prod.mk.injEq _ _ _ _ ▸ Option.some.inj hscan).1;
              exact (Prod.mk.injEq _ _ _ _ ▸ Option.some.inj hscan).2]
          exact ⟨[], rest, rfl, by intro h2 hh2; simp at hh2,
            by simp [scanMatch, htoc, hf]⟩
        | none =>
          rw [hf] at hscan
          obtain ⟨pre, post, hdec, hno, hm⟩ := ih.mp hscan
          exact ⟨h0 :: pre, post, by rw [hdec]; rfl,
            by
              intro h2 hh2
              rcases List.mem_cons.mp hh2 with rfl | hh2
              · simp [scanNoMatch, htoc, hf]
              · exact hno h2 hh2,
            hm⟩
      | condError =>
        rw [signalScan, htoc] at hscan
        simp only [] at hscan
        cases hf : find_handler_clause .condError conditions with
        | some cl2 =>
          rw [hf] at hscan
          obtain ⟨rfl, rfl⟩ : h0 = h ∧ cl2 = cl := by
            constructor <;> [exact (Prod.mk.injEq _ _ _ _ ▸ Option.some.inj hscan).1;
              exact (Prod.mk.injEq _ _ _ _ ▸ Option.some.inj hscan).2]
          exact ⟨[], rest, rfl, by intro h2 hh2; simp at hh2,
            by simp [scanMatch, htoc, hf]⟩
        | none =>
          rw [hf] at hscan
          obtain ⟨pre, post, hdec, hno, hm⟩ := ih.mp hscan
          exact ⟨h0 :: pre, post, by rw [hdec]; rfl,
            by
              intro h2 hh2
              rcases List.mem_cons.mp hh2 with rfl | hh2
              · simp [scanNoMatch, htoc, hf]
              · exact hno h2 hh2,
            hm⟩
      | condList l =>
        rw [signalScan, htoc] at hscan
        simp only [] at hscan
        cases hf : find_handler_clause (.condList l) conditions with
        | some cl2 =>
          rw [hf] at hscan
          obtain ⟨rfl, rfl⟩ : h0 = h ∧ cl2 = cl := by
            constructor <;> [exact (Prod.mk.injEq _ _ _ _ ▸ Option.some.inj hscan).1;
              exact (Prod.mk.injEq _ _ _ _ ▸ Option.some.inj hscan).2]
          exact ⟨[], rest, rfl, by intro h2 hh2; simp at hh2,
            by simp [scanMatch, htoc, hf]⟩
        | none =>
          rw [hf] at hscan
          obtain ⟨pre, post, hdec, hno, hm⟩ := ih.mp hscan
          exact ⟨h0 :: pre, post, by rw [hdec]; rfl,
            by
              intro h2 hh2
              rcases List.mem_cons.mp hh2 with rfl | hh2
              · simp [scanNoMatch, htoc, hf]
              · exact hno h2 hh2,
            hm⟩
    · rintro ⟨pre, post, hdec, hno, hm⟩
      cases pre with
      | nil =>
        obtain ⟨rfl, rfl⟩ : h0 = h ∧ rest = post := by
          constructor
          · exact (List.cons.injEq _ _ _ _ ▸ hdec).1
          · exact (List.cons.injEq _ _ _ _ ▸ hdec).2
        cases htoc : h0.tagOrCh with
        | catchTag t =>
          exfalso
          rw [scanMatch, htoc] at hm
          exact hm
        | condAll =>
          rw [scanMatch, htoc] at hm
          simp only [] at hm
          rw [signalScan, htoc]
          simp only []
          rw [hm]
        | condError =>
          rw [scanMatch, htoc] at hm
          simp only [] at hm
          rw [signalScan, htoc]
          simp only []
          rw [hm]
        | condList l =>
          rw [scanMatch, htoc] at hm
          simp only [] at hm
          rw [signalScan, htoc]
          simp only []
          rw [hm]
      | cons p0 pre2 =>
        obtain ⟨rfl, hdec2⟩ : h0 = p0 ∧ rest = pre2 ++ h :: post := by
          constructor
          · exact (List.cons.injEq _ _ _ _ ▸ hdec).1
          · exact (List.cons.injEq _ _ _ _ ▸ hdec).2
        have hno0 := hno h0 (List.mem_cons_self _ _)
        have hrec := ih.mpr ⟨pre2, post, hdec2,
          fun h2 hh2 => hno h2 (List.mem_cons_of_mem _ hh2), hm⟩
        cases htoc : h0.tagOrCh with
        | catchTag t =>
          rw [signalScan, htoc]
          exact hrec
        | condAll =>
          rw [scanNoMatch, htoc] at hno0
          simp only [] at hno0
          rw [signalScan, htoc]
          simp only []
          rw [hno0]
          exact hrec
        | condError =>
          rw [scanNoMatch, htoc] at hno0
          simp only [] at hno0
          rw [signalScan, htoc]
          simp only []
          rw [hno0]
          exact hrec
        | condList l =>
          rw [scanNoMatch, htoc] at hno0
          simp only [] at hno0
          rw [signalScan, htoc]
          simp only []
          rw [hno0]
          exact hrec


/-- C4: condition-case clause ordering.  `internal_lisp_condition_case`
iterates the clause list in reverse (`ilcc1` on `Freverse (handlers)`), so
the first-declared clause becomes the innermost handler and wins a tie:
with clauses `[(arith-error . H1), (error . H2)]`, signaling `arith-error`
runs H1 (both clauses apply — `arith-error`'s conditions are
`(arith-error error)` — but H1 is innermost), while signaling
`wrong-type-argument` (whose conditions `(wrong-type-argument error)`
include `error` but not `arith-error`) runs H2.  In general `Fsignal`
scans `handlerlist` outward from the signal point and selects exactly the
first handler that is not a catcher and whose clause applies per
`find_handler_clause` (a list intersecting the error symbol's conditions,
or the C-installed catch-alls `t` / `error`). -/
theorem C4_condition_case_ordering :
    ((evalE 8 (.condCaseE (.sym qNil) (.signalE (.sym qArithError) [])
        [(.single (.sym qArithError), .constE (.num 1)),
         (.single (.sym qError), .constE (.num 2))]) baseState).1 = .ok (.num 1))
    ∧ ((evalE 8 (.condCaseE (.sym qNil) (.signalE (.sym qWrongTypeArgument) [])
        [(.single (.sym qArithError), .constE (.num 1)),
         (.single (.sym qError), .constE (.num 2))]) baseState).1 = .ok (.num 2))
    ∧ (∀ (hs : List HandlerRec) (conditions : List LObj) (h : HandlerRec) (cl : Clause),
        signalScan hs conditions = some (h, cl)
          ↔ ∃ pre post, hs = pre ++ h :: post
              ∧ (∀ h2 ∈ pre, scanNoMatch conditions h2)
              ∧ scanMatch conditions h cl) :=
  ⟨by decide, by decide,
   fun hs conditions h cl => signalScan_first conditions h cl hs⟩


set_option maxRecDepth 100000 in
/-- C8: refuted — the binding stack is corrupted, not "consistent and
further-usable".  The depth-exceeded error itself behaves as claimed: it is
raised only after the one-time ceiling raise (`c8rState`, ceiling 300,
grows instead of signaling), and it is catchable by an enclosing
condition-case (the probe returns the handler's value 99).  But `specbind`
pushes the specpdl record before `grow_specpdl` signals, while the
`unbind_once` dynwind handler is only registered at `done:` after it, so
the signaled binding leaves a live specpdl entry with no matching unwind
handler.  Unwinding then mispairs: the enclosing binding's `unbind_once`
pops the leaked entry instead of its own, the outer let of symbol 30 is
never restored (it keeps the let value 1 instead of its original nil), and
a stale entry for symbol 30 remains on the specpdl (length 399, was 398).
The identical program one binding further from the limit (`c8okState`)
restores everything exactly. -/
theorem C8_depth_exceeded_corrupts_specpdl :
    ((evalE 10 c8Expr c8State).1 = .ok (.num 99)
      ∧ (evalE 10 c8Expr c8State).2.specpdl.length = 399
      ∧ (evalE 10 c8Expr c8State).2.specpdl.head? = some (.letP 30 Qnil)
      ∧ ((evalE 10 c8Expr c8State).2.syms 30).redirect = .plainval (.num 1)
      ∧ (c8State.syms 30).redirect = .plainval Qnil
      ∧ c8State.specpdl.length = 398)
    ∧ ((evalE 10 c8Expr c8okState).1 = .ok (.num 0)
      ∧ (evalE 10 c8Expr c8okState).2.specpdl.length = 397
      ∧ ((evalE 10 c8Expr c8okState).2.syms 30).redirect = .plainval Qnil
      ∧ ((evalE 10 c8Expr c8okState).2.syms 31).redirect = .plainval Qnil)
    ∧ ((evalE 10 (.dletE (.sym 30) (.num 1) (.constE (.num 0))) c8rState).1
        = .ok (.num 0)
      ∧ (evalE 10 (.dletE (.sym 30) (.num 1) (.constE (.num 0))) c8rState).2.maxSpecpdlSize
        = 400
      ∧ (evalE 10 (.dletE (.sym 30) (.num 1) (.constE (.num 0))) c8rState).2.specpdl.length
        = 299
      ∧ ((evalE 10 (.dletE (.sym 30) (.num 1) (.constE (.num 0))) c8rState).2.syms 30).redirect
        = .plainval Qnil) := by
  refine ⟨⟨?_, ?_, ?_, ?_, ?_, ?_⟩, ⟨?_, ?_, ?_, ?_⟩, ⟨?_, ?_, ?_, ?_⟩⟩ <;> decide


/-! ### C6: preservation of the BLV found-invariant -/

theorem corePres_refl (st : State) : corePres st st :=
  ⟨rfl, rfl, Nat.le_refl _, fun _ => rfl, fun _ => rfl, fun _ => rfl⟩

theorem corePres_trans {s1 s2 s3 : State} (h1 : corePres s1 s2) (h2 : corePres s2 s3) :
    corePres s1 s3 := by
  obtain ⟨a1, b1, c1, d1, e1, f1⟩ := h1
  obtain ⟨a2, b2, c2, d2, e2, f2⟩ := h2
  exact ⟨a2.trans a1, b2.trans b1, Nat.le_trans c1 c2,
    fun b => (d2 b).trans (d1 b), fun fr => (e2 fr).trans (e1 fr),
    fun s => (f2 s).trans (f1 s)⟩

theorem blvInv_of_corePres {st st2 : State} (h : corePres st st2) (hI : blvInv st) :
    blvInv st2 := by
  intro i hi
  rw [h.1]
  exact hI i (h.2.1 ▸ hi)

theorem blvWF_of_corePres {st st2 : State} (h : corePres st st2) (hW : blvWF st) :
    blvWF st2 := by
  obtain ⟨hb, hn, hc, hal, hfr, hre⟩ := h
  obtain ⟨w1, w2, w3, w4⟩ := hW
  refine ⟨?_, ?_, ?_, ?_⟩
  · intro i hi
    rw [hb]
    exact Nat.lt_of_lt_of_le (w1 i (hn ▸ hi)) hc
  · intro i hi b
    rw [hb, hal]
    exact w2 i (hn ▸ hi) b
  · intro i hi fr
    rw [hb, hfr]
    exact w3 i (hn ▸ hi) fr
  · intro s i h2
    rw [hre] at h2
    rw [hn]
    exact w4 s i h2

theorem corePres_set_blv_value (blv : BLV) (v : LObj) (st : State) :
    corePres st (set_blv_value blv v st) :=
  ⟨rfl, rfl, Nat.le_refl _, fun _ => rfl, fun _ => rfl, fun _ => rfl⟩

theorem corePres_set_per_buffer_value (b offset : Nat) (v : LObj) (st : State) :
    corePres st (set_per_buffer_value b offset v st) := by
  refine ⟨rfl, rfl, Nat.le_refl _, ?_, fun _ => rfl, fun _ => rfl⟩
  intro b2
  by_cases hb : b2 = b
  · subst hb
    simp [set_per_buffer_value, updBuf, updN]
  · simp [set_per_buffer_value, updBuf, updN, hb]

theorem corePres_setPerBufferFlag (b : Nat) (idx : Int) (fl : Bool) (st : State) :
    corePres st (setPerBufferFlag b idx fl st) := by
  refine ⟨rfl, rfl, Nat.le_refl _, ?_, fun _ => rfl, fun _ => rfl⟩
  intro b2
  by_cases hb : b2 = b
  · subst hb
    simp [setPerBufferFlag, updBuf, updN]
  · simp [setPerBufferFlag, updBuf, updN, hb]

theorem corePres_setSlotNonLocal (offset : Nat) (idx : Int) (v : LObj) :
    ∀ (l : List Nat) (st : State), corePres st (setSlotNonLocal offset idx v l st) := by
  intro l
  induction l with
  | nil => intro st; exact corePres_refl st
  | cons b rest ih =>
    intro st
    rw [setSlotNonLocal]
    by_cases h : (st.bufs b).localFlags idx
    · rw [if_pos h]
      exact ih st
    · rw [if_neg h]
      exact corePres_trans (corePres_set_per_buffer_value b offset v st) (ih _)

theorem corePres_store (fwd : Fwd) (newval : LObj) (buf : Option Nat) (st : State) :
    corePres st (resState (store_symval_forwarding fwd newval buf st)) := by
  cases fwd with
  | intFwd loc =>
    cases newval <;>
      exact ⟨rfl, rfl, Nat.le_refl _, fun _ => rfl, fun _ => rfl, fun _ => rfl⟩
  | boolFwd loc =>
    exact ⟨rfl, rfl, Nat.le_refl _, fun _ => rfl, fun _ => rfl, fun _ => rfl⟩
  | objFwd loc bufDefault =>
    cases bufDefault with
    | none => exact ⟨rfl, rfl, Nat.le_refl _, fun _ => rfl, fun _ => rfl, fun _ => rfl⟩
    | some p =>
      obtain ⟨offset, idx⟩ := p
      simp only [store_symval_forwarding]
      by_cases h : idx ≤ 0
      · rw [if_pos h]
        exact ⟨rfl, rfl, Nat.le_refl _, fun _ => rfl, fun _ => rfl, fun _ => rfl⟩
      · rw [if_neg h]
        exact corePres_trans
          ⟨rfl, rfl, Nat.le_refl _, fun _ => rfl, fun _ => rfl, fun _ => rfl⟩
          (corePres_setSlotNonLocal _ _ _ _ _)
  | bufferObjFwd offset idx predicate =>
    simp only [store_symval_forwarding]
    split
    · exact corePres_set_per_buffer_value _ _ _ _
    · exact corePres_refl st
  | kboardObjFwd offset =>
    exact ⟨rfl, rfl, Nat.le_refl _, fun _ => rfl, fun _ => rfl, fun _ => rfl⟩

theorem ivLoop_state (st : State) (orig : Nat) :
    ∀ (fuel t h : Nat), resState (ivLoop st orig fuel t h) = st := by
  intro fuel
  induction fuel with
  | zero => intro t h; rfl
  | succ n ih =>
    intro t h
    simp only [ivLoop]
    split
    · split
      · split
        · rfl
        · exact ih _ _
      · rfl
    · rfl

theorem chase_state (st : State) (s0 : Nat) : resState (chaseToNonAlias st s0) = st := by
  rw [chaseToNonAlias]
  by_cases h : isAlias st s0
  · rw [if_pos h]
    exact ivLoop_state st s0 _ _ _
  · rw [if_neg h]
    rfl

theorem chase_noalias {st : State} {s0 : Nat} (h : isAlias st s0 = false) :
    chaseToNonAlias st s0 = .ok s0 st := by
  rw [chaseToNonAlias, if_neg]
  simp [h]

theorem assqIds_mem {st : State} {key : LObj} {alist : List Nat} {c : Nat}
    (h : assqIds st key alist = some c) : c ∈ alist :=
  List.mem_of_find?_eq_some h

theorem blvInv_putBlv {st : State} {blvId : Nat} {blv : BLV}
    (hI : ∀ i, i < st.nblvs → i ≠ blvId → blvInvAt (st.blvs i))
    (hA : blvInvAt blv) : blvInv (putBlv blvId blv st) := by
  intro i hi
  show blvInvAt (updN blvId blv st.blvs i)
  by_cases h : i = blvId
  · subst h
    rw [updN_same]
    exact hA
  · rw [updN_other _ _ h]
    exact hI i hi h

theorem blvWF_putBlv {st : State} {blvId : Nat} {blv : BLV}
    (hW : blvWF st)
    (hd : blv.defcell < st.nextCell)
    (hb : ∀ b, blv.defcell ∉ (st.bufs b).local_var_alist)
    (hf : ∀ fr, blv.defcell ∉ (st.frames fr).param_alist) :
    blvWF (putBlv blvId blv st) := by
  obtain ⟨w1, w2, w3, w4⟩ := hW
  refine ⟨?_, ?_, ?_, ?_⟩
  · intro i hi
    show (updN blvId blv st.blvs i).defcell < st.nextCell
    by_cases h : i = blvId
    · subst h; rw [updN_same]; exact hd
    · rw [updN_other _ _ h]; exact w1 i hi
  · intro i hi b
    show (updN blvId blv st.blvs i).defcell ∉ (st.bufs b).local_var_alist
    by_cases h : i = blvId
    · subst h; rw [updN_same]; exact hb b
    · rw [updN_other _ _ h]; exact w2 i hi b
  · intro i hi fr
    show (updN blvId blv st.blvs i).defcell ∉ (st.frames fr).param_alist
    by_cases h : i = blvId
    · subst h; rw [updN_same]; exact hf fr
    · rw [updN_other _ _ h]; exact w3 i hi fr
  · intro s i h2
    exact w4 s i h2


theorem swap_core {st st1 : State} {blvId : Nat} {blv1 : BLV}
    (hcp : corePres st st1)
    (hW : blvWF st) (hlt : blvId < st.nblvs)
    (hexc : ∀ i, i < st.nblvs → i ≠ blvId → blvInvAt (st.blvs i))
    (hA : blvInvAt blv1)
    (hd : blv1.defcell = (st.blvs blvId).defcell) :
    blvInv (putBlv blvId blv1 st1) ∧ blvWF (putBlv blvId blv1 st1) := by
  constructor
  · apply blvInv_putBlv _ hA
    intro i hi hne
    rw [hcp.1]
    exact hexc i (hcp.2.1 ▸ hi) hne
  · apply blvWF_putBlv (blvWF_of_corePres hcp hW)
    · rw [hd]
      exact Nat.lt_of_lt_of_le (hW.1 blvId hlt) hcp.2.2.1
    · intro b
      rw [hd, hcp.2.2.2.1 b]
      exact hW.2.1 blvId hlt b
    · intro fr
      rw [hd, hcp.2.2.2.2.1 fr]
      exact hW.2.2.1 blvId hlt fr

set_option maxHeartbeats 1000000 in
theorem swap_pres {st : State} (s blvId : Nat)
    (hW : blvWF st) (hlt : blvId < st.nblvs)
    (hexc : ∀ i, i < st.nblvs → i ≠ blvId → blvInvAt (st.blvs i))
    (hself : blvInvAt (st.blvs blvId) ∨ (st.blvs blvId).whereB = Qnil) :
    blvInv (resState (swap_in_symval_forwarding s blvId st))
    ∧ blvWF (resState (swap_in_symval_forwarding s blvId st)) := by
  have hnoop : (st.blvs blvId).whereB ≠ Qnil → blvInv st ∧ blvWF st := by
    intro hnn
    rcases hself with h2 | h2
    · refine ⟨?_, hW⟩
      intro i hi
      by_cases hie : i = blvId
      · subst hie
        exact h2
      · exact hexc i hi hie
    · exact absurd h2 hnn
  simp only [swap_in_symval_forwarding]
  split
  · rename_i hc
    rcases hf : (st.blvs blvId).fwd with _ | f
    · simp only [hf]
      split
      · rcases ha : assqIds st (LObj.sym s) (st.frames st.selectedFrame).param_alist
          with _ | c
        · simp only [ha]
          exact swap_core (corePres_refl st) hW hlt hexc (by simp [blvInvAt]) rfl
        · simp only [ha]
          refine swap_core (corePres_refl st) hW hlt hexc ?_ rfl
          simp only [blvInvAt]
          constructor
          · intro _ he
            exact hW.2.2.1 blvId hlt st.selectedFrame (he ▸ assqIds_mem ha)
          · intro _
            rfl
      · rename_i hc2
        exact hnoop (fun h => hc2 (Or.inl (by simp [NILP, h])))
    · simp only [hf]
      set st1 := set_blv_value (st.blvs blvId) (do_symval_forwarding st f) st with hst1
      have hcp : corePres st st1 := by
        rw [hst1]
        exact corePres_set_blv_value _ _ _
      split
      · rcases ha : assqIds st1 (LObj.sym s) (st1.frames st1.selectedFrame).param_alist
          with _ | c
        · simp only [ha]
          have hA : blvInvAt
              {fwd := some f, whereB := LObj.frame st1.selectedFrame,
               defcell := (st.blvs blvId).defcell,
               valcell := (st.blvs blvId).defcell, found := false,
               frame_local := (st.blvs blvId).frame_local,
               local_if_set := (st.blvs blvId).local_if_set} := by
            simp [blvInvAt]
          have hkey := swap_core hcp hW hlt hexc hA rfl
          exact ⟨blvInv_of_corePres (corePres_store _ _ _ _) hkey.1,
                 blvWF_of_corePres (corePres_store _ _ _ _) hkey.2⟩
        · simp only [ha]
          have hne : (st.blvs blvId).defcell ≠ c := by
            intro he
            have hm := assqIds_mem ha
            rw [hcp.2.2.2.2.1 st1.selectedFrame] at hm
            exact hW.2.2.1 blvId hlt st1.selectedFrame (he ▸ hm)
          have hA : blvInvAt
              {fwd := some f, whereB := LObj.frame st1.selectedFrame,
               defcell := (st.blvs blvId).defcell, valcell := c, found := true,
               frame_local := (st.blvs blvId).frame_local,
               local_if_set := (st.blvs blvId).local_if_set} := by
            simp only [blvInvAt]
            constructor
            · intro _
              exact hne
            · intro _
              trivial
          have hkey := swap_core hcp hW hlt hexc hA rfl
          exact ⟨blvInv_of_corePres (corePres_store _ _ _ _) hkey.1,
                 blvWF_of_corePres (corePres_store _ _ _ _) hkey.2⟩
      · rename_i hc2
        exact hnoop (fun h => hc2 (Or.inl (by simp [NILP, h])))
  · rename_i hc
    rcases hf : (st.blvs blvId).fwd with _ | f
    · simp only [hf]
      split
      · rcases ha : assqIds st (LObj.sym s) (st.bufs st.currentBuffer).local_var_alist
          with _ | c
        · simp only [ha]
          exact swap_core (corePres_refl st) hW hlt hexc (by simp [blvInvAt]) rfl
        · simp only [ha]
          refine swap_core (corePres_refl st) hW hlt hexc ?_ rfl
          simp only [blvInvAt]
          constructor
          · intro _ he
            exact hW.2.1 blvId hlt st.currentBuffer (he ▸ assqIds_mem ha)
          · intro _
            rfl
      · rename_i hc2
        exact hnoop (fun h => hc2 (Or.inl (by simp [NILP, h])))
    · simp only [hf]
      set st1 := set_blv_value (st.blvs blvId) (do_symval_forwarding st f) st with hst1
      have hcp : corePres st st1 := by
        rw [hst1]
        exact corePres_set_blv_value _ _ _
      split
      · rcases ha : assqIds st1 (LObj.sym s) (st1.bufs st1.currentBuffer).local_var_alist
          with _ | c
        · simp only [ha]
          have hA : blvInvAt
              {fwd := some f, whereB := LObj.buffer st1.currentBuffer,
               defcell := (st.blvs blvId).defcell,
               valcell := (st.blvs blvId).defcell, found := false,
               frame_local := (st.blvs blvId).frame_local,
               local_if_set := (st.blvs blvId).local_if_set} := by
            simp [blvInvAt]
          have hkey := swap_core hcp hW hlt hexc hA rfl
          exact ⟨blvInv_of_corePres (corePres_store _ _ _ _) hkey.1,
                 blvWF_of_corePres (corePres_store _ _ _ _) hkey.2⟩
        · simp only [ha]
          have hne : (st.blvs blvId).defcell ≠ c := by
            intro he
            have hm := assqIds_mem ha
            rw [hcp.2.2.2.1 st1.currentBuffer] at hm
            exact hW.2.1 blvId hlt st1.currentBuffer (he ▸ hm)
          have hA : blvInvAt
              {fwd := some f, whereB := LObj.buffer st1.currentBuffer,
               defcell := (st.blvs blvId).defcell, valcell := c, found := true,
               frame_local := (st.blvs blvId).frame_local,
               local_if_set := (st.blvs blvId).local_if_set} := by
            simp only [blvInvAt]
            constructor
            · intro _
              exact hne
            · intro _
              trivial
          have hkey := swap_core hcp hW hlt hexc hA rfl
          exact ⟨blvInv_of_corePres (corePres_store _ _ _ _) hkey.1,
                 blvWF_of_corePres (corePres_store _ _ _ _) hkey.2⟩
      · rename_i hc2
        exact hnoop (fun h => hc2 (Or.inl (by simp [NILP, h])))


theorem resState_bind_pure {α : Type} (r : SRes Unit) (k : Unit → State → SRes α)
    (hk : ∀ st2, resState (k () st2) = st2) :
    resState (SRes.bind r k) = resState r := by
  cases r with
  | ok a st =>
    cases a
    exact hk st
  | sig e st => rfl
  | ab st => rfl
  | oom st => rfl

set_option maxHeartbeats 1000000 in
theorem find_pres (symbol : LObj) (st : State) (j : Nat)
    (hW : blvWF st)
    (hexc : ∀ i, i < st.nblvs → i ≠ j → blvInvAt (st.blvs i))
    (hj : j < st.nblvs → (blvInvAt (st.blvs j) ∨
          (∃ s1, symbol = .sym s1 ∧ isAlias st s1 = false ∧
            (st.syms s1).redirect = .localized j ∧ (st.blvs j).whereB = Qnil))) :
    blvInv (resState (find_symbol_value symbol st))
    ∧ blvWF (resState (find_symbol_value symbol st)) := by
  have hfull : (j < st.nblvs → blvInvAt (st.blvs j)) → blvInv st := by
    intro h i hi
    by_cases hij : i = j
    · subst hij
      exact h hi
    · exact hexc i hi hij
  cases symbol with
  | num n =>
    refine ⟨hfull ?_, hW⟩
    intro hlt
    rcases hj hlt with h | ⟨s1, he, -⟩
    · exact h
    · simp at he
  | str s1 =>
    refine ⟨hfull ?_, hW⟩
    intro hlt
    rcases hj hlt with h | ⟨s1, he, -⟩
    · exact h
    · simp at he
  | cell c =>
    refine ⟨hfull ?_, hW⟩
    intro hlt
    rcases hj hlt with h | ⟨s1, he, -⟩
    · exact h
    · simp at he
  | buffer b =>
    refine ⟨hfull ?_, hW⟩
    intro hlt
    rcases hj hlt with h | ⟨s1, he, -⟩
    · exact h
    · simp at he
  | frame fr =>
    refine ⟨hfull ?_, hW⟩
    intro hlt
    rcases hj hlt with h | ⟨s1, he, -⟩
    · exact h
    · simp at he
  | sym s0 =>
    simp only [find_symbol_value]
    by_cases hal : isAlias st s0 = true
    · -- the alias is chased first; any outcome leaves the state unchanged,
      -- and the fixable disjunct cannot apply to an alias
      have hfullI : blvInv st := by
        apply hfull
        intro hlt
        rcases hj hlt with h | ⟨s1, he, hal1, -⟩
        · exact h
        · injection he with he2
          subst he2
          rw [hal] at hal1
          cases hal1
      rcases hch : chaseToNonAlias st s0 with ⟨s2, st1⟩ | ⟨e, st1⟩ | st1 | st1 <;>
        (have hst1 : st1 = st := by
          have h2 := chase_state st s0
          rw [hch] at h2
          exact h2) <;>
        subst st1 <;> simp only [SRes.bind]
      · rcases hr : (st.syms s2).redirect with v | t | blvId | f <;> simp only [hr]
        · exact ⟨hfullI, hW⟩
        · exact ⟨hfullI, hW⟩
        · have h2 := swap_pres s2 blvId hW (hW.2.2.2 s2 blvId hr)
            (fun i hi _ => hfullI i hi) (Or.inl (hfullI blvId (hW.2.2.2 s2 blvId hr)))
          rcases hs : swap_in_symval_forwarding s2 blvId st
              with ⟨u, st2⟩ | ⟨e, st2⟩ | st2 | st2 <;>
            rw [hs] at h2 <;> simp only [hs]
          · rcases hfw : (st2.blvs blvId).fwd with _ | f2 <;> simp only [hfw] <;> exact h2
          · exact h2
          · exact h2
          · exact h2
        · exact ⟨hfullI, hW⟩
      · exact ⟨hfullI, hW⟩
      · exact ⟨hfullI, hW⟩
      · exact ⟨hfullI, hW⟩
    · -- no alias: the chase is the identity
      have hal2 : isAlias st s0 = false := by
        cases h2 : isAlias st s0
        · rfl
        · exact absurd h2 hal
      rw [chase_noalias hal2]
      simp only [SRes.bind]
      rcases hr : (st.syms s0).redirect with v | t | blvId | f <;> simp only [hr]
      · -- plainval: state unchanged, and a fixable j would be localized
        refine ⟨hfull ?_, hW⟩
        intro hlt
        rcases hj hlt with h | ⟨s1, he, hal1, hred, hwh⟩
        · exact h
        · injection he with he2
          subst he2
          rw [hr] at hred
          cases hred
      · -- varalias: unreachable after the chase, still state-unchanged
        refine ⟨hfull ?_, hW⟩
        intro hlt
        rcases hj hlt with h | ⟨s1, he, hal1, hred, hwh⟩
        · exact h
        · injection he with he2
          subst he2
          rw [hr] at hred
          cases hred
      · -- localized: the swap either keeps a valid binding or reloads it
        have hblt : blvId < st.nblvs := hW.2.2.2 s0 blvId hr
        have h2 : blvInv (resState (swap_in_symval_forwarding s0 blvId st))
            ∧ blvWF (resState (swap_in_symval_forwarding s0 blvId st)) := by
          by_cases hjlt : j < st.nblvs
          · rcases hj hjlt with hA | ⟨s1, he, hal1, hred, hwh⟩
            · have hfullI : blvInv st := hfull (fun _ => hA)
              exact swap_pres s0 blvId hW hblt (fun i hi _ => hfullI i hi)
                (Or.inl (hfullI blvId hblt))
            · injection he with he2
              subst he2
              rw [hr] at hred
              injection hred with he3
              subst he3
              exact swap_pres _ _ hW hblt hexc (Or.inr hwh)
          · have hfullI : blvInv st := by
              intro i hi
              exact hexc i hi (by omega)
            exact swap_pres s0 blvId hW hblt (fun i hi _ => hfullI i hi)
              (Or.inl (hfullI blvId hblt))
        rcases hs : swap_in_symval_forwarding s0 blvId st
            with ⟨u, st2⟩ | ⟨e, st2⟩ | st2 | st2 <;>
          rw [hs] at h2 <;> simp only [hs]
        · rcases hfw : (st2.blvs blvId).fwd with _ | f2 <;> simp only [hfw] <;> exact h2
        · exact h2
        · exact h2
        · exact h2
      · refine ⟨hfull ?_, hW⟩
        intro hlt
        rcases hj hlt with h | ⟨s1, he, hal1, hred, hwh⟩
        · exact h
        · injection he with he2
          subst he2
          rw [hr] at hred
          cases hred


theorem find_pres_full (symbol : LObj) (st : State) (hW : blvWF st) (hI : blvInv st) :
    blvInv (resState (find_symbol_value symbol st))
    ∧ blvWF (resState (find_symbol_value symbol st)) :=
  find_pres symbol st st.nblvs hW (fun i hi _ => hI i hi)
    (fun h => absurd h (Nat.lt_irrefl _))

theorem Fsymbol_value_pres (symbol : LObj) (st : State) (hW : blvWF st) (hI : blvInv st) :
    blvInv (resState (Fsymbol_value symbol st))
    ∧ blvWF (resState (Fsymbol_value symbol st)) := by
  have h2 := find_pres_full symbol st hW hI
  simp only [Fsymbol_value]
  rcases hs : find_symbol_value symbol st with ⟨v, st1⟩ | ⟨e, st1⟩ | st1 | st1 <;>
    rw [hs] at h2 <;> simp only [hs, SRes.bind]
  · by_cases hv : v = Qunbound
    · rw [if_pos hv]
      exact h2
    · rw [if_neg hv]
      exact h2
  · exact h2
  · exact h2
  · exact h2

theorem bind_pres (N : Nat) {k : Unit → State → SRes Unit} (r : SRes Unit)
    (hr : blvInv (resState r) ∧ blvWF (resState r) ∧ (resState r).nblvs = N)
    (hk : ∀ st4, blvInv st4 → blvWF st4 → st4.nblvs = N →
          blvInv (resState (k () st4)) ∧ blvWF (resState (k () st4))) :
    blvInv (resState (SRes.bind r k)) ∧ blvWF (resState (SRes.bind r k)) := by
  cases r with
  | ok a st4 =>
    cases a
    exact hk st4 hr.1 hr.2.1 hr.2.2
  | sig e st4 => exact ⟨hr.1, hr.2.1⟩
  | ab st4 => exact ⟨hr.1, hr.2.1⟩
  | oom st4 => exact ⟨hr.1, hr.2.1⟩

theorem sib_store_pres (blvId : Nat) (newval whereV : LObj) (voide : Bool) (st4 : State)
    (hI : blvInv st4) (hW : blvWF st4) (hblt : blvId < st4.nblvs) :
    blvInv (resState
      (let blv2 := st4.blvs blvId
       let st5 := set_blv_value blv2 newval st4
       match blv2.fwd with
       | some f =>
         if voide then SRes.ok () (putBlv blvId {blv2 with fwd := none} st5)
         else
           let bufArg := match whereV with
                         | LObj.buffer b => b
                         | _ => st5.currentBuffer
           store_symval_forwarding f newval (some bufArg) st5
       | none => SRes.ok () st5))
    ∧ blvWF (resState
      (let blv2 := st4.blvs blvId
       let st5 := set_blv_value blv2 newval st4
       match blv2.fwd with
       | some f =>
         if voide then SRes.ok () (putBlv blvId {blv2 with fwd := none} st5)
         else
           let bufArg := match whereV with
                         | LObj.buffer b => b
                         | _ => st5.currentBuffer
           store_symval_forwarding f newval (some bufArg) st5
       | none => SRes.ok () st5)) := by
  rcases hfw : (st4.blvs blvId).fwd with _ | f <;> simp only [hfw]
  · exact ⟨blvInv_of_corePres (corePres_set_blv_value _ _ _) hI,
           blvWF_of_corePres (corePres_set_blv_value _ _ _) hW⟩
  · by_cases hv : voide = true
    · rw [if_pos hv]
      refine swap_core (corePres_set_blv_value _ _ _) hW hblt (fun i hi _ => hI i hi) ?_ rfl
      have h2 := hI blvId hblt
      simpa [blvInvAt] using h2
    · rw [if_neg hv]
      exact ⟨blvInv_of_corePres
               (corePres_trans (corePres_set_blv_value _ _ _) (corePres_store _ _ _ _)) hI,
             blvWF_of_corePres
               (corePres_trans (corePres_set_blv_value _ _ _) (corePres_store _ _ _ _)) hW⟩

theorem sib_fresh_pres (blvId b : Nat) (blv1 : BLV) {st st1 : State}
    (hcp : corePres st st1) (hnc : st1.nextCell = st.nextCell)
    (hW : blvWF st) (hI : blvInv st) (hblt : blvId < st.nblvs)
    (hd : blv1.defcell = (st.blvs blvId).defcell)
    (hvc : blv1.valcell = st1.nextCell)
    (hfound : blv1.found = true)
    (car cdr : LObj) :
    blvInv (putBlv blvId blv1
      (updBuf b (fun r => {r with local_var_alist := st1.nextCell :: r.local_var_alist})
        {st1 with cells := updN st1.nextCell (car, cdr) st1.cells,
                  nextCell := st1.nextCell + 1}))
    ∧ blvWF (putBlv blvId blv1
      (updBuf b (fun r => {r with local_var_alist := st1.nextCell :: r.local_var_alist})
        {st1 with cells := updN st1.nextCell (car, cdr) st1.cells,
                  nextCell := st1.nextCell + 1}))
    ∧ (putBlv blvId blv1
      (updBuf b (fun r => {r with local_var_alist := st1.nextCell :: r.local_var_alist})
        {st1 with cells := updN st1.nextCell (car, cdr) st1.cells,
                  nextCell := st1.nextCell + 1})).nblvs = st.nblvs := by
  have hdelt : blv1.defcell < st1.nextCell := by
    rw [hd, hnc]
    exact hW.1 blvId hblt
  refine ⟨?_, ⟨?_, ?_, ?_, ?_⟩, ?_⟩
  · -- blvInv
    intro i hi
    have hi2 : i < st.nblvs := hcp.2.1 ▸ hi
    show blvInvAt (updN blvId blv1 st1.blvs i)
    by_cases hie : i = blvId
    · subst hie
      rw [updN_same]
      simp only [blvInvAt, hfound, hd, hvc]
      constructor
      · intro _ he
        rw [← hd] at he
        exact absurd (he ▸ hdelt) (Nat.lt_irrefl _)
      · intro _
        trivial
    · rw [updN_other _ _ hie, hcp.1]
      exact hI i hi2
  · -- WF piece 1
    intro i hi
    have hi2 : i < st.nblvs := hcp.2.1 ▸ hi
    show (updN blvId blv1 st1.blvs i).defcell < st1.nextCell + 1
    by_cases hie : i = blvId
    · subst hie
      rw [updN_same]
      exact Nat.lt_succ_of_lt hdelt
    · rw [updN_other _ _ hie, hcp.1]
      exact Nat.lt_succ_of_lt (Nat.lt_of_lt_of_le (hW.1 i hi2) (hnc ▸ Nat.le_refl _))
  · -- WF piece 2
    intro i hi b2
    have hi2 : i < st.nblvs := hcp.2.1 ▸ hi
    have hdc : (updN blvId blv1 st1.blvs i).defcell = ((st.blvs i)).defcell := by
      by_cases hie : i = blvId
      · subst hie
        rw [updN_same, hd]
      · rw [updN_other _ _ hie, hcp.1]
    show (updN blvId blv1 st1.blvs i).defcell ∉
      ((updN b _ st1.bufs b2).local_var_alist)
    rw [hdc]
    by_cases hb2 : b2 = b
    · subst hb2
      rw [updN_same]
      intro hmem
      rcases List.mem_cons.mp hmem with he | hmem2
      · rw [hnc] at he
        exact absurd (he ▸ hW.1 i hi2) (Nat.lt_irrefl _)
      · rw [hcp.2.2.2.1 b2] at hmem2
        exact hW.2.1 i hi2 b2 hmem2
    · rw [updN_other _ _ hb2]
      rw [hcp.2.2.2.1 b2]
      exact hW.2.1 i hi2 b2
  · -- WF piece 3
    intro i hi fr
    have hi2 : i < st.nblvs := hcp.2.1 ▸ hi
    have hdc : (updN blvId blv1 st1.blvs i).defcell = ((st.blvs i)).defcell := by
      by_cases hie : i = blvId
      · subst hie
        rw [updN_same, hd]
      · rw [updN_other _ _ hie, hcp.1]
    show (updN blvId blv1 st1.blvs i).defcell ∉ (st1.frames fr).param_alist
    rw [hdc, hcp.2.2.2.2.1 fr]
    exact hW.2.2.1 i hi2 fr
  · -- WF piece 4
    intro s2 i h2
    have h3 : (st.syms s2).redirect = .localized i := by
      rw [← hcp.2.2.2.2.2 s2]
      exact h2
    have := hW.2.2.2 s2 i h3
    exact hcp.2.1 ▸ this
  · exact hcp.2.1


theorem corePres_fconsState (st : State) (car cdr : LObj) :
    corePres st {st with cells := updN st.nextCell (car, cdr) st.cells,
                         nextCell := st.nextCell + 1} :=
  ⟨rfl, rfl, Nat.le_succ _, fun _ => rfl, fun _ => rfl, fun _ => rfl⟩

set_option maxHeartbeats 2000000 in
theorem sib_step_pres (s blvId : Nat) (whereV : LObj) (bindflag : Bool) (st : State)
    (hW : blvWF st) (hI : blvInv st) (hblt : blvId < st.nblvs)
    (r : SRes Unit)
    (hr : r =
      (if (st.blvs blvId).whereB ≠ whereV
          ∨ (st.blvs blvId).valcell = (st.blvs blvId).defcell then
        let st1 := match (st.blvs blvId).fwd with
                   | some f => set_blv_value (st.blvs blvId) (do_symval_forwarding st f) st
                   | none => st
        let tem1Opt : Option (Option Nat) :=
          if (st.blvs blvId).frame_local then
            match whereV with
            | .frame fr => some (assqIds st1 (LObj.sym s) ((st1.frames fr).param_alist))
            | _ => none
          else
            match whereV with
            | .buffer b => some (assqIds st1 (LObj.sym s) ((st1.bufs b).local_var_alist))
            | _ => none
        match tem1Opt with
        | none => .ab st1
        | some tem1 =>
          let blv1 := {st.blvs blvId with whereB := whereV, found := true}
          match tem1 with
          | some c => .ok () (putBlv blvId {blv1 with valcell := c} st1)
          | none =>
            if bindflag ∨ ¬ (st.blvs blvId).local_if_set
                ∨ let_shadows_buffer_binding_p s st1 then
              .ok () (putBlv blvId
                {blv1 with found := false, valcell := (st.blvs blvId).defcell} st1)
            else
              let (c, st2) := Fcons (LObj.sym s)
                ((st1.cells (st.blvs blvId).defcell).2) st1
              match whereV with
              | .buffer b =>
                let st3 := updBuf b
                  (fun r2 => {r2 with local_var_alist := c :: r2.local_var_alist}) st2
                .ok () (putBlv blvId {blv1 with valcell := c} st3)
              | _ => .ab st2
      else .ok () st)) :
    blvInv (resState r) ∧ blvWF (resState r) ∧ (resState r).nblvs = st.nblvs := by
  subst hr
  split
  · rcases hf : (st.blvs blvId).fwd with _ | f <;> simp only [hf]
    · -- the previously loaded binding has no forwarding: no unload needed
      by_cases hfl : (st.blvs blvId).frame_local = true
      · rw [if_pos hfl]
        cases whereV with
        | frame fr =>
          rcases ha : assqIds st (LObj.sym s) ((st.frames fr).param_alist) with _ | c <;>
            simp only [ha]
          · split
            · have hA : blvInvAt
                  {fwd := none, whereB := LObj.frame fr,
                   defcell := (st.blvs blvId).defcell,
                   valcell := (st.blvs blvId).defcell, found := false,
                   frame_local := (st.blvs blvId).frame_local,
                   local_if_set := (st.blvs blvId).local_if_set} := by
                simp [blvInvAt]
              have hk := swap_core (corePres_refl st) hW hblt (fun i hi _ => hI i hi) hA rfl
              exact ⟨hk.1, hk.2, rfl⟩
            · simp only [Fcons]
              have hcp3 := corePres_trans (corePres_refl st)
                (corePres_fconsState st (LObj.sym s)
                  ((st.cells (st.blvs blvId).defcell).2))
              exact ⟨blvInv_of_corePres hcp3 hI, blvWF_of_corePres hcp3 hW, hcp3.2.1⟩
          · have hne : (st.blvs blvId).defcell ≠ c := by
              intro he
              exact hW.2.2.1 blvId hblt fr (he ▸ assqIds_mem ha)
            have hA : blvInvAt
                {fwd := none, whereB := LObj.frame fr,
                 defcell := (st.blvs blvId).defcell, valcell := c, found := true,
                 frame_local := (st.blvs blvId).frame_local,
                 local_if_set := (st.blvs blvId).local_if_set} := by
              simp only [blvInvAt]
              constructor
              · intro _
                exact hne
              · intro _
                trivial
            have hk := swap_core (corePres_refl st) hW hblt (fun i hi _ => hI i hi) hA rfl
            exact ⟨hk.1, hk.2, rfl⟩
        | buffer b => exact ⟨blvInv_of_corePres (corePres_refl st) hI, blvWF_of_corePres (corePres_refl st) hW, ((corePres_refl st)).2.1⟩
        | sym x => exact ⟨blvInv_of_corePres (corePres_refl st) hI, blvWF_of_corePres (corePres_refl st) hW, ((corePres_refl st)).2.1⟩
        | num x => exact ⟨blvInv_of_corePres (corePres_refl st) hI, blvWF_of_corePres (corePres_refl st) hW, ((corePres_refl st)).2.1⟩
        | str x => exact ⟨blvInv_of_corePres (corePres_refl st) hI, blvWF_of_corePres (corePres_refl st) hW, ((corePres_refl st)).2.1⟩
        | cell x => exact ⟨blvInv_of_corePres (corePres_refl st) hI, blvWF_of_corePres (corePres_refl st) hW, ((corePres_refl st)).2.1⟩
      · rw [if_neg hfl]
        cases whereV with
        | buffer b =>
          rcases ha : assqIds st (LObj.sym s) ((st.bufs b).local_var_alist) with _ | c <;>
            simp only [ha]
          · split
            · have hA : blvInvAt
                  {fwd := none, whereB := LObj.buffer b,
                   defcell := (st.blvs blvId).defcell,
                   valcell := (st.blvs blvId).defcell, found := false,
                   frame_local := (st.blvs blvId).frame_local,
                   local_if_set := (st.blvs blvId).local_if_set} := by
                simp [blvInvAt]
              have hk := swap_core (corePres_refl st) hW hblt (fun i hi _ => hI i hi) hA rfl
              exact ⟨hk.1, hk.2, rfl⟩
            · simp only [Fcons]
              exact sib_fresh_pres blvId b
                {fwd := none, whereB := LObj.buffer b,
                 defcell := (st.blvs blvId).defcell, valcell := st.nextCell,
                 found := true, frame_local := (st.blvs blvId).frame_local,
                 local_if_set := (st.blvs blvId).local_if_set}
                (corePres_refl st) rfl hW hI hblt rfl rfl rfl _ _
          · have hne : (st.blvs blvId).defcell ≠ c := by
              intro he
              exact hW.2.1 blvId hblt b (he ▸ assqIds_mem ha)
            have hA : blvInvAt
                {fwd := none, whereB := LObj.buffer b,
                 defcell := (st.blvs blvId).defcell, valcell := c, found := true,
                 frame_local := (st.blvs blvId).frame_local,
                 local_if_set := (st.blvs blvId).local_if_set} := by
              simp only [blvInvAt]
              constructor
              · intro _
                exact hne
              · intro _
                trivial
            have hk := swap_core (corePres_refl st) hW hblt (fun i hi _ => hI i hi) hA rfl
            exact ⟨hk.1, hk.2, rfl⟩
        | frame fr => exact ⟨blvInv_of_corePres (corePres_refl st) hI, blvWF_of_corePres (corePres_refl st) hW, ((corePres_refl st)).2.1⟩
        | sym x => exact ⟨blvInv_of_corePres (corePres_refl st) hI, blvWF_of_corePres (corePres_refl st) hW, ((corePres_refl st)).2.1⟩
        | num x => exact ⟨blvInv_of_corePres (corePres_refl st) hI, blvWF_of_corePres (corePres_refl st) hW, ((corePres_refl st)).2.1⟩
        | str x => exact ⟨blvInv_of_corePres (corePres_refl st) hI, blvWF_of_corePres (corePres_refl st) hW, ((corePres_refl st)).2.1⟩
        | cell x => exact ⟨blvInv_of_corePres (corePres_refl st) hI, blvWF_of_corePres (corePres_refl st) hW, ((corePres_refl st)).2.1⟩
    · -- unload the previous binding into its value cell first
      set st1 := set_blv_value (st.blvs blvId) (do_symval_forwarding st f) st with hst1
      have hcp : corePres st st1 := by
        rw [hst1]
        exact corePres_set_blv_value _ _ _
      by_cases hfl : (st.blvs blvId).frame_local = true
      · rw [if_pos hfl]
        cases whereV with
        | frame fr =>
          rcases ha : assqIds st1 (LObj.sym s) ((st1.frames fr).param_alist) with _ | c <;>
            simp only [ha]
          · split
            · have hA : blvInvAt
                  {fwd := some f, whereB := LObj.frame fr,
                   defcell := (st.blvs blvId).defcell,
                   valcell := (st.blvs blvId).defcell, found := false,
                   frame_local := (st.blvs blvId).frame_local,
                   local_if_set := (st.blvs blvId).local_if_set} := by
                simp [blvInvAt]
              have hk := swap_core hcp hW hblt (fun i hi _ => hI i hi) hA rfl
              exact ⟨hk.1, hk.2, rfl⟩
            · simp only [Fcons]
              have hcp3 := corePres_trans hcp
                (corePres_fconsState st1 (LObj.sym s)
                  ((st1.cells (st.blvs blvId).defcell).2))
              exact ⟨blvInv_of_corePres hcp3 hI, blvWF_of_corePres hcp3 hW, hcp3.2.1⟩
          · have hne : (st.blvs blvId).defcell ≠ c := by
              intro he
              have hm := assqIds_mem ha
              rw [hcp.2.2.2.2.1 fr] at hm
              exact hW.2.2.1 blvId hblt fr (he ▸ hm)
            have hA : blvInvAt
                {fwd := some f, whereB := LObj.frame fr,
                 defcell := (st.blvs blvId).defcell, valcell := c, found := true,
                 frame_local := (st.blvs blvId).frame_local,
                 local_if_set := (st.blvs blvId).local_if_set} := by
              simp only [blvInvAt]
              constructor
              · intro _
                exact hne
              · intro _
                trivial
            have hk := swap_core hcp hW hblt (fun i hi _ => hI i hi) hA rfl
            exact ⟨hk.1, hk.2, rfl⟩
        | buffer b => exact ⟨blvInv_of_corePres hcp hI, blvWF_of_corePres hcp hW, (hcp).2.1⟩
        | sym x => exact ⟨blvInv_of_corePres hcp hI, blvWF_of_corePres hcp hW, (hcp).2.1⟩
        | num x => exact ⟨blvInv_of_corePres hcp hI, blvWF_of_corePres hcp hW, (hcp).2.1⟩
        | str x => exact ⟨blvInv_of_corePres hcp hI, blvWF_of_corePres hcp hW, (hcp).2.1⟩
        | cell x => exact ⟨blvInv_of_corePres hcp hI, blvWF_of_corePres hcp hW, (hcp).2.1⟩
      · rw [if_neg hfl]
        cases whereV with
        | buffer b =>
          rcases ha : assqIds st1 (LObj.sym s) ((st1.bufs b).local_var_alist) with _ | c <;>
            simp only [ha]
          · split
            · have hA : blvInvAt
                  {fwd := some f, whereB := LObj.buffer b,
                   defcell := (st.blvs blvId).defcell,
                   valcell := (st.blvs blvId).defcell, found := false,
                   frame_local := (st.blvs blvId).frame_local,
                   local_if_set := (st.blvs blvId).local_if_set} := by
                simp [blvInvAt]
              have hk := swap_core hcp hW hblt (fun i hi _ => hI i hi) hA rfl
              exact ⟨hk.1, hk.2, rfl⟩
            · simp only [Fcons]
              exact sib_fresh_pres blvId b
                {fwd := some f, whereB := LObj.buffer b,
                 defcell := (st.blvs blvId).defcell, valcell := st1.nextCell,
                 found := true, frame_local := (st.blvs blvId).frame_local,
                 local_if_set := (st.blvs blvId).local_if_set}
                hcp rfl hW hI hblt rfl rfl rfl _ _
          · have hne : (st.blvs blvId).defcell ≠ c := by
              intro he
              have hm := assqIds_mem ha
              rw [hcp.2.2.2.1 b] at hm
              exact hW.2.1 blvId hblt b (he ▸ hm)
            have hA : blvInvAt
                {fwd := some f, whereB := LObj.buffer b,
                 defcell := (st.blvs blvId).defcell, valcell := c, found := true,
                 frame_local := (st.blvs blvId).frame_local,
                 local_if_set := (st.blvs blvId).local_if_set} := by
              simp only [blvInvAt]
              constructor
              · intro _
                exact hne
              · intro _
                trivial
            have hk := swap_core hcp hW hblt (fun i hi _ => hI i hi) hA rfl
            exact ⟨hk.1, hk.2, rfl⟩
        | frame fr => exact ⟨blvInv_of_corePres hcp hI, blvWF_of_corePres hcp hW, (hcp).2.1⟩
        | sym x => exact ⟨blvInv_of_corePres hcp hI, blvWF_of_corePres hcp hW, (hcp).2.1⟩
        | num x => exact ⟨blvInv_of_corePres hcp hI, blvWF_of_corePres hcp hW, (hcp).2.1⟩
        | str x => exact ⟨blvInv_of_corePres hcp hI, blvWF_of_corePres hcp hW, (hcp).2.1⟩
        | cell x => exact ⟨blvInv_of_corePres hcp hI, blvWF_of_corePres hcp hW, (hcp).2.1⟩
  · exact ⟨hI, hW, rfl⟩

set_option maxHeartbeats 2000000 in
theorem sib_pres (s blvId : Nat) (newval whereArg : LObj) (bindflag voide : Bool)
    (st : State) (hW : blvWF st) (hI : blvInv st) (hblt : blvId < st.nblvs) :
    blvInv (resState (set_internal_blv s blvId newval whereArg bindflag voide st))
    ∧ blvWF (resState (set_internal_blv s blvId newval whereArg bindflag voide st)) := by
  simp only [set_internal_blv]
  refine bind_pres st.nblvs _ ?_ ?_
  · exact sib_step_pres s blvId _ bindflag st hW hI hblt _ rfl
  · intro st4 h1 h2 h3
    exact sib_store_pres blvId newval _ voide st4 h1 h2 (by omega)


theorem blvOK_setPlainval (s : Nat) (v : LObj) (stc : State)
    (hI : blvInv stc) (hW : blvWF stc) :
    blvInv (setRedirect s (.plainval v) stc) ∧ blvWF (setRedirect s (.plainval v) stc) := by
  constructor
  · intro i hi
    exact hI i hi
  · refine ⟨hW.1, hW.2.1, hW.2.2.1, ?_⟩
    intro s2 i h2
    by_cases hs2 : s2 = s
    · subst hs2
      simp [setRedirect, updN] at h2
    · simp [setRedirect, updN, hs2] at h2
      exact hW.2.2.2 s2 i h2

set_option maxHeartbeats 2000000 in
theorem set_internal_pres (symbol newval whereArg : LObj) (bindflag : Bool) (st : State)
    (hW : blvWF st) (hI : blvInv st) :
    blvInv (resState (set_internal symbol newval whereArg bindflag st))
    ∧ blvWF (resState (set_internal symbol newval whereArg bindflag st)) := by
  simp only [set_internal]
  cases symbol with
  | num n => exact ⟨hI, hW⟩
  | str s2 => exact ⟨hI, hW⟩
  | cell c => exact ⟨hI, hW⟩
  | buffer b => exact ⟨hI, hW⟩
  | frame fr => exact ⟨hI, hW⟩
  | sym s0 =>
    simp only []
    by_cases hsc : (st.syms s0).sconst = true
    · rw [if_pos hsc]
      by_cases hkw : (st.syms s0).isKeyword = true
      · rw [if_neg (not_not_intro hkw)]
        rcases hFv : Fsymbol_value (LObj.sym s0) st with ⟨v, st1⟩ | ⟨e, st1⟩ | st1 | st1 <;>
          (have hF := Fsymbol_value_pres (LObj.sym s0) st hW hI
           rw [hFv] at hF) <;>
          simp only [hFv, SRes.bind]
        · have hIc : blvInv st1 := hF.1
          have hWc : blvWF st1 := hF.2
          by_cases hnv : newval ≠ v
          · rw [if_pos hnv]
            exact ⟨hIc, hWc⟩
          · rw [if_neg hnv]
            simp only []
            by_cases hsc1 : (st1.syms s0).sconst = true
            · rw [if_pos hsc1]
              exact ⟨hIc, hWc⟩
            · rw [if_neg hsc1]
              rcases hch : chaseToNonAlias st1 s0 with ⟨s2, st2⟩ | ⟨e, st2⟩ | st2 | st2 <;>
                (have hst2 : st2 = st1 := by
                  have h3 := chase_state st1 s0
                  rw [hch] at h3
                  exact h3) <;>
                subst st2 <;> simp only [hch, SRes.bind]
              · rcases hr2 : (st1.syms s2).redirect with v | t | blvId | f <;> simp only [hr2]
                · exact blvOK_setPlainval _ _ _ hIc hWc
                · exact ⟨hIc, hWc⟩
                · exact sib_pres s2 blvId newval whereArg bindflag _ st1 hWc hIc
                    (hWc.2.2.2 s2 blvId hr2)
                · cases f with
                  | bufferObjFwd o idx p =>
                    simp only []
                    by_cases hvd : newval = Qunbound
                    · rw [if_pos hvd]
                      by_cases hflag : idx > 0 ∧ ¬bindflag = true ∧ ¬let_shadows_buffer_binding_p s2 st1 = true
                      · rw [if_pos hflag]
                        exact blvOK_setPlainval _ _ _
                          (blvInv_of_corePres (corePres_setPerBufferFlag _ _ _ _) hIc)
                          (blvWF_of_corePres (corePres_setPerBufferFlag _ _ _ _) hWc)
                      · rw [if_neg hflag]
                        exact blvOK_setPlainval _ _ _ hIc hWc
                    · rw [if_neg hvd]
                      by_cases hflag : idx > 0 ∧ ¬bindflag = true ∧ ¬let_shadows_buffer_binding_p s2 st1 = true
                      · rw [if_pos hflag]
                        exact ⟨blvInv_of_corePres (corePres_trans
                                 (corePres_setPerBufferFlag _ _ _ _) (corePres_store _ _ _ _)) hIc,
                               blvWF_of_corePres (corePres_trans
                                 (corePres_setPerBufferFlag _ _ _ _) (corePres_store _ _ _ _)) hWc⟩
                      · rw [if_neg hflag]
                        exact ⟨blvInv_of_corePres (corePres_store _ _ _ _) hIc,
                               blvWF_of_corePres (corePres_store _ _ _ _) hWc⟩
                  | intFwd loc =>
                    simp only []
                    by_cases hvd : newval = Qunbound
                    · rw [if_pos hvd]
                      exact blvOK_setPlainval _ _ _ hIc hWc
                    · rw [if_neg hvd]
                      exact ⟨blvInv_of_corePres (corePres_store _ _ _ _) hIc,
                             blvWF_of_corePres (corePres_store _ _ _ _) hWc⟩
                  | boolFwd loc =>
                    simp only []
                    by_cases hvd : newval = Qunbound
                    · rw [if_pos hvd]
                      exact blvOK_setPlainval _ _ _ hIc hWc
                    · rw [if_neg hvd]
                      exact ⟨blvInv_of_corePres (corePres_store _ _ _ _) hIc,
                             blvWF_of_corePres (corePres_store _ _ _ _) hWc⟩
                  | objFwd loc bd =>
                    simp only []
                    by_cases hvd : newval = Qunbound
                    · rw [if_pos hvd]
                      exact blvOK_setPlainval _ _ _ hIc hWc
                    · rw [if_neg hvd]
                      exact ⟨blvInv_of_corePres (corePres_store _ _ _ _) hIc,
                             blvWF_of_corePres (corePres_store _ _ _ _) hWc⟩
                  | kboardObjFwd o =>
                    simp only []
                    by_cases hvd : newval = Qunbound
                    · rw [if_pos hvd]
                      exact blvOK_setPlainval _ _ _ hIc hWc
                    · rw [if_neg hvd]
                      exact ⟨blvInv_of_corePres (corePres_store _ _ _ _) hIc,
                             blvWF_of_corePres (corePres_store _ _ _ _) hWc⟩
              · exact ⟨hIc, hWc⟩
              · exact ⟨hIc, hWc⟩
              · exact ⟨hIc, hWc⟩
        · exact ⟨hF.1, hF.2⟩
        · exact ⟨hF.1, hF.2⟩
        · exact ⟨hF.1, hF.2⟩
      · rw [if_pos (by simp [hkw])]
        exact ⟨hI, hW⟩
    · rw [if_neg hsc]
      have hIc : blvInv st := hI
      have hWc : blvWF st := hW
      simp only []
      rw [if_neg hsc]
      rcases hch : chaseToNonAlias st s0 with ⟨s2, st2⟩ | ⟨e, st2⟩ | st2 | st2 <;>
        (have hst2 : st2 = st := by
          have h3 := chase_state st s0
          rw [hch] at h3
          exact h3) <;>
        subst st2 <;> simp only [hch, SRes.bind]
      · rcases hr2 : (st.syms s2).redirect with v | t | blvId | f <;> simp only [hr2]
        · exact blvOK_setPlainval _ _ _ hIc hWc
        · exact ⟨hIc, hWc⟩
        · exact sib_pres s2 blvId newval whereArg bindflag _ st hWc hIc
            (hWc.2.2.2 s2 blvId hr2)
        · cases f with
          | bufferObjFwd o idx p =>
            simp only []
            by_cases hvd : newval = Qunbound
            · rw [if_pos hvd]
              by_cases hflag : idx > 0 ∧ ¬bindflag = true ∧ ¬let_shadows_buffer_binding_p s2 st = true
              · rw [if_pos hflag]
                exact blvOK_setPlainval _ _ _
                  (blvInv_of_corePres (corePres_setPerBufferFlag _ _ _ _) hIc)
                  (blvWF_of_corePres (corePres_setPerBufferFlag _ _ _ _) hWc)
              · rw [if_neg hflag]
                exact blvOK_setPlainval _ _ _ hIc hWc
            · rw [if_neg hvd]
              by_cases hflag : idx > 0 ∧ ¬bindflag = true ∧ ¬let_shadows_buffer_binding_p s2 st = true
              · rw [if_pos hflag]
                exact ⟨blvInv_of_corePres (corePres_trans
                         (corePres_setPerBufferFlag _ _ _ _) (corePres_store _ _ _ _)) hIc,
                       blvWF_of_corePres (corePres_trans
                         (corePres_setPerBufferFlag _ _ _ _) (corePres_store _ _ _ _)) hWc⟩
              · rw [if_neg hflag]
                exact ⟨blvInv_of_corePres (corePres_store _ _ _ _) hIc,
                       blvWF_of_corePres (corePres_store _ _ _ _) hWc⟩
          | intFwd loc =>
            simp only []
            by_cases hvd : newval = Qunbound
            · rw [if_pos hvd]
              exact blvOK_setPlainval _ _ _ hIc hWc
            · rw [if_neg hvd]
              exact ⟨blvInv_of_corePres (corePres_store _ _ _ _) hIc,
                     blvWF_of_corePres (corePres_store _ _ _ _) hWc⟩
          | boolFwd loc =>
            simp only []
            by_cases hvd : newval = Qunbound
            · rw [if_pos hvd]
              exact blvOK_setPlainval _ _ _ hIc hWc
            · rw [if_neg hvd]
              exact ⟨blvInv_of_corePres (corePres_store _ _ _ _) hIc,
                     blvWF_of_corePres (corePres_store _ _ _ _) hWc⟩
          | objFwd loc bd =>
            simp only []
            by_cases hvd : newval = Qunbound
            · rw [if_pos hvd]
              exact blvOK_setPlainval _ _ _ hIc hWc
            · rw [if_neg hvd]
              exact ⟨blvInv_of_corePres (corePres_store _ _ _ _) hIc,
                     blvWF_of_corePres (corePres_store _ _ _ _) hWc⟩
          | kboardObjFwd o =>
            simp only []
            by_cases hvd : newval = Qunbound
            · rw [if_pos hvd]
              exact blvOK_setPlainval _ _ _ hIc hWc
            · rw [if_neg hvd]
              exact ⟨blvInv_of_corePres (corePres_store _ _ _ _) hIc,
                     blvWF_of_corePres (corePres_store _ _ _ _) hWc⟩
      · exact ⟨hIc, hWc⟩
      · exact ⟨hIc, hWc⟩
      · exact ⟨hIc, hWc⟩


theorem SRes_bind_ok {α β : Type} (a : α) (st : State) (k : α → State → SRes β) :
    SRes.bind (SRes.ok a st) k = k a st := rfl

theorem SRes_bind_sig {α β : Type} (e : Sig) (st : State) (k : α → State → SRes β) :
    SRes.bind (SRes.sig e st) k = SRes.sig e st := rfl

theorem SRes_bind_ab {α β : Type} (st : State) (k : α → State → SRes β) :
    SRes.bind (SRes.ab st) k = SRes.ab st := rfl

theorem SRes_bind_oom {α β : Type} (st : State) (k : α → State → SRes β) :
    SRes.bind (SRes.oom st) k = SRes.oom st := rfl

theorem make_blv_pres (s : Nat) (forwarded : Bool) (valfwd : Fwd) (valval : LObj)
    (st : State) (hI : blvInv st) :
    blvInv (make_blv s forwarded valfwd valval st).2 := by
  intro i hi
  simp only [make_blv, Fcons] at hi ⊢
  by_cases hie : i = st.nblvs
  · subst hie
    show blvInvAt (updN st.nblvs _ st.blvs st.nblvs)
    rw [updN_same]
    simp [blvInvAt]
  · show blvInvAt (updN st.nblvs _ st.blvs i)
    rw [updN_other _ _ hie]
    have hi2 : i < st.nblvs := by
      have hi3 : i < st.nblvs + 1 := hi
      omega
    exact hI i hi2

theorem blvWF_updBuf_filter (b : Nat) (q : Nat → Bool) (st : State) (hW : blvWF st) :
    blvWF (updBuf b
      (fun r => {r with local_var_alist := r.local_var_alist.filter q}) st) := by
  refine ⟨hW.1, ?_, hW.2.2.1, hW.2.2.2⟩
  intro i hi b2
  show (st.blvs i).defcell ∉
    ((updN b {st.bufs b with
        local_var_alist := (st.bufs b).local_var_alist.filter q} st.bufs) b2).local_var_alist
  by_cases hb2 : b2 = b
  · subst hb2
    rw [updN_same]
    intro hm
    exact hW.2.1 i hi b2 (List.mem_of_mem_filter hm)
  · rw [updN_other _ _ hb2]
    exact hW.2.1 i hi b2

theorem resState_bind_pure2 {α β : Type} (r : SRes α) (k : α → State → SRes β)
    (hk : ∀ a st2, resState (k a st2) = st2) :
    resState (SRes.bind r k) = resState r := by
  cases r with
  | ok a st => exact hk a st
  | sig e st => rfl
  | ab st => rfl
  | oom st => rfl

set_option maxHeartbeats 2000000 in
theorem kill_pres (varbl : LObj) (st : State) (hW : blvWF st) (hI : blvInv st) :
    blvInv (resState (Fkill_local_variable varbl st))
    ∧ blvWF (resState (Fkill_local_variable varbl st)) := by
  simp only [Fkill_local_variable]
  cases varbl with
  | num n => exact ⟨hI, hW⟩
  | str s2 => exact ⟨hI, hW⟩
  | cell c => exact ⟨hI, hW⟩
  | buffer b => exact ⟨hI, hW⟩
  | frame fr => exact ⟨hI, hW⟩
  | sym s0 =>
    simp only []
    rcases hch : chaseToNonAlias st s0 with ⟨s2, st2⟩ | ⟨e, st2⟩ | st2 | st2 <;>
      (have hst2 : st2 = st := by
        have h3 := chase_state st s0
        rw [hch] at h3
        exact h3) <;>
      subst st2 <;>
      simp only [hch, SRes_bind_ok, SRes_bind_sig, SRes_bind_ab, SRes_bind_oom]
    · rcases hr2 : (st.syms s2).redirect with v | t | blvId | f <;> simp only [hr2]
      · exact ⟨hI, hW⟩
      · exact ⟨hI, hW⟩
      · -- SYMBOL_LOCALIZED
        have hblt : blvId < st.nblvs := hW.2.2.2 s2 blvId hr2
        have hal0 : isAlias st s2 = false := by
          simp [isAlias, hr2]
        by_cases hfl : (st.blvs blvId).frame_local = true
        · rw [if_pos hfl]
          exact ⟨hI, hW⟩
        · rw [if_neg hfl]
          rcases ha : assqIds st (LObj.sym s2) ((st.bufs st.currentBuffer).local_var_alist)
            with _ | c <;> simp only [ha]
          · -- nothing to remove
            split
            · rw [resState_bind_pure2]
              · refine (find_pres (LObj.sym s2) _ blvId ?_ ?_ ?_)
                · exact blvWF_putBlv hW (hW.1 blvId hblt) (hW.2.1 blvId hblt)
                    (hW.2.2.1 blvId hblt)
                · intro i hi hne
                  show blvInvAt (updN blvId _ st.blvs i)
                  rw [updN_other _ _ hne]
                  exact hI i hi
                · intro _
                  refine Or.inr ⟨s2, rfl, hal0, hr2, ?_⟩
                  show (updN blvId _ st.blvs blvId).whereB = Qnil
                  rw [updN_same]
              · intro a st4
                rfl
            · exact ⟨hI, hW⟩
          · -- remove the alist element for this buffer
            have hI2 : blvInv (updBuf st.currentBuffer
                (fun r => {r with local_var_alist :=
                  r.local_var_alist.filter (fun x => decide (x ≠ c))}) st) := hI
            have hW2 := blvWF_updBuf_filter st.currentBuffer
              (fun x => decide (x ≠ c)) st hW
            split
            · rw [resState_bind_pure2]
              · refine (find_pres (LObj.sym s2) _ blvId ?_ ?_ ?_)
                · exact blvWF_putBlv hW2 (hW2.1 blvId hblt) (hW2.2.1 blvId hblt)
                    (hW2.2.2.1 blvId hblt)
                · intro i hi hne
                  show blvInvAt (updN blvId _
                    (updBuf st.currentBuffer _ st).blvs i)
                  rw [updN_other _ _ hne]
                  exact hI2 i hi
                · intro _
                  refine Or.inr ⟨s2, rfl, hal0, hr2, ?_⟩
                  show (updN blvId _ (updBuf st.currentBuffer _ st).blvs blvId).whereB = Qnil
                  rw [updN_same]
              · intro a st4
                rfl
            · exact ⟨hI2, hW2⟩
      · -- forwarded
        cases f with
        | bufferObjFwd o idx p =>
          simp only []
          by_cases hidx : idx > 0
          · rw [if_pos hidx]
            exact ⟨blvInv_of_corePres (corePres_trans (corePres_setPerBufferFlag _ _ _ _)
                     (corePres_set_per_buffer_value _ _ _ _)) hI,
                   blvWF_of_corePres (corePres_trans (corePres_setPerBufferFlag _ _ _ _)
                     (corePres_set_per_buffer_value _ _ _ _)) hW⟩
          · rw [if_neg hidx]
            exact ⟨hI, hW⟩
        | intFwd loc => exact ⟨hI, hW⟩
        | boolFwd loc => exact ⟨hI, hW⟩
        | objFwd loc bd => exact ⟨hI, hW⟩
        | kboardObjFwd o => exact ⟨hI, hW⟩
    · exact ⟨hI, hW⟩
    · exact ⟨hI, hW⟩
    · exact ⟨hI, hW⟩


/-- C6: for every `SYMBOL_LOCALIZED` symbol's BLV, at every observable point —
after any Get (`find_symbol_value`), Set (`set_internal`), Swap-In
(`swap_in_symval_forwarding`), MakeLocalized (`make_blv`) or
kill-local-variable (`Fkill_local_variable`) operation — the `found` flag
equals the proposition that the default cell and the loaded value cell are
not the identical object (`EQ` on cell ids, not value equality): the
invariant `blvInv` is preserved by every one of these operations, whatever
their outcome, and `make_blv` establishes it for the fresh BLV, under the
heap discipline `blvWF` (default cells allocated and never threaded onto a
`local_var_alist` / `param_alist` spine; `SYMBOL_LOCALIZED` redirects in
range) that the C allocator guarantees. -/
theorem C6_blv_found_invariant :
    (∀ (symbol : LObj) (st : State), blvWF st → blvInv st →
       blvInv (resState (find_symbol_value symbol st)))
    ∧ (∀ (symbol newval whereArg : LObj) (bindflag : Bool) (st : State),
       blvWF st → blvInv st →
       blvInv (resState (set_internal symbol newval whereArg bindflag st)))
    ∧ (∀ (s blvId : Nat) (st : State), blvWF st → blvInv st → blvId < st.nblvs →
       blvInv (resState (swap_in_symval_forwarding s blvId st)))
    ∧ (∀ (s : Nat) (forwarded : Bool) (valfwd : Fwd) (valval : LObj) (st : State),
       blvInv st → blvInv (make_blv s forwarded valfwd valval st).2)
    ∧ (∀ (varbl : LObj) (st : State), blvWF st → blvInv st →
       blvInv (resState (Fkill_local_variable varbl st))) := by
  refine ⟨?_, ?_, ?_, ?_, ?_⟩
  · intro symbol st hW hI
    exact (find_pres_full symbol st hW hI).1
  · intro symbol newval whereArg bindflag st hW hI
    exact (set_internal_pres symbol newval whereArg bindflag st hW hI).1
  · intro s blvId st hW hI hlt
    exact (swap_pres s blvId hW hlt (fun i hi _ => hI i hi) (Or.inl (hI blvId hlt))).1
  · intro s forwarded valfwd valval st hI
    exact make_blv_pres s forwarded valfwd valval st hI
  · intro varbl st hW hI
    exact (kill_pres varbl st hW hI).1

/-- Witness for C6 on `c6State` (symbol 40 buffer-local with a loaded local
binding in the current buffer): each of the five operations leaves `blvInv`
holding. -/
theorem C6_blv_found_invariant_witness :
    blvInv (resState (find_symbol_value (.sym 40) c6State))
    ∧ blvInv (resState (set_internal (.sym 40) (.num 9) Qnil false c6State))
    ∧ blvInv (resState (swap_in_symval_forwarding 40 0 c6State))
    ∧ blvInv (make_blv 41 false (.intFwd 0) (.num 3) c6State).2
    ∧ blvInv (resState (Fkill_local_variable (.sym 40) c6State)) := by
  have hWF : blvWF c6State := by
    refine ⟨?_, ?_, ?_, ?_⟩
    · intro i hi
      have h0 : i = 0 := by
        have h1 : i < 1 := hi
        omega
      subst h0
      decide
    · intro i hi b
      have h0 : i = 0 := by
        have h1 : i < 1 := hi
        omega
      subst h0
      by_cases hb : b = 0 <;> simp [c6State, updN, hb]
    · intro i hi fr
      have h0 : i = 0 := by
        have h1 : i < 1 := hi
        omega
      subst h0
      simp [c6State, baseState, updN]
    · intro s i h
      by_cases hs : s = 40
      · subst hs
        have h2 : Redirect.localized 0 = Redirect.localized i := by
          rw [← h]
          decide
        injection h2 with h3
        show i < 1
        omega
      · by_cases hs2 : s < 2 <;>
          simp [c6State, baseState, baseSym, updN, hs, hs2] at h
  have hI : blvInv c6State := by
    intro i hi
    have h0 : i = 0 := by
      have h1 : i < 1 := hi
      omega
    subst h0
    simp [blvInvAt, c6State, updN]
  exact ⟨C6_blv_found_invariant.1 (.sym 40) c6State hWF hI,
         C6_blv_found_invariant.2.1 (.sym 40) (.num 9) Qnil false c6State hWF hI,
         C6_blv_found_invariant.2.2.1 40 0 c6State hWF hI (by decide),
         C6_blv_found_invariant.2.2.2.1 41 false (.intFwd 0) (.num 3) c6State hI,
         C6_blv_found_invariant.2.2.2.2 (.sym 40) c6State hWF hI⟩



/-- C1: if, during an unwind, the cleanup at binding-stack position k itself
raises a Signal that is caught by an outer handler and triggers a second
unwind targeting a depth below k, every binding-stack entry below k is still
undone exactly once — none skipped, none undone twice.  Part one quantifies
over arbitrary let/unwind-protect interleavings `items2` above and `items1`
below the signalling cleanup: the first `runTo` undoes exactly the entries
above k (trace `expectedTrace items2 ...`) and stops at the cleanup's signal
with the entries below k untouched; resuming the unwind from the stopped
state (as `ctlRun`'s signal machinery does after the outer handler's prompt
is found) undoes exactly the entries below k, each once (appending
`expectedTrace items1 ...`).  Part two runs the full machinery end to end
(`c1Expr`: catch around condition-case around let 30, a signalling cleanup,
let 31, throw): the throw's unwind restores 31 once, the cleanup signals and
is caught by the condition-case, whose second unwind restores 30 once; the
final log holds each undo exactly once, the binding stack is empty, and both
symbols are back at their old values. -/
theorem C1_cleanup_signal_exact_once :
    (∀ (items2 items1 : List NestItem) (σ : Nat → SymbolRec) (f : Nat) (es : LObj)
       (dt : List LObj) (r : List DynEntry) (p : List SpecpdlEntry) (t : Nat) (st : State),
       st.dynwind = segDyn items2
           ++ .cleanupE (.signalK f es dt) true :: (segDyn items1 ++ r) →
       st.specpdl = segSpec items2 (segSyms items1 σ) ++ (segSpec items1 σ ++ p) →
       st.syms = segSyms items2 (segSyms items1 σ) →
       segSymsOK items2 (segSyms items1 σ) = true →
       segSymsOK items1 σ = true →
       t ≤ r.length →
       runTo t st.dynwind.length st
         = .stoppedSig ⟨es, dt⟩
             {st with
               dynwind := segDyn items1 ++ r,
               specpdl := segSpec items1 σ ++ p,
               syms := segSyms items1 σ,
               log := (st.log ++ expectedTrace items2 (segSyms items1 σ))
                 ++ [.cleanupRan f]}
       ∧ runTo t (segDyn items1 ++ r).length
             {st with
               dynwind := segDyn items1 ++ r,
               specpdl := segSpec items1 σ ++ p,
               syms := segSyms items1 σ,
               log := (st.log ++ expectedTrace items2 (segSyms items1 σ))
                 ++ [.cleanupRan f]}
         = runTo t r.length
             {st with
               dynwind := r,
               specpdl := p,
               syms := σ,
               log := ((st.log ++ expectedTrace items2 (segSyms items1 σ))
                 ++ [.cleanupRan f]) ++ expectedTrace items1 σ})
    ∧ ((evalE 12 c1Expr baseState).1 = .ok (.num 99)
       ∧ (evalE 12 c1Expr baseState).2.log
           = [.restored 31 Qnil, .cleanupRan 7, .restored 30 Qnil]
       ∧ (evalE 12 c1Expr baseState).2.specpdl = []
       ∧ (evalE 12 c1Expr baseState).2.dynwind = []
       ∧ ((evalE 12 c1Expr baseState).2.syms 30).redirect = .plainval Qnil
       ∧ ((evalE 12 c1Expr baseState).2.syms 31).redirect = .plainval Qnil) := by
  constructor
  · intro items2 items1 σ f es dt r p t st h1 h2 h3 h4 h5 ht
    constructor
    · rw [runTo_seg items2 (segSyms items1 σ)
            (.cleanupE (.signalK f es dt) true :: (segDyn items1 ++ r))
            (segSpec items1 σ ++ p) t st h1 h2 h3 h4
            (by simp [List.length_append]; omega)]
      rw [runTo_sigCleanup_step t
            (DynEntry.cleanupE (CleanupK.signalK f es dt) true
              :: (segDyn items1 ++ r)).length
            {st with
              dynwind := DynEntry.cleanupE (CleanupK.signalK f es dt) true
                :: (segDyn items1 ++ r),
              specpdl := segSpec items1 σ ++ p,
              syms := segSyms items1 σ,
              log := st.log ++ expectedTrace items2 (segSyms items1 σ)}
            f es dt true (segDyn items1 ++ r) rfl rfl
            (by simp [List.length_append]; omega)]
      congr 1
    · exact runTo_seg items1 σ r p t
        {st with
          dynwind := segDyn items1 ++ r,
          specpdl := segSpec items1 σ ++ p,
          syms := segSyms items1 σ,
          log := (st.log ++ expectedTrace items2 (segSyms items1 σ))
            ++ [.cleanupRan f]}
        rfl rfl rfl h5 ht
  · decide

/-- Witness for C1 at a one-let-below / one-let-above instance of the
quantified part, target depth 0. -/
theorem C1_cleanup_signal_exact_once_witness :
    runTo 0 c1Wit0.dynwind.length c1Wit0
      = .stoppedSig ⟨.sym qArithError, []⟩ c1Wit1
    ∧ runTo 0 c1Wit1.dynwind.length c1Wit1
      = runTo 0 ([] : List DynEntry).length c1Wit2 :=
  C1_cleanup_signal_exact_once.1 c1Items2 c1Items1 baseState.syms 7
    (.sym qArithError) [] [] [] 0 c1Wit0 rfl rfl rfl (by decide) (by decide) (by decide)

end GE
